import Mathlib

/-!
Mython interpreter: lexer, runtime and evaluator.

A shallow embedding of `lexer.cpp`, `runtime.cpp` and `statement.cpp`.

* Objects of the runtime are values of `runtime.Object`; an `ObjectHolder` is
  `Option Object`, the empty holder being `none`.
* A `ClassInstance` is mutable and shared through holders, so it lives in a heap:
  the holder carries the instance's class (which never changes) and its address,
  the heap maps the address to the instance's field closure.
* `Execute` of a node takes the closure and the machine state (output stream and
  heap) and returns the outcome together with the closure and state it leaves.
  C++ exceptions are abrupt outcomes.  Recursion through method calls is bounded
  by a fuel argument.
-/

namespace runtime

/-- Modelled from the spec: the type `Comparator` of a `Comparison` node is declared in
statement.h, which is not among the sources; its values are the six comparison
functions of runtime.cpp (`Equal`, `NotEqual`, `Less`, `Greater`, `LessOrEqual`,
`GreaterOrEqual`). -/
inductive Comparator where
  | Equal
  | NotEqual
  | Less
  | Greater
  | LessOrEqual
  | GreaterOrEqual
deriving DecidableEq, Repr

mutual
/-- Nodes of the syntax tree, one constructor per class of statement.cpp that has an
`Execute`, and the literal nodes.  `NewInstance` carries `node`, the identity of the
node: its member `class_instance_` is the instance at address `Addr.node node`. -/
inductive Executable where
  /-- Modelled from the spec: the node `None` is declared in statement.h, which is not
  among the sources; it yields the empty holder. -/
  | None
  /-- Modelled from the spec: the literal nodes are declared in statement.h, which is not
  among the sources; a number literal yields a holder of its `Number`. -/
  | NumericConst (value : Int)
  /-- Modelled from the spec: a string literal yields a holder of its `String`. -/
  | StringConst (value : String)
  /-- Modelled from the spec: `True` and `False` yield a holder of their `Bool`. -/
  | BoolConst (value : Bool)
  | Assignment (var : String) (rv : Executable)
  | VariableValue (ids : List String)
  | Print (args : List Executable)
  | MethodCall (object : Executable) (method : String) (args : List Executable)
  | Stringify (argument : Executable)
  | Add (lhs rhs : Executable)
  | Sub (lhs rhs : Executable)
  | Mult (lhs rhs : Executable)
  | Div (lhs rhs : Executable)
  | Compound (stmts : List Executable)
  | Return (statement : Executable)
  | ClassDefinition (cls : Class)
  | FieldAssignment (object : List String) (field_name : String) (rv : Executable)
  | IfElse (condition if_body : Executable) (else_body : Option Executable)
  | Or (lhs rhs : Executable)
  | And (lhs rhs : Executable)
  | Not (argument : Executable)
  | Comparison (cmp : Comparator) (lhs rhs : Executable)
  | NewInstance (node : Nat) (cls : Class) (args : List Executable)
  | MethodBody (body : Executable)
/-- A method of a class: name, formal parameters, body. -/
inductive Method where
  | mk (name : String) (formal_params : List String) (body : Executable)
/-- A class: name, own methods, parent class (absent for a root class). -/
inductive Class where
  | mk (name : String) (methods : List Method) (parent : Option Class)
end

def Method.name : Method → String
  | .mk n _ _ => n

def Method.formal_params : Method → List String
  | .mk _ ps _ => ps

def Method.body : Method → Executable
  | .mk _ _ b => b

def Class.GetName : Class → String
  | .mk n _ _ => n

def Class.methods_ : Class → List Method
  | .mk _ ms _ => ms

def Class.parent_ : Class → Option Class
  | .mk _ _ p => p

/-- Where a `ClassInstance` object lives: `node n` is the member `class_instance_` of the
`NewInstance` node `n`; `own n` is the `n`-th object allocated by `ObjectHolder::Own`. -/
inductive Addr where
  | node (n : Nat)
  | own (n : Nat)
deriving DecidableEq, Repr

/-- A runtime object.  A `ClassInstance` is given by its class `cls_` and its address. -/
inductive Object where
  | Number (value : Int)
  | String (value : String)
  | Bool (value : Bool)
  | Class (cls : Class)
  | ClassInstance (cls : Class) (addr : Addr)

/-- An `ObjectHolder`: `none` is the empty holder (`None` of the language). -/
abbrev ObjectHolder := Option Object

/-- A `Closure` (`unordered_map<string, ObjectHolder>`), as an association list with
at most one entry per key. -/
abbrev Closure := List (String × ObjectHolder)

/-- The method `closure.at(key)` of the map; `none` when `closure.count(key)` is 0. -/
def Closure.at (closure : Closure) (key : String) : Option ObjectHolder :=
  closure.lookup key

/-- The assignment `closure[key] = value`: overwrite the binding or add one. -/
def Closure.set : Closure → String → ObjectHolder → Closure
  | [], key, value => [(key, value)]
  | (k, v) :: rest, key, value =>
    if k = key then (key, value) :: rest else (k, v) :: Closure.set rest key value

/-- The machine state an execution acts on: the output stream of the `Context`, the
fields of every `ClassInstance` that has some (an address without entry has no field),
and the number of objects allocated by `ObjectHolder::Own` so far. -/
structure State where
  output : String
  heap : List (Addr × Closure)
  owned : Nat

/-- The call `Fields()` of the instance at `addr`. -/
def State.Fields (st : State) (addr : Addr) : Closure :=
  (st.heap.lookup addr).getD []

/-- Replace the fields of the instance at `addr`. -/
def setFields : List (Addr × Closure) → Addr → Closure → List (Addr × Closure)
  | [], addr, fields => [(addr, fields)]
  | (a, f) :: rest, addr, fields =>
    if a = addr then (addr, fields) :: rest else (a, f) :: setFields rest addr fields

/-- The assignment `Fields()[key] = value` on the instance at `addr`. -/
def State.setField (st : State) (addr : Addr) (key : String) (value : ObjectHolder) : State :=
  { st with heap := setFields st.heap addr ((st.Fields addr).set key value) }

/-- Append text to the output stream. -/
def State.write (st : State) (text : String) : State :=
  { st with output := st.output ++ text }

/-- Ways an evaluation ends other than by returning: a `ReturnException` in flight, a
`std::runtime_error` in flight, behaviour the C++ standard leaves undefined (a null
pointer dereferenced, a failed `assert`), and the fuel of the model used up. -/
inductive Abrupt where
  | ReturnException (result : ObjectHolder)
  | runtime_error (what : String)
  | undefined
  | outOfFuel

/-- Outcome of a call: it returns a value or ends abruptly. -/
inductive Outcome (α : Type) where
  | value (a : α)
  | abrupt (e : Abrupt)

/-- The evaluator of method bodies (`Executable::Execute`), as the runtime sees it. -/
abbrev Executor := Executable → Closure → State → Outcome ObjectHolder × Closure × State

/-- Truthiness of a holder, `IsTrue` of runtime.cpp. -/
def IsTrue : ObjectHolder → Bool
  | some (.Number value) => value != 0
  | some (.String value) => value != ""
  | some (.Bool value) => value
  | _ => false

/-- Search of a method list by name (`std::find_if` with `method.name == name`). -/
def find_if (methods : List Method) (name : String) : Option Method :=
  methods.find? (fun method => method.name == name)

/-- Method resolution, `Class::GetMethod`: the class itself first, then the parents. -/
def Class.GetMethod : Class → String → Option Method
  | .mk _ methods none, name => find_if methods name
  | .mk _ methods (some parent), name =>
    match find_if methods name with
    | some method => some method
    | none => Class.GetMethod parent name

/-- Arity check, `ClassInstance::HasMethod`. -/
def HasMethod (cls : Class) (method : String) (argument_count : Nat) : Bool :=
  match cls.GetMethod method with
  | some method_ptr => method_ptr.formal_params.length == argument_count
  | none => false

/-- The loop of `ClassInstance::Call` that binds `formal_params[i]` to `actual_args[i]`
for `i < actual_args.size()`. -/
def bindArgs : Closure → List String → List ObjectHolder → Closure
  | closure, param :: params, arg :: args => bindArgs (closure.set param arg) params args
  | closure, _, _ => closure

/-- Method call, `ClassInstance::Call`, on the instance of class `cls` at `addr`. -/
def Call (exec : Executor) (cls : Class) (addr : Addr) (method : String)
    (actual_args : List ObjectHolder) (st : State) : Outcome ObjectHolder × State :=
  if HasMethod cls method actual_args.length then
    match cls.GetMethod method with
    | some method_ptr =>
      let temp_closure :=
        bindArgs (Closure.set [] "self" (some (.ClassInstance cls addr)))
          method_ptr.formal_params actual_args
      let r := exec method_ptr.body temp_closure st
      (r.1, r.2.2)
    | none => (.abrupt .undefined, st)
  else
    (.abrupt (.runtime_error "There is no such method!"), st)

/-- Text printed for a pointer (`os << this`); the format is implementation-defined. -/
def AddressText : Addr → String
  | .node n => "<instance node " ++ toString n ++ ">"
  | .own n => "<instance own " ++ toString n ++ ">"

/-- Modelled from the spec: `Number::Print` is declared in runtime.h, which is not among
the sources; it writes the decimal digits of the value, with a minus sign before those
of a negative value. -/
def Number.Print (value : Int) : String :=
  toString value

/-- Modelled from the spec: `String::Print` is declared in runtime.h, which is not among
the sources; it writes the contents of the string as they are. -/
def String.Print (value : String) : String :=
  value

/-- The virtual `Object::Print`: the text written to `os`, and the state left by the
calls of `__str__` it makes.  The fuel bounds the chain of `__str__` results that are
instances with a `__str__` of their own. -/
def Print (exec : Executor) : Nat → Object → State → Outcome String × State
  | _, .Number value, st => (.value (Number.Print value), st)
  | _, .String value, st => (.value (String.Print value), st)
  | _, .Bool value, st => (.value (if value then "True" else "False"), st)
  | _, .Class cls, st => (.value ("Class " ++ cls.GetName), st)
  | 0, .ClassInstance _ _, st => (.abrupt .outOfFuel, st)
  | fuel + 1, .ClassInstance cls addr, st =>
    if HasMethod cls "__str__" 0 then
      match Call exec cls addr "__str__" [] st with
      | (.value (some result), st1) => Print exec fuel result st1
      | (.value none, st1) => (.abrupt .undefined, st1)
      | (.abrupt e, st1) => (.abrupt e, st1)
    else
      (.value (AddressText addr), st)

/-- Lexicographic order of `std::string::operator<`. -/
def stringLess : List Char → List Char → Bool
  | _, [] => false
  | [], _ :: _ => true
  | a :: as, b :: bs => if a < b then true else if a = b then stringLess as bs else false

/-- Equality of holders, `Equal` of runtime.cpp. -/
def Equal (exec : Executor) (lhs rhs : ObjectHolder) (st : State) : Outcome Bool × State :=
  match lhs, rhs with
  | none, none => (.value true, st)
  | some (.ClassInstance cls addr), _ =>
    if HasMethod cls "__eq__" 1 then
      match Call exec cls addr "__eq__" [rhs] st with
      | (.value result, st1) => (.value (IsTrue result), st1)
      | (.abrupt e, st1) => (.abrupt e, st1)
    else
      (.abrupt (.runtime_error "Cannot compare objects for equality"), st)
  | some (.Number l), some (.Number r) => (.value (l == r), st)
  | some (.String l), some (.String r) => (.value (l == r), st)
  | some (.Bool l), some (.Bool r) => (.value (l == r), st)
  | _, _ => (.abrupt (.runtime_error "Cannot compare objects for equality"), st)

/-- Order of holders, `Less` of runtime.cpp. -/
def Less (exec : Executor) (lhs rhs : ObjectHolder) (st : State) : Outcome Bool × State :=
  match lhs, rhs with
  | some (.ClassInstance cls addr), _ =>
    if HasMethod cls "__lt__" 1 then
      match Call exec cls addr "__lt__" [rhs] st with
      | (.value result, st1) => (.value (IsTrue result), st1)
      | (.abrupt e, st1) => (.abrupt e, st1)
    else
      (.abrupt (.runtime_error "Cannot compare objects for less"), st)
  | some (.Number l), some (.Number r) => (.value (decide (l < r)), st)
  | some (.String l), some (.String r) => (.value (stringLess l.data r.data), st)
  | some (.Bool l), some (.Bool r) => (.value (!l && r), st)
  | _, _ => (.abrupt (.runtime_error "Cannot compare objects for less"), st)

/-- The function `NotEqual` of runtime.cpp. -/
def NotEqual (exec : Executor) (lhs rhs : ObjectHolder) (st : State) : Outcome Bool × State :=
  match Equal exec lhs rhs st with
  | (.value b, st1) => (.value (!b), st1)
  | (.abrupt e, st1) => (.abrupt e, st1)

/-- The function `Greater` of runtime.cpp: `!Less(lhs, rhs) && NotEqual(lhs, rhs)`, the
second call made only when the first returned false. -/
def Greater (exec : Executor) (lhs rhs : ObjectHolder) (st : State) : Outcome Bool × State :=
  match Less exec lhs rhs st with
  | (.value true, st1) => (.value false, st1)
  | (.value false, st1) => NotEqual exec lhs rhs st1
  | (.abrupt e, st1) => (.abrupt e, st1)

/-- The function `LessOrEqual` of runtime.cpp. -/
def LessOrEqual (exec : Executor) (lhs rhs : ObjectHolder) (st : State) : Outcome Bool × State :=
  match Greater exec lhs rhs st with
  | (.value b, st1) => (.value (!b), st1)
  | (.abrupt e, st1) => (.abrupt e, st1)

/-- The function `GreaterOrEqual` of runtime.cpp. -/
def GreaterOrEqual (exec : Executor) (lhs rhs : ObjectHolder) (st : State) : Outcome Bool × State :=
  match Less exec lhs rhs st with
  | (.value b, st1) => (.value (!b), st1)
  | (.abrupt e, st1) => (.abrupt e, st1)

/-- Application of a comparator. -/
def Comparator.apply (exec : Executor) : Comparator → ObjectHolder → ObjectHolder → State →
    Outcome Bool × State
  | .Equal => runtime.Equal exec
  | .NotEqual => runtime.NotEqual exec
  | .Less => runtime.Less exec
  | .Greater => runtime.Greater exec
  | .LessOrEqual => runtime.LessOrEqual exec
  | .GreaterOrEqual => runtime.GreaterOrEqual exec

end runtime

namespace ast

open runtime

/-- A statement is an `Executable` (`using Statement = runtime::Executable`). -/
abbrev Statement := runtime.Executable

/-- Result of `Execute`: the outcome, the closure and the state left behind. -/
abbrev Result := Outcome ObjectHolder × Closure × State

/-- Value of an `int` expression: the two's-complement result in 32 bits. -/
def int32 (x : Int) : Int :=
  (x + 2147483648) % 4294967296 - 2147483648

/-- The method `Assignment::Execute`: `closure[var_] = rv_->Execute(closure, context)`. -/
def Assignment.Execute (exec : Executor) (var : String) (rv : Statement)
    (closure : Closure) (st : State) : Result :=
  match exec rv closure st with
  | (.value v, closure1, st1) => (.value v, closure1.set var v, st1)
  | (.abrupt e, closure1, st1) => (.abrupt e, closure1, st1)

/-- The method `VariableValue::Execute`: the first name is looked up in the closure, each
further name in the fields of the instance found so far. -/
def VariableValue.Execute : List String → Closure → State → Outcome ObjectHolder
  | [], _, _ => .abrupt .undefined
  | id :: ids, closure, st =>
    match closure.at id with
    | none => .abrupt (.runtime_error "No such variable!")
    | some result =>
      match ids with
      | [] => .value result
      | _ :: _ =>
        match result with
        | some (.ClassInstance _ addr) => VariableValue.Execute ids (st.Fields addr) st
        | _ => .abrupt .undefined

/-- The text `Print::Execute` writes for the value of an argument:
`if (temp_exec) temp_exec->Print(out, context); else out << "None";`. -/
def Print.text (exec : Executor) (fuel : Nat) (temp_exec : ObjectHolder) (st : State) :
    Outcome String × State :=
  match temp_exec with
  | some object => runtime.Print exec fuel object st
  | none => (.value "None", st)

/-- The loop of `Print::Execute` over `args_`: each argument is executed and printed, with
a space after every argument but the last. -/
def Print.loop (exec : Executor) (fuel : Nat) : List Statement → Closure → State →
    Outcome Unit × Closure × State
  | [], closure, st => (.value (), closure, st)
  | arg :: rest, closure, st =>
    match exec arg closure st with
    | (.abrupt e, closure1, st1) => (.abrupt e, closure1, st1)
    | (.value temp_exec, closure1, st1) =>
      match Print.text exec fuel temp_exec st1 with
      | (.abrupt e, st2) => (.abrupt e, closure1, st2)
      | (.value text, st2) =>
        let st3 := st2.write text
        let st4 := if rest.isEmpty then st3 else st3.write " "
        Print.loop exec fuel rest closure1 st4

/-- The method `Print::Execute`. -/
def Print.Execute (exec : Executor) (fuel : Nat) (args : List Statement)
    (closure : Closure) (st : State) : Result :=
  match Print.loop exec fuel args closure st with
  | (.value _, closure1, st1) => (.value none, closure1, st1.write "\n")
  | (.abrupt e, closure1, st1) => (.abrupt e, closure1, st1)

/-- The loops `for (arg : args_) obj_args.push_back(arg->Execute(closure, context))` of
`MethodCall::Execute` and `NewInstance::Execute`. -/
def ExecuteArgs (exec : Executor) : List Statement → Closure → State →
    Outcome (List ObjectHolder) × Closure × State
  | [], closure, st => (.value [], closure, st)
  | arg :: rest, closure, st =>
    match exec arg closure st with
    | (.abrupt e, closure1, st1) => (.abrupt e, closure1, st1)
    | (.value v, closure1, st1) =>
      match ExecuteArgs exec rest closure1 st1 with
      | (.value vs, closure2, st2) => (.value (v :: vs), closure2, st2)
      | (.abrupt e, closure2, st2) => (.abrupt e, closure2, st2)

/-- The method `MethodCall::Execute`: the arguments are executed, then the object, then
the method is called; an object that is no instance makes the call dereference null. -/
def MethodCall.Execute (exec : Executor) (object : Statement) (method : String)
    (args : List Statement) (closure : Closure) (st : State) : Result :=
  match ExecuteArgs exec args closure st with
  | (.abrupt e, closure1, st1) => (.abrupt e, closure1, st1)
  | (.value obj_args, closure1, st1) =>
    match exec object closure1 st1 with
    | (.abrupt e, closure2, st2) => (.abrupt e, closure2, st2)
    | (.value (some (.ClassInstance cls addr)), closure2, st2) =>
      let r := Call exec cls addr method obj_args st2
      (r.1, closure2, r.2)
    | (.value _, closure2, st2) => (.abrupt .undefined, closure2, st2)

/-- The method `Stringify::Execute`. -/
def Stringify.Execute (exec : Executor) (fuel : Nat) (argument : Statement)
    (closure : Closure) (st : State) : Result :=
  match exec argument closure st with
  | (.abrupt e, closure1, st1) => (.abrupt e, closure1, st1)
  | (.value (some (.ClassInstance cls addr)), closure1, st1) =>
    if HasMethod cls "__str__" 0 then
      match Call exec cls addr "__str__" [] st1 with
      | (.abrupt e, st2) => (.abrupt e, closure1, st2)
      | (.value none, st2) => (.abrupt .undefined, closure1, st2)
      | (.value (some res), st2) =>
        match runtime.Print exec fuel res st2 with
        | (.value text, st3) => (.value (some (.String text)), closure1, st3)
        | (.abrupt e, st3) => (.abrupt e, closure1, st3)
    else
      (.value (some (.String (AddressText addr))), closure1, st1)
  | (.value none, closure1, st1) => (.value (some (.String "None")), closure1, st1)
  | (.value (some obj), closure1, st1) =>
    match runtime.Print exec fuel obj st1 with
    | (.value text, st2) => (.value (some (.String text)), closure1, st2)
    | (.abrupt e, st2) => (.abrupt e, closure1, st2)

/-- Execution of the two operands of a binary operation, `lhs_` first. -/
def ExecuteOperands (exec : Executor) (lhs rhs : Statement) (closure : Closure) (st : State) :
    Outcome (ObjectHolder × ObjectHolder) × Closure × State :=
  match exec lhs closure st with
  | (.abrupt e, closure1, st1) => (.abrupt e, closure1, st1)
  | (.value lhs_obj, closure1, st1) =>
    match exec rhs closure1 st1 with
    | (.abrupt e, closure2, st2) => (.abrupt e, closure2, st2)
    | (.value rhs_obj, closure2, st2) => (.value (lhs_obj, rhs_obj), closure2, st2)

/-- The method `Add::Execute`. -/
def Add.Execute (exec : Executor) (lhs rhs : Statement) (closure : Closure) (st : State) :
    Result :=
  match ExecuteOperands exec lhs rhs closure st with
  | (.abrupt e, closure1, st1) => (.abrupt e, closure1, st1)
  | (.value (some (.Number l), some (.Number r)), closure1, st1) =>
    (.value (some (.Number (int32 (l + r)))), closure1, st1)
  | (.value (some (.String l), some (.String r)), closure1, st1) =>
    (.value (some (.String (l ++ r))), closure1, st1)
  | (.value (some (.ClassInstance cls addr), rhs_obj), closure1, st1) =>
    if HasMethod cls "__add__" 1 then
      let r := Call exec cls addr "__add__" [rhs_obj] st1
      (r.1, closure1, r.2)
    else
      (.abrupt (.runtime_error "Wrong types!"), closure1, st1)
  | (.value _, closure1, st1) => (.abrupt (.runtime_error "Wrong types!"), closure1, st1)

/-- The method `Sub::Execute`. -/
def Sub.Execute (exec : Executor) (lhs rhs : Statement) (closure : Closure) (st : State) :
    Result :=
  match ExecuteOperands exec lhs rhs closure st with
  | (.abrupt e, closure1, st1) => (.abrupt e, closure1, st1)
  | (.value (some (.Number l), some (.Number r)), closure1, st1) =>
    (.value (some (.Number (int32 (l - r)))), closure1, st1)
  | (.value _, closure1, st1) => (.abrupt (.runtime_error "Wrong types!"), closure1, st1)

/-- The method `Mult::Execute`. -/
def Mult.Execute (exec : Executor) (lhs rhs : Statement) (closure : Closure) (st : State) :
    Result :=
  match ExecuteOperands exec lhs rhs closure st with
  | (.abrupt e, closure1, st1) => (.abrupt e, closure1, st1)
  | (.value (some (.Number l), some (.Number r)), closure1, st1) =>
    (.value (some (.Number (int32 (l * r)))), closure1, st1)
  | (.value _, closure1, st1) => (.abrupt (.runtime_error "Wrong types!"), closure1, st1)

/-- The method `Div::Execute`; the quotient of `int` operands truncates toward zero.  The
quotient of `INT_MIN` by `-1` is no `int`: C++ leaves that division undefined, and on
common hardware it traps and the program is killed. -/
def Div.Execute (exec : Executor) (lhs rhs : Statement) (closure : Closure) (st : State) :
    Result :=
  match ExecuteOperands exec lhs rhs closure st with
  | (.abrupt e, closure1, st1) => (.abrupt e, closure1, st1)
  | (.value (some (.Number l), some (.Number r)), closure1, st1) =>
    if r = 0 then (.abrupt (.runtime_error "Zero division!"), closure1, st1)
    else if l = -2147483648 ∧ r = -1 then (.abrupt .undefined, closure1, st1)
    else (.value (some (.Number (int32 (Int.tdiv l r)))), closure1, st1)
  | (.value _, closure1, st1) => (.abrupt (.runtime_error "Wrong types!"), closure1, st1)

/-- The loop of `Compound::Execute` over `stmts_`. -/
def Compound.loop (exec : Executor) : List Statement → Closure → State →
    Outcome Unit × Closure × State
  | [], closure, st => (.value (), closure, st)
  | stmt :: rest, closure, st =>
    match exec stmt closure st with
    | (.abrupt e, closure1, st1) => (.abrupt e, closure1, st1)
    | (.value _, closure1, st1) => Compound.loop exec rest closure1 st1

/-- The method `Compound::Execute`. -/
def Compound.Execute (exec : Executor) (stmts : List Statement) (closure : Closure)
    (st : State) : Result :=
  match Compound.loop exec stmts closure st with
  | (.value _, closure1, st1) => (.value none, closure1, st1)
  | (.abrupt e, closure1, st1) => (.abrupt e, closure1, st1)

/-- The method `Return::Execute`: throws a `ReturnException` with the value. -/
def Return.Execute (exec : Executor) (statement : Statement) (closure : Closure)
    (st : State) : Result :=
  match exec statement closure st with
  | (.value v, closure1, st1) => (.abrupt (.ReturnException v), closure1, st1)
  | (.abrupt e, closure1, st1) => (.abrupt e, closure1, st1)

/-- The method `ClassDefinition::Execute`: a new instance of the class is allocated with
`ObjectHolder::Own` and bound to the name of the class. -/
def ClassDefinition.Execute (cls : runtime.Class) (closure : Closure) (st : State) : Result :=
  let new_inst : ObjectHolder := some (.ClassInstance cls (.own st.owned))
  (.value new_inst, closure.set cls.GetName new_inst, { st with owned := st.owned + 1 })

/-- The method `FieldAssignment::Execute`. -/
def FieldAssignment.Execute (exec : Executor) (object : List String) (field_name : String)
    (rv : Statement) (closure : Closure) (st : State) : Result :=
  match VariableValue.Execute object closure st with
  | .abrupt e => (.abrupt e, closure, st)
  | .value obj =>
    match exec rv closure st with
    | (.abrupt e, closure1, st1) => (.abrupt e, closure1, st1)
    | (.value v, closure1, st1) =>
      match obj with
      | some (.ClassInstance _ addr) => (.value v, closure1, st1.setField addr field_name v)
      | _ => (.abrupt .undefined, closure1, st1)

/-- The method `IfElse::Execute`. -/
def IfElse.Execute (exec : Executor) (condition if_body : Statement)
    (else_body : Option Statement) (closure : Closure) (st : State) : Result :=
  match exec condition closure st with
  | (.abrupt e, closure1, st1) => (.abrupt e, closure1, st1)
  | (.value c, closure1, st1) =>
    if IsTrue c then exec if_body closure1 st1
    else
      match else_body with
      | some body => exec body closure1 st1
      | none => (.value none, closure1, st1)

/-- The method `Or::Execute`: `IsTrue(lhs_->Execute(..)) || IsTrue(rhs_->Execute(..))`, where
the operator `||` of C++ evaluates its right operand only when the left one is false. -/
def Or.Execute (exec : Executor) (lhs rhs : Statement) (closure : Closure) (st : State) :
    Result :=
  match exec lhs closure st with
  | (.abrupt e, closure1, st1) => (.abrupt e, closure1, st1)
  | (.value l, closure1, st1) =>
    if IsTrue l then (.value (some (.Bool true)), closure1, st1)
    else
      match exec rhs closure1 st1 with
      | (.abrupt e, closure2, st2) => (.abrupt e, closure2, st2)
      | (.value r, closure2, st2) => (.value (some (.Bool (IsTrue r))), closure2, st2)

/-- The method `And::Execute`: `IsTrue(lhs_->Execute(..)) && IsTrue(rhs_->Execute(..))`, where
the operator `&&` of C++ evaluates its right operand only when the left one is true. -/
def And.Execute (exec : Executor) (lhs rhs : Statement) (closure : Closure) (st : State) :
    Result :=
  match exec lhs closure st with
  | (.abrupt e, closure1, st1) => (.abrupt e, closure1, st1)
  | (.value l, closure1, st1) =>
    if IsTrue l then
      match exec rhs closure1 st1 with
      | (.abrupt e, closure2, st2) => (.abrupt e, closure2, st2)
      | (.value r, closure2, st2) => (.value (some (.Bool (IsTrue r))), closure2, st2)
    else (.value (some (.Bool false)), closure1, st1)

/-- The method `Not::Execute`. -/
def Not.Execute (exec : Executor) (argument : Statement) (closure : Closure) (st : State) :
    Result :=
  match exec argument closure st with
  | (.abrupt e, closure1, st1) => (.abrupt e, closure1, st1)
  | (.value v, closure1, st1) => (.value (some (.Bool (!IsTrue v))), closure1, st1)

/-- The method `Comparison::Execute`.  C++ leaves the order in which the two operands of
the call `cmp_(lhs, rhs, context)` are executed unspecified; the model executes `lhs_`
first. -/
def Comparison.Execute (exec : Executor) (cmp : Comparator) (lhs rhs : Statement)
    (closure : Closure) (st : State) : Result :=
  match ExecuteOperands exec lhs rhs closure st with
  | (.abrupt e, closure1, st1) => (.abrupt e, closure1, st1)
  | (.value (l, r), closure1, st1) =>
    match cmp.apply exec l r st1 with
    | (.value result, st2) => (.value (some (.Bool result)), closure1, st2)
    | (.abrupt e, st2) => (.abrupt e, closure1, st2)

/-- The method `NewInstance::Execute`.  The instance is the member `class_instance_` of the
node, constructed with the node; the holder returned shares it
(`ObjectHolder::Share(class_instance_)`). -/
def NewInstance.Execute (exec : Executor) (node : Nat) (cls : runtime.Class) (args : List Statement)
    (closure : Closure) (st : State) : Result :=
  if HasMethod cls "__init__" args.length then
    match ExecuteArgs exec args closure st with
    | (.abrupt e, closure1, st1) => (.abrupt e, closure1, st1)
    | (.value actual_args, closure1, st1) =>
      match Call exec cls (.node node) "__init__" actual_args st1 with
      | (.value _, st2) => (.value (some (.ClassInstance cls (.node node))), closure1, st2)
      | (.abrupt e, st2) => (.abrupt e, closure1, st2)
  else
    (.value (some (.ClassInstance cls (.node node))), closure, st)

/-- The method `MethodBody::Execute`: a `ReturnException` thrown by the body is caught and
its value returned; a body that returns gives `None`. -/
def MethodBody.Execute (exec : Executor) (body : Statement) (closure : Closure) (st : State) :
    Result :=
  match exec body closure st with
  | (.abrupt (.ReturnException result), closure1, st1) => (.value result, closure1, st1)
  | (.abrupt e, closure1, st1) => (.abrupt e, closure1, st1)
  | (.value _, closure1, st1) => (.value none, closure1, st1)

/-- The virtual call `statement->Execute(closure, context)`.  Each level of nesting of
statements and of method calls uses one unit of fuel. -/
def Execute : Nat → Executor
  | 0, _, closure, st => (.abrupt .outOfFuel, closure, st)
  | _ + 1, .None, closure, st => (.value none, closure, st)
  | _ + 1, .NumericConst value, closure, st => (.value (some (.Number value)), closure, st)
  | _ + 1, .StringConst value, closure, st => (.value (some (.String value)), closure, st)
  | _ + 1, .BoolConst value, closure, st => (.value (some (.Bool value)), closure, st)
  | fuel + 1, .Assignment var rv, closure, st =>
    Assignment.Execute (Execute fuel) var rv closure st
  | _ + 1, .VariableValue ids, closure, st => (VariableValue.Execute ids closure st, closure, st)
  | fuel + 1, .Print args, closure, st => Print.Execute (Execute fuel) fuel args closure st
  | fuel + 1, .MethodCall object method args, closure, st =>
    MethodCall.Execute (Execute fuel) object method args closure st
  | fuel + 1, .Stringify argument, closure, st =>
    Stringify.Execute (Execute fuel) fuel argument closure st
  | fuel + 1, .Add lhs rhs, closure, st => Add.Execute (Execute fuel) lhs rhs closure st
  | fuel + 1, .Sub lhs rhs, closure, st => Sub.Execute (Execute fuel) lhs rhs closure st
  | fuel + 1, .Mult lhs rhs, closure, st => Mult.Execute (Execute fuel) lhs rhs closure st
  | fuel + 1, .Div lhs rhs, closure, st => Div.Execute (Execute fuel) lhs rhs closure st
  | fuel + 1, .Compound stmts, closure, st => Compound.Execute (Execute fuel) stmts closure st
  | fuel + 1, .Return statement, closure, st => Return.Execute (Execute fuel) statement closure st
  | _ + 1, .ClassDefinition cls, closure, st => ClassDefinition.Execute cls closure st
  | fuel + 1, .FieldAssignment object field_name rv, closure, st =>
    FieldAssignment.Execute (Execute fuel) object field_name rv closure st
  | fuel + 1, .IfElse condition if_body else_body, closure, st =>
    IfElse.Execute (Execute fuel) condition if_body else_body closure st
  | fuel + 1, .Or lhs rhs, closure, st => Or.Execute (Execute fuel) lhs rhs closure st
  | fuel + 1, .And lhs rhs, closure, st => And.Execute (Execute fuel) lhs rhs closure st
  | fuel + 1, .Not argument, closure, st => Not.Execute (Execute fuel) argument closure st
  | fuel + 1, .Comparison cmp lhs rhs, closure, st =>
    Comparison.Execute (Execute fuel) cmp lhs rhs closure st
  | fuel + 1, .NewInstance node cls args, closure, st =>
    NewInstance.Execute (Execute fuel) node cls args closure st
  | fuel + 1, .MethodBody body, closure, st => MethodBody.Execute (Execute fuel) body closure st

end ast

namespace parse

/-- A token of the lexer (`token_type` of lexer.h). -/
inductive Token where
  | Number (value : Int)
  | Id (value : String)
  | Char (value : Char)
  | String (value : String)
  | Class
  | Return
  | If
  | Else
  | Def
  | Newline
  | Print
  | Indent
  | Dedent
  | And
  | Or
  | Not
  | Eq
  | NotEq
  | LessOrEq
  | GreaterOrEq
  | None
  | True
  | False
  | Eof
deriving DecidableEq, Repr

/-- The single quote character. -/
def squote : Char := Char.ofNat 39

/-- The double quote character. -/
def dquote : Char := Char.ofNat 34

/-- The backslash character. -/
def backslash : Char := Char.ofNat 92

/-- A `std::istream`: the characters not yet extracted and the state flags `eofbit` and
`failbit`.  Each character stands for one `char` of the stream. -/
structure IStream where
  buf : List Char
  eofbit : Bool
  failbit : Bool
deriving DecidableEq, Repr

/-- The method `good()`: no flag is set. -/
def IStream.good (input : IStream) : Bool :=
  !input.eofbit && !input.failbit

/-- The method `eof()`. -/
def IStream.eof (input : IStream) : Bool :=
  input.eofbit

/-- The call `input.get(c)`: the new value of `c` and the stream.  When no character can be
extracted `c` keeps its value; at the end of input `eofbit` and `failbit` are set. -/
def IStream.get (input : IStream) (c : Char) : Char × IStream :=
  if input.good then
    match input.buf with
    | [] => (c, { input with eofbit := true, failbit := true })
    | d :: rest => (d, { input with buf := rest })
  else
    (c, { input with failbit := true })

/-- The call `input.get()` converted to `char`: at the end of input it returns `EOF`, which
the conversion turns into the character 255. -/
def IStream.getInt (input : IStream) : Char × IStream :=
  input.get (Char.ofNat 255)

/-- The call `input.peek()`: `none` is `EOF`; at the end of input `eofbit` is set. -/
def IStream.peek (input : IStream) : Option Char × IStream :=
  if input.good then
    match input.buf with
    | [] => (none, { input with eofbit := true })
    | d :: _ => (some d, input)
  else
    (none, { input with failbit := true })

/-- The call `input.putback(c)`: `eofbit` is cleared, and unless the stream has failed the
character is made available again.  Every call of the lexer puts back the character
extracted last, which a stream accepts. -/
def IStream.putback (input : IStream) (c : Char) : IStream :=
  if input.failbit then { input with eofbit := false }
  else { input with buf := c :: input.buf, eofbit := false }

/-- Characters left after the first line feed; `none` when there is no line feed. -/
def skipLine : List Char → Option (List Char)
  | [] => none
  | c :: rest => if c = '\n' then some rest else skipLine rest

/-- The call `input.ignore(numeric_limits<streamsize>::max(), '\n')`: characters are
extracted up to and including the first line feed; without one the input is used up
and `eofbit` is set. -/
def IStream.ignoreLine (input : IStream) : IStream :=
  if input.good then
    match skipLine input.buf with
    | some rest => { input with buf := rest }
    | none => { input with buf := [], eofbit := true }
  else
    { input with failbit := true }

/-- The call `input.ignore(1)`. -/
def IStream.ignore1 (input : IStream) : IStream :=
  if input.good then
    match input.buf with
    | [] => { input with eofbit := true }
    | _ :: rest => { input with buf := rest }
  else
    { input with failbit := true }

/-- Ways the lexer fails to return: `hang` is a loop that never ends (a failed `get` leaves
the loop variable unchanged for ever), `exception` a C++ exception thrown by `std::stoi`,
`undefined` behaviour the C++ standard leaves undefined (`back()` of an empty vector, an
uninitialised variable read). -/
inductive Failure where
  | hang
  | exception
  | undefined
deriving DecidableEq, Repr

/-- The loop `while (std::isdigit(input.peek())) read_char();` of `LoadNumber` on a stream
in good state: the digits read and the stream left. -/
def read_digits : List Char → List Char → List Char × IStream
  | [], parsed_num => (parsed_num, { buf := [], eofbit := true, failbit := false })
  | d :: rest, parsed_num =>
    if d.isDigit then read_digits rest (parsed_num ++ [d])
    else (parsed_num, { buf := d :: rest, eofbit := false, failbit := false })

/-- The call `std::stoi(parsed_num)` on a string of digits: `none` when it throws
(`invalid_argument` on the empty string, `out_of_range` above `INT_MAX`). -/
def stoi (parsed_num : List Char) : Option Int :=
  if parsed_num.isEmpty then none
  else
    let n : Nat := parsed_num.foldl (fun acc d => 10 * acc + (d.toNat - 48)) 0
    if n ≤ 2147483647 then some (Int.ofNat n) else none

/-- The function `LoadNumber`: the value (`none` when `std::stoi` throws) and the stream. -/
def LoadNumber (input : IStream) : Option Int × IStream :=
  let r : List Char × IStream :=
    if input.good then read_digits input.buf [] else ([], { input with failbit := true })
  (stoi r.1, r.2)

/-- The entries of the table `KEY_WORDS_MAP`. -/
def KEY_WORDS : List (String × Token) :=
  [("class", .Class), ("return", .Return), ("if", .If), ("else", .Else), ("def", .Def),
   ("print", .Print), ("or", .Or), ("None", .None), ("and", .And), ("not", .Not),
   ("True", .True), ("False", .False)]

/-- Lookup in the table `KEY_WORDS_MAP`: `none` when `KEY_WORDS_MAP.count(s)` is 0. -/
def KEY_WORDS_MAP (s : String) : Option Token :=
  KEY_WORDS.lookup s

/-- The loop of `LoadIdentifier` on a stream in good state with `buf` left, `s` being the
string read so far and `back` the token `tokens_.back()` (`none`: the vector is empty).
At the end of input `get` fails and `c` keeps the character pushed last, which is no
terminator, so that `input.eof()` ends the loop; with nothing pushed yet `c` would be read
uninitialised. -/
def LoadIdentifier.loop (back : Option Token) : List Char → List Char →
    Except Failure (List Char × IStream)
  | [], s =>
    if s.isEmpty then .error .undefined
    else .ok (s, { buf := [], eofbit := true, failbit := true })
  | c :: rest, s =>
    let input : IStream := { buf := rest, eofbit := false, failbit := false }
    if c = '#' then
      let input1 := input.ignoreLine
      .ok (s, if !input1.eof then input1.putback '\n' else input1)
    else if c = ':' then
      match back with
      | none => .error .undefined
      | some _ => .ok (s, input.putback c)
    else if c = '(' ∨ c = ')' ∨ c = ',' ∨ c = '.' then .ok (s, input.putback c)
    else if c = '\n' then .ok (s, input.putback c)
    else if c = ' ' then .ok (s, input)
    else LoadIdentifier.loop back rest (s ++ [c])

/-- The method `Lexer::LoadIdentifier`.  On a stream that is not in good state the first
`get` fails and the uninitialised `c` is read. -/
def LoadIdentifier (back : Option Token) (input : IStream) : Except Failure (Token × IStream) :=
  if input.good then
    match LoadIdentifier.loop back input.buf [] with
    | .ok (s, input1) =>
      match KEY_WORDS_MAP (String.mk s) with
      | some keyword => .ok (keyword, input1)
      | none => .ok (.Id (String.mk s), input1)
    | .error f => .error f
  else
    .error .undefined

/-- What the `switch` of `LoadString` appends for the character after a backslash. -/
def escape (c : Char) : List Char :=
  if c = 'n' then ['\n']
  else if c = 't' then ['\t']
  else if c = dquote then [dquote]
  else if c = squote then [squote]
  else if c = backslash then [backslash]
  else []

/-- The loop of `LoadString` on a stream in good state with `buf` left: the string and
the stream left, or `none` when the loop never ends.  Once a `get` has failed
`current_symbol` never changes again, so the loop ends only if it then equals
`starting_symbol`. -/
def LoadString.loop (starting_symbol : Char) : List Char → Char → List Char →
    Option (List Char × IStream)
  | [], current_symbol, str =>
    if current_symbol = starting_symbol then
      some (str, { buf := [], eofbit := false, failbit := false })
    else none
  | d :: rest, current_symbol, str =>
    if current_symbol = starting_symbol then
      some (str, { buf := d :: rest, eofbit := false, failbit := false })
    else if current_symbol = backslash then
      match rest with
      | [] =>
        if d = starting_symbol then
          some (str ++ escape d, { buf := [], eofbit := true, failbit := true })
        else none
      | e :: rest2 => LoadString.loop starting_symbol rest2 e (str ++ escape d)
    else
      LoadString.loop starting_symbol rest d (str ++ [current_symbol])

/-- The function `LoadString`: `none` when its loop never ends. -/
def LoadString (input : IStream) : Option (List Char × IStream) :=
  let r1 := input.getInt
  let r2 := r1.2.getInt
  let starting_symbol := r1.1
  let current_symbol := r2.1
  if r2.2.good then LoadString.loop starting_symbol r2.2.buf current_symbol []
  else if current_symbol = starting_symbol then some ([], r2.2)
  else none

/-- The frame of `Lexer::LoadTokens` at the top of its loop: the members `tokens_`,
`indent_`, `old_indent_` of the lexer, the local `c` and the stream. -/
structure LoadState where
  tokens_ : List Token
  indent_ : Nat
  old_indent_ : Nat
  c : Char
  input : IStream
deriving DecidableEq, Repr

/-- The token `tokens_.back()`, `none` for an empty vector. -/
def back (tokens : List Token) : Option Token :=
  tokens.getLast?

/-- The loop `while (c == ' ') { ++space_num; input.get(c); }` on a stream in good state
with `buf` left: `space_num`, `c` and the characters left, or `none` when the loop never
ends (at the end of input `get` fails and `c` stays a space). -/
def count_spaces : List Char → Char → Nat → Option (Nat × Char × List Char)
  | [], c, space_num => if c = ' ' then none else some (space_num, c, [])
  | d :: rest, c, space_num =>
    if c = ' ' then count_spaces rest d (space_num + 1) else some (space_num, c, d :: rest)

/-- The same loop on any stream: `none` when it never ends. -/
def skip_spaces (c : Char) (input : IStream) : Option (Nat × Char × IStream) :=
  if c = ' ' then
    if input.good then
      match count_spaces input.buf c 0 with
      | some (space_num, c1, rest) => some (space_num, c1, { input with buf := rest })
      | none => none
    else none
  else some (0, c, input)

/-- The loop `while (!tokens_.empty() && !tokens_.back().Is<Newline>()) tokens_.pop_back()`. -/
def pop_to_newline (tokens : List Token) : List Token :=
  (tokens.reverse.dropWhile (fun t => t != Token.Newline)).reverse

/-- The members of `Lexer` the cursor methods use: the tokens `tokens_` and the cursor
`current_token_`. -/
structure Lexer where
  tokens_ : List Token
  current_token_ : Nat
deriving DecidableEq, Repr

/-- Modelled from the spec: the initial value of `current_token_` is set in lexer.h, which
is not among the sources; the cursor starts at the first token.  The lexer as its
constructor leaves it once `LoadTokens` has returned `tokens`. -/
def Lexer.start (tokens : List Token) : Lexer :=
  { tokens_ := tokens, current_token_ := 0 }

/-- The method `Lexer::CurrentToken`: `tokens_[current_token_]`; `none` when the index is
out of range, where the behaviour of C++ is undefined. -/
def Lexer.CurrentToken (lexer : Lexer) : Option Token :=
  lexer.tokens_.get? lexer.current_token_

/-- The method `Lexer::NextToken`: the cursor moves on unless
`current_token_ + 1 >= tokens_.size()`, and the token under it is returned. -/
def Lexer.NextToken (lexer : Lexer) : Option Token × Lexer :=
  let lexer1 : Lexer :=
    if lexer.current_token_ + 1 ≥ lexer.tokens_.length then lexer
    else { lexer with current_token_ := lexer.current_token_ + 1 }
  (lexer1.tokens_.get? lexer1.current_token_, lexer1)

/-- One round of the loop of `LoadTokens`. -/
inductive Step where
  | next (s : LoadState)
  | done (tokens : List Token)
  | fail (f : Failure)
deriving DecidableEq, Repr

/-- The token for the character `c` followed by `=`, `c` being one of `!`, `=`, `<`, `>`. -/
def comparison_token (c : Char) : Token :=
  if c = '!' then .NotEq else if c = '=' then .Eq else if c = '<' then .LessOrEq
  else .GreaterOrEq

/-- The part of the loop body of `LoadTokens` after the test for a line feed: operators,
numbers, identifiers, strings and other characters.  Of the four tests
`c == x && input.peek() == '='` only the one whose `x` is `c` calls `peek`. -/
def LoadTokens.lexeme (s : LoadState) (c : Char) (input : IStream) : Step :=
  if c = '!' ∨ c = '=' ∨ c = '<' ∨ c = '>' then
    let p := input.peek
    if p.1 = some '=' then
      .next { s with tokens_ := s.tokens_ ++ [comparison_token c], c := c,
                     input := p.2.ignore1 }
    else
      .next { s with tokens_ := s.tokens_ ++ [.Char c], c := c, input := p.2 }
  else if c = '+' ∨ c = '-' ∨ c = '*' ∨ c = '/' then
    .next { s with tokens_ := s.tokens_ ++ [.Char c], c := c, input := input }
  else if c.isDigit then
    match LoadNumber (input.putback c) with
    | (some value, input1) =>
      .next { s with tokens_ := s.tokens_ ++ [.Number value], c := c, input := input1 }
    | (none, _) => .fail .exception
  else if c.isAlpha ∨ c = '_' then
    match LoadIdentifier (back s.tokens_) (input.putback c) with
    | .ok (token, input1) =>
      .next { s with tokens_ := s.tokens_ ++ [token], c := c, input := input1 }
    | .error f => .fail f
  else if c = squote ∨ c = dquote then
    match LoadString (input.putback c) with
    | some (str, input1) =>
      .next { s with tokens_ := s.tokens_ ++ [.String (String.mk str)], c := c, input := input1 }
    | none => .fail .hang
  else if c ≠ ' ' then
    .next { s with tokens_ := s.tokens_ ++ [.Char c], c := c, input := input }
  else
    .next { s with c := c, input := input }

/-- The loop body of `LoadTokens` from the test for the end of file on; `s` holds the
members as the indentation step left them, `c` and `input` are the current character and
stream. -/
def LoadTokens.dispatch (s : LoadState) (c : Char) (input : IStream) : Step :=
  if input.eof then
    let tokens :=
      if !s.tokens_.isEmpty ∧ back s.tokens_ ≠ some .Newline ∧ back s.tokens_ ≠ some .Indent
          ∧ back s.tokens_ ≠ some .Dedent then
        s.tokens_ ++ [.Newline]
      else s.tokens_
    .done (tokens ++ [.Eof])
  else if c = '#' then
    let input1 := input.ignoreLine
    .next { s with c := c, input := if !input1.eof then input1.putback '\n' else input1 }
  else if c = '\n' then
    if back s.tokens_ = some .Indent ∨ back s.tokens_ = some .Dedent then
      .next { s with tokens_ := pop_to_newline s.tokens_, indent_ := s.old_indent_, c := c,
                     input := input }
    else if ¬ (s.tokens_.isEmpty ∨ back s.tokens_ = some .Newline) then
      .next { s with tokens_ := s.tokens_ ++ [.Newline], c := c, input := input }
    else
      .next { s with c := c, input := input }
  else
    LoadTokens.lexeme s c input

/-- The loop body of `LoadTokens`: a character is read, at the start of a line the
indentation is counted and `Indent` or `Dedent` tokens are added, then the character
is dispatched. -/
def LoadTokens.body (s : LoadState) : Step :=
  let g := s.input.get s.c
  if s.tokens_.isEmpty ∨ back s.tokens_ = some .Newline then
    match skip_spaces g.1 g.2 with
    | none => .fail .hang
    | some (space_num, c, input) =>
      let new_indent := space_num / 2
      let tokens :=
        if new_indent > s.indent_ then
          s.tokens_ ++ List.replicate (new_indent - s.indent_) Token.Indent
        else if new_indent < s.indent_ then
          s.tokens_ ++ List.replicate (s.indent_ - new_indent) Token.Dedent
        else s.tokens_
      LoadTokens.dispatch
        { s with tokens_ := tokens, old_indent_ := s.indent_, indent_ := new_indent } c input
  else
    LoadTokens.dispatch s g.1 g.2

/-- Outcome of `LoadTokens`: the tokens, or the way it fails to return. -/
inductive LexResult where
  | tokens (ts : List Token)
  | failure (f : Failure)
deriving DecidableEq, Repr

/-- The loop `while (true)` of `LoadTokens`, run for at most `fuel` rounds; `none` when
the rounds are used up. -/
def LoadTokens.loop : Nat → LoadState → Option LexResult
  | 0, _ => none
  | fuel + 1, s =>
    match LoadTokens.body s with
    | .next s1 => LoadTokens.loop fuel s1
    | .done tokens => some (.tokens tokens)
    | .fail f => some (.failure f)

/-- Modelled from the spec: the initial values of `indent_` and `old_indent_` are set in
lexer.h, which is not among the sources; the text starts at indent level 0.  The frame
in which `LoadTokens` starts on the text `text` has no token, and `c0` is the
indeterminate value of the uninitialised local `c`. -/
def LoadState.init (c0 : Char) (text : List Char) : LoadState :=
  { tokens_ := [], indent_ := 0, old_indent_ := 0, c := c0,
    input := { buf := text, eofbit := false, failbit := false } }

/-- The method `Lexer::LoadTokens` on the text `text`, run for at most `fuel` rounds. -/
def LoadTokens (fuel : Nat) (c0 : Char) (text : String) : Option LexResult :=
  LoadTokens.loop fuel (LoadState.init c0 text.data)

end parse

/-! ## Definitions used to state the properties -/

namespace runtime

/-- The parent chain of a class: the class itself, its parent, its grandparent, ... -/
def Class.chain : Class → List Class
  | .mk name methods none => [.mk name methods none]
  | .mk name methods (some parent) => .mk name methods (some parent) :: Class.chain parent

/-- The class defines a method of the given name. -/
def Class.Defines (cls : Class) (name : String) : Prop :=
  ∃ method ∈ cls.methods_, method.name = name

/-- The state in which a program starts: nothing written, no instance with fields, no
object allocated. -/
def State.initial : State :=
  { output := "", heap := [], owned := 0 }

end runtime

namespace runtime

/-- Both holders hold a primitive of the same variant: two `Number`, two `String` or two
`Bool`. -/
def SamePrimitive : ObjectHolder → ObjectHolder → Prop
  | some (.Number _), some (.Number _) => True
  | some (.String _), some (.String _) => True
  | some (.Bool _), some (.Bool _) => True
  | _, _ => False

/-- Example class `Base` with the methods `f()` and `g(x)`. -/
def example_Base : Class :=
  .mk "Base"
    [.mk "f" [] (.MethodBody (.Return (.NumericConst 1))),
     .mk "g" ["x"] (.MethodBody (.Return (.VariableValue ["x"])))]
    none

/-- Example class `Derived(Base)` with the method `g()`. -/
def example_Derived : Class :=
  .mk "Derived" [.mk "g" [] (.MethodBody (.Return (.NumericConst 2)))] (some example_Base)

/-- Example class `Plain` without methods. -/
def example_Plain : Class :=
  .mk "Plain" [] none

/-- Example class `Factory` whose method `make()` is `return Plain()`; the `NewInstance`
node of the method is node 0. -/
def example_Factory : Class :=
  .mk "Factory" [.mk "make" [] (.MethodBody (.Return (.NewInstance 0 example_Plain [])))] none

/-- Example program:
`f = Factory()`, `a = f.make()`, `a.x = 5`, `b = f.make()`, `print b.x`. -/
def example_two_instances : Executable :=
  .Compound
    [.Assignment "f" (.NewInstance 1 example_Factory []),
     .Assignment "a" (.MethodCall (.VariableValue ["f"]) "make" []),
     .FieldAssignment ["a"] "x" (.NumericConst 5),
     .Assignment "b" (.MethodCall (.VariableValue ["f"]) "make" []),
     .Print [.VariableValue ["b", "x"]]]

/-- Example class whose `__lt__(other)` always returns `True` and whose `__eq__(other)`
always returns `False`. -/
def example_AlwaysLess : Class :=
  .mk "AlwaysLess"
    [.mk "__lt__" ["other"] (.MethodBody (.Return (.BoolConst true))),
     .mk "__eq__" ["other"] (.MethodBody (.Return (.BoolConst false)))]
    none

end runtime

namespace runtime

/-- The error `Equal` throws. -/
def Equal.error : Abrupt :=
  .runtime_error "Cannot compare objects for equality"

/-- The error `ClassInstance::Call` throws. -/
def Call.error : Abrupt :=
  .runtime_error "There is no such method!"

/-- The argument bound to `name` when the formal parameters are bound to the arguments
position by position: the argument at the last position whose parameter is `name`. -/
def lastBinding : List String → List ObjectHolder → String → Option ObjectHolder
  | param :: params, arg :: args, name =>
    match lastBinding params args name with
    | some value => some value
    | none => if param = name then some arg else none
  | _, _, _ => none

/-- Example class whose method `m(self)` is `return self`. -/
def example_SelfParam : Class :=
  .mk "SelfParam" [.mk "m" ["self"] (.MethodBody (.Return (.VariableValue ["self"])))] none

end runtime

namespace parse

/-- The tokens the lexer adds for the layout of the text rather than for a lexeme:
`Newline`, `Indent`, `Dedent` and `Eof`. -/
def Token.structural : Token → Bool
  | .Newline => true
  | .Indent => true
  | .Dedent => true
  | .Eof => true
  | _ => false

end parse

namespace parse

/-- What a round of the loop of `LoadTokens` keeps true when no `Eof` has been added yet:
the next round starts without `Eof` among the tokens, and a round that ends the loop
returns tokens without `Eof` followed by one `Eof`. -/
def Step.EofLast : Step → Prop
  | .next s1 => Token.Eof ∉ s1.tokens_
  | .done tokens => ∃ pre, tokens = pre ++ [Token.Eof] ∧ Token.Eof ∉ pre
  | .fail _ => True

end parse

namespace parse

/-- The frame `s` with `rest` as the characters left in its stream. -/
def LoadState.withBuf (s : LoadState) (rest : List Char) : LoadState :=
  { s with input := { s.input with buf := rest } }

/-- A line that consists only of spaces and/or a comment: some spaces, followed by nothing
or by `#` and characters other than the line feed. -/
def BlankLine (line : List Char) : Prop :=
  ∃ (k : Nat) (comment : List Char), line = List.replicate k ' ' ++ comment
    ∧ (comment = [] ∨ ∃ text, comment = '#' :: text ∧ '\n' ∉ text)

/-- The loop of `LoadTokens` is at the start of a logical line: no token yet or the last
token is `Newline`, and the stream is in good state. -/
def LoadState.atLineStart (s : LoadState) : Prop :=
  (s.tokens_ = [] ∨ back s.tokens_ = some Token.Newline) ∧ s.input.good = true

end parse

namespace parse

/-- The state flags of a stream as the lexer leaves them: `failbit` is never set without
`eofbit`. -/
def IStream.sound (input : IStream) : Prop :=
  input.failbit = true → input.eofbit = true

/-- What a round of the loop of `LoadTokens` achieves when the loop goes on: the flags
of the stream are sound and fewer than `n` characters are left. -/
def Step.Progress (n : Nat) : Step → Prop
  | .next s1 => s1.input.sound ∧ s1.input.buf.length < n
  | _ => True

end parse

namespace ast

open runtime

/-- The error of the arithmetic nodes for operands they do not handle. -/
def WrongTypes : Abrupt :=
  .runtime_error "Wrong types!"

/-- The error of `Div` for a divisor 0. -/
def ZeroDivision : Abrupt :=
  .runtime_error "Zero division!"

/-- The value is in the range of `int`. -/
def InIntRange (x : Int) : Prop :=
  -2147483648 ≤ x ∧ x ≤ 2147483647

/-- The operands are ones `Add` handles: two `Number`, two `String`, or on the left an
instance of a class with `__add__` of one parameter. -/
def Add.Accepts : ObjectHolder → ObjectHolder → Prop
  | some (.Number _), some (.Number _) => True
  | some (.String _), some (.String _) => True
  | some (.ClassInstance cls _), _ => HasMethod cls "__add__" 1 = true
  | _, _ => False

/-- The holder holds a `Number`. -/
def IsNumber : ObjectHolder → Prop
  | some (.Number _) => True
  | _ => False

/-- Example expression `(0 - 2147483647 - 1) / (0 - 1)`, whose operands evaluate to
`INT_MIN` and `-1`. -/
def example_INT_MIN_by_minus_one : Statement :=
  .Div (.Sub (.Sub (.NumericConst 0) (.NumericConst 2147483647)) (.NumericConst 1))
    (.Sub (.NumericConst 0) (.NumericConst 1))

end ast

namespace ast

open runtime

/-- The text `Print` writes for an empty holder (`None`) and for a holder of a `Number`
(its decimal digits), a `String` (its contents) or a `Bool` (`True` or `False`). -/
def PrimitiveText : ObjectHolder → Option String
  | none => some "None"
  | some (.Number value) => some (Number.Print value)
  | some (.String value) => some (String.Print value)
  | some (.Bool value) => some (if value then "True" else "False")
  | some (.Class _) => Option.none
  | some (.ClassInstance _ _) => Option.none

/-- The texts joined by single spaces: one space between two consecutive texts, none
after the last. -/
def joinTexts : List String → String
  | [] => ""
  | [text] => text
  | text :: rest => text ++ " " ++ joinTexts rest

/-- The expression `a` evaluates, in every state, to a value of text `t`, leaving the
closure `c` and the state as they are. -/
def EvaluatesToText (exec : Executor) (c : Closure) (a : Statement) (t : String) : Prop :=
  ∃ v : ObjectHolder, (∀ s : State, exec a c s = (.value v, c, s)) ∧ PrimitiveText v = some t

end ast

namespace ast

open runtime

/-- Example class `Announcer` whose `__init__()` is `print "obj"` and whose method `m(x)`
is `return x`. -/
def example_Announcer : runtime.Class :=
  .mk "Announcer"
    [.mk "__init__" [] (.MethodBody (.Print [.StringConst "obj"])),
     .mk "m" ["x"] (.MethodBody (.Return (.VariableValue ["x"])))]
    none

/-- Example object expression `Announcer()`, which writes `obj`. -/
def example_object : Statement :=
  .NewInstance 0 example_Announcer []

/-- Example argument expression, which writes `arg`. -/
def example_argument : Statement :=
  .Print [.StringConst "arg"]

/-- Example call `Announcer().m(<argument>)`. -/
def example_call : Statement :=
  .MethodCall example_object "m" [example_argument]

/-- Example call `missing.m(1 / 0)` on a variable that does not exist. -/
def example_call_errors : Statement :=
  .MethodCall (.VariableValue ["missing"]) "m" [.Div (.NumericConst 1) (.NumericConst 0)]

end ast

namespace parse

/-- The lexer after `k` calls of `NextToken`. -/
def Lexer.afterCalls : Nat → Lexer → Lexer
  | 0, lexer => lexer
  | k + 1, lexer => Lexer.afterCalls k lexer.NextToken.2

end parse

namespace parse

/-- An item of the body of a string literal: a character written as itself, or a
backslash followed by a character. -/
inductive StringItem where
  | plain (c : Char)
  | escaped (c : Char)
deriving DecidableEq, Repr

/-- The characters an item is written with. -/
def StringItem.source : StringItem → List Char
  | .plain c => [c]
  | .escaped c => [backslash, c]

/-- The characters an item stands for: `\n`, `\t`, the two quotes and the backslash for
their escapes, nothing for any other escape. -/
def StringItem.value : StringItem → List Char
  | .plain c => [c]
  | .escaped c =>
    if c = 'n' then ['\n']
    else if c = 't' then ['\t']
    else if c = dquote ∨ c = squote ∨ c = backslash then [c]
    else []

/-- A character written as itself in a literal opened by `starting` is neither that quote
nor a backslash. -/
def StringItem.fits (starting : Char) : StringItem → Bool
  | .plain c => c != starting && c != backslash
  | .escaped _ => true

/-- The body of a literal as written. -/
def literalSource : List StringItem → List Char
  | [] => []
  | item :: items => item.source ++ literalSource items

/-- The string a body stands for. -/
def literalValue : List StringItem → List Char
  | [] => []
  | item :: items => item.value ++ literalValue items

end parse

namespace parse

/-- The characters at which `LoadIdentifier` stops reading: `#`, `:`, the brackets, the
comma, the dot, the line feed and the space. -/
def identifier_end (d : Char) : Bool :=
  d == '#' || d == ':' || d == '(' || d == ')' || d == ',' || d == '.' || d == '\n'
    || d == ' '

end parse

namespace parse

/-- The text made of the given lines, each ended by a line feed. -/
def joinLines : List (List Char) → List Char
  | [] => []
  | line :: lines => line ++ '\n' :: joinLines lines

end parse

namespace parse

/-- The token is one of the layout tokens `Newline`, `Indent`, `Dedent`. -/
def Token.isLayout : Token → Bool
  | .Newline => true
  | .Indent => true
  | .Dedent => true
  | _ => false

/-- The tokens `ts` are the tokens `toks` gathered when the end of the file is seen,
closed as the end-of-file branch of `LoadTokens` does: by `Eof` alone when there is no
token or the last one is `Newline`, `Indent` or `Dedent`, and by `Newline`, `Eof` when
the last one is any other token. -/
def ClosedAtEof (toks ts : List Token) : Prop :=
  (toks = [] ∧ ts = [Token.Eof])
  ∨ (∃ t, back toks = some t ∧ t.isLayout = true ∧ ts = toks ++ [Token.Eof])
  ∨ (∃ t, back toks = some t ∧ t.isLayout = false ∧ ts = toks ++ [Token.Newline, Token.Eof])

/-- What a round that ends the loop of `LoadTokens` returns. -/
def Step.EndsClosed : Step → Prop
  | .next _ => True
  | .done tokens => ∃ toks, ClosedAtEof toks tokens
  | .fail _ => True

end parse

namespace parse

/-- If the second of two adjacent tokens is `Newline`, the first is none of `Newline`,
`Indent` and `Dedent`. -/
def NewlineAfterContent (a b : Token) : Prop :=
  b = Token.Newline → a.isLayout = false

/-- The tokens do not start with `Newline`, and every `Newline` among them stands directly
after a token other than `Newline`, `Indent` and `Dedent`. -/
def NewlinesOk (tokens : List Token) : Prop :=
  tokens.head? ≠ some Token.Newline ∧ List.Chain' NewlineAfterContent tokens

/-- What a round of the loop of `LoadTokens` keeps true of the `Newline` tokens. -/
def Step.NewlinesOk : Step → Prop
  | .next s1 => parse.NewlinesOk s1.tokens_
  | .done tokens => parse.NewlinesOk tokens
  | .fail _ => True

end parse

namespace parse

/-- The stream is in good state, or at the end of the input with `eofbit` set. -/
def IStream.tidy (input : IStream) : Prop :=
  (input.eofbit = false ∧ input.failbit = false) ∨ (input.eofbit = true ∧ input.buf = [])

/-- The tokens are those at the start of a logical line: none yet, or `Newline` last. -/
def LineStart (tokens : List Token) : Prop :=
  tokens = [] ∨ back tokens = some Token.Newline

/-- The last of the tokens is a token of a lexeme: there is one, and it is none of
`Newline`, `Indent`, `Dedent`, `Eof`. -/
def ContentLast (tokens : List Token) : Prop :=
  ∃ t, back tokens = some t ∧ t.structural = false

/-- The tokens end with the token of a lexeme, `Newline` and `Eof`. -/
def EndsWithContentLine (ts : List Token) : Prop :=
  ∃ front t, ts = front ++ [t, Token.Newline, Token.Eof] ∧ t.structural = false

/-- Where the loop of `LoadTokens` stands with respect to the last line `last` of a text
that does not end with a line feed: before the line feed in front of that line, at the
start of that line, or inside it with the token of a lexeme last. -/
def InLastLine (last : List Char) (s : LoadState) : Prop :=
  s.input.tidy
  ∧ ((∃ x, s.input.buf = x ++ '\n' :: last)
    ∨ (s.input.buf = last ∧ LineStart s.tokens_)
    ∨ ('\n' ∉ s.input.buf ∧ ContentLast s.tokens_))

/-- What a round of the loop of `LoadTokens` keeps true on a text whose last line `last`
has content and is not ended by a line feed. -/
def Step.KeepsLastLine (last : List Char) : Step → Prop
  | .next s1 => InLastLine last s1
  | .done tokens => EndsWithContentLine tokens
  | .fail _ => True

end parse

namespace parse

/-- The token `LoadIdentifier` returns for the string `s` it has read: the keyword, if `s`
is one, else `Id(s)`. -/
def identifier_token (s : List Char) : Token :=
  match KEY_WORDS_MAP (String.mk s) with
  | some keyword => keyword
  | none => .Id (String.mk s)

end parse

/-! ## Theorems -/

namespace ast

open runtime

/-- C1 (as stated, refuted): executing `Or(Not(None), Print([]))`, whose left operand is
truthy, returns `Bool(true)` and leaves the output empty, although executing the right
operand would write a line; executing `And(None, Print([]))`, whose left operand is
falsy, returns `Bool(false)` and leaves the output empty as well.  The right operand is
not evaluated. -/
theorem Or_And_skip_right_operand :
    Execute 3 (.Or (.Not .None) (.Print [])) [] State.initial
        = (.value (some (.Bool true)), [], State.initial)
    ∧ Execute 3 (.And .None (.Print [])) [] State.initial
        = (.value (some (.Bool false)), [], State.initial)
    ∧ (Execute 2 (.Print []) [] State.initial).2.2.output = "\n" := by
  refine ⟨rfl, rfl, ?_⟩
  decide

/-- C1 (amended): `Or` and `And` execute the left operand first.  When it is truthy, `Or`
returns `Bool(true)` in the closure and state the left operand left, without executing
the right operand; when it is falsy, `Or` executes the right operand there (its side
effects and errors occur) and returns `Bool(is_true(lhs) or is_true(rhs))`.  `And` is
the mirror image: a falsy left operand gives `Bool(false)` at once, a truthy one makes
the right operand run and the result is `Bool(is_true(lhs) and is_true(rhs))`. -/
theorem Or_And_Execute_left_then_right (fuel : Nat) (lhs rhs : Statement)
    (closure closure1 : Closure) (st st1 : State) (l : ObjectHolder)
    (hl : Execute fuel lhs closure st = (.value l, closure1, st1)) :
    (IsTrue l = true →
      Execute (fuel + 1) (.Or lhs rhs) closure st = (.value (some (.Bool true)), closure1, st1))
    ∧ (IsTrue l = false → ∀ r closure2 st2,
        Execute fuel rhs closure1 st1 = (.value r, closure2, st2) →
        Execute (fuel + 1) (.Or lhs rhs) closure st
          = (.value (some (.Bool (IsTrue l || IsTrue r))), closure2, st2))
    ∧ (IsTrue l = false → ∀ e closure2 st2,
        Execute fuel rhs closure1 st1 = (.abrupt e, closure2, st2) →
        Execute (fuel + 1) (.Or lhs rhs) closure st = (.abrupt e, closure2, st2))
    ∧ (IsTrue l = false →
      Execute (fuel + 1) (.And lhs rhs) closure st = (.value (some (.Bool false)), closure1, st1))
    ∧ (IsTrue l = true → ∀ r closure2 st2,
        Execute fuel rhs closure1 st1 = (.value r, closure2, st2) →
        Execute (fuel + 1) (.And lhs rhs) closure st
          = (.value (some (.Bool (IsTrue l && IsTrue r))), closure2, st2))
    ∧ (IsTrue l = true → ∀ e closure2 st2,
        Execute fuel rhs closure1 st1 = (.abrupt e, closure2, st2) →
        Execute (fuel + 1) (.And lhs rhs) closure st = (.abrupt e, closure2, st2)) := by
  refine ⟨?_, ?_, ?_, ?_, ?_, ?_⟩
  · intro ht
    simp only [Execute, Or.Execute, hl, ht, if_true]
  · intro hf r closure2 st2 hr
    simp [Execute, Or.Execute, hl, hf, hr]
  · intro hf e closure2 st2 hr
    simp [Execute, Or.Execute, hl, hf, hr]
  · intro hf
    simp [Execute, And.Execute, hl, hf]
  · intro ht r closure2 st2 hr
    simp [Execute, And.Execute, hl, ht, hr]
  · intro ht e closure2 st2 hr
    simp [Execute, And.Execute, hl, ht, hr]

/-- Witness for C1 (amended): `Or(False, Print([]))` runs its right operand. -/
theorem Or_And_Execute_left_then_right_witness :
    Execute 2 (.BoolConst false) [] State.initial
        = (.value (some (.Bool false)), [], State.initial)
    ∧ Execute 3 (.Or (.BoolConst false) (.Print [])) [] State.initial
        = (.value (some (.Bool false)), [], State.initial.write "\n") :=
  ⟨rfl, (Or_And_Execute_left_then_right 2 (.BoolConst false) (.Print []) [] []
      State.initial State.initial (some (.Bool false)) rfl).2.1 rfl none []
      (State.initial.write "\n") rfl⟩

end ast

namespace ast

open runtime

/-- In the loop of `Compound::Execute`, once a statement ends abruptly the remaining
statements are not executed. -/
theorem Compound.loop_stops (exec : Executor) (stmt : Statement) (post : List Statement)
    (e : Abrupt) : ∀ (pre : List Statement) (closure closure1 closure2 : Closure)
    (st st1 st2 : State),
    Compound.loop exec pre closure st = (.value (), closure1, st1) →
    exec stmt closure1 st1 = (.abrupt e, closure2, st2) →
    Compound.loop exec (pre ++ stmt :: post) closure st = (.abrupt e, closure2, st2) := by
  intro pre
  induction pre with
  | nil =>
    intro closure closure1 closure2 st st1 st2 hpre hstmt
    simp only [Compound.loop, Prod.mk.injEq, true_and] at hpre
    obtain ⟨rfl, rfl⟩ := hpre
    simp [Compound.loop, hstmt]
  | cons first pre ih =>
    intro closure closure1 closure2 st st1 st2 hpre hstmt
    simp only [List.cons_append, Compound.loop] at hpre ⊢
    rcases hfirst : exec first closure st with ⟨o, c0, s0⟩
    rw [hfirst] at hpre
    cases o with
    | value v =>
      simp only at hpre ⊢
      exact ih c0 closure1 closure2 s0 st1 st2 hpre hstmt
    | abrupt e0 => simp at hpre

/-- In the loop that executes the arguments of a call, once an argument ends abruptly the
remaining arguments are not executed. -/
theorem ExecuteArgs_stops (exec : Executor) (arg : Statement) (post : List Statement)
    (e : Abrupt) : ∀ (pre : List Statement) (vs : List ObjectHolder)
    (closure closure1 closure2 : Closure) (st st1 st2 : State),
    ExecuteArgs exec pre closure st = (.value vs, closure1, st1) →
    exec arg closure1 st1 = (.abrupt e, closure2, st2) →
    ExecuteArgs exec (pre ++ arg :: post) closure st = (.abrupt e, closure2, st2) := by
  intro pre
  induction pre with
  | nil =>
    intro vs closure closure1 closure2 st st1 st2 hpre harg
    simp only [ExecuteArgs, Prod.mk.injEq] at hpre
    obtain ⟨-, rfl, rfl⟩ := hpre
    simp [ExecuteArgs, harg]
  | cons first pre ih =>
    intro vs closure closure1 closure2 st st1 st2 hpre harg
    simp only [List.cons_append, ExecuteArgs] at hpre ⊢
    rcases hfirst : exec first closure st with ⟨o, c0, s0⟩
    rw [hfirst] at hpre
    cases o with
    | value v =>
      simp only at hpre ⊢
      rcases hrest : ExecuteArgs exec pre c0 s0 with ⟨o1, c1, s1⟩
      rw [hrest] at hpre
      cases o1 with
      | value ws =>
        simp only [Prod.mk.injEq] at hpre
        obtain ⟨-, rfl, rfl⟩ := hpre
        have hstop := ih ws c0 c1 closure2 s0 s1 st2 hrest harg
        simp only [List.append_eq, hstop]
      | abrupt e1 => simp at hpre
    | abrupt e0 => simp at hpre

end ast

namespace ast

open runtime

/-- C5: a `Return(e)` whose expression evaluates to `v` throws the carrier with `v`;
`MethodBody` turns a carrier coming out of its body into the value `v`, with the closure
and state as they were at the `Return` (nothing after it has run), and gives `None` when
the body completes; errors pass through `MethodBody` unchanged.  `Compound` and `IfElse`
pass the carrier on at once (the statements after the `Return` in a `Compound` are not
executed), and so does every other kind of node, the method call, printing and the
comparison functions, for whichever of their operands or calls the carrier comes from:
only `MethodBody` stops it. -/
theorem MethodBody_Return_propagation (fuel : Nat) (exec : Executor) :
    (∀ e closure st v closure1 st1,
        Execute fuel e closure st = (.value v, closure1, st1) →
        Execute (fuel + 1) (.Return e) closure st
          = (.abrupt (.ReturnException v), closure1, st1))
    ∧ (∀ body closure st v closure1 st1,
        Execute fuel body closure st = (.abrupt (.ReturnException v), closure1, st1) →
        Execute (fuel + 1) (.MethodBody body) closure st = (.value v, closure1, st1))
    ∧ (∀ body closure st v closure1 st1,
        Execute fuel body closure st = (.value v, closure1, st1) →
        Execute (fuel + 1) (.MethodBody body) closure st = (.value none, closure1, st1))
    ∧ (∀ body closure st what closure1 st1,
        Execute fuel body closure st = (.abrupt (.runtime_error what), closure1, st1) →
        Execute (fuel + 1) (.MethodBody body) closure st
          = (.abrupt (.runtime_error what), closure1, st1))
    ∧ (∀ pre stmt post closure st closure1 st1 e closure2 st2,
        Compound.loop (Execute fuel) pre closure st = (.value (), closure1, st1) →
        Execute fuel stmt closure1 st1 = (.abrupt e, closure2, st2) →
        Execute (fuel + 1) (.Compound (pre ++ stmt :: post)) closure st
          = (.abrupt e, closure2, st2))
    ∧ (∀ condition if_body else_body closure st e closure1 st1,
        Execute fuel condition closure st = (.abrupt e, closure1, st1) →
        Execute (fuel + 1) (.IfElse condition if_body else_body) closure st
          = (.abrupt e, closure1, st1))
    ∧ (∀ condition if_body else_body closure st c closure1 st1 e closure2 st2,
        Execute fuel condition closure st = (.value c, closure1, st1) → IsTrue c = true →
        Execute fuel if_body closure1 st1 = (.abrupt e, closure2, st2) →
        Execute (fuel + 1) (.IfElse condition if_body else_body) closure st
          = (.abrupt e, closure2, st2))
    ∧ (∀ condition if_body else_body closure st c closure1 st1 e closure2 st2,
        Execute fuel condition closure st = (.value c, closure1, st1) → IsTrue c = false →
        Execute fuel else_body closure1 st1 = (.abrupt e, closure2, st2) →
        Execute (fuel + 1) (.IfElse condition if_body (some else_body)) closure st
          = (.abrupt e, closure2, st2))
    ∧ (∀ var rv closure st e closure1 st1,
        exec rv closure st = (.abrupt e, closure1, st1) →
        Assignment.Execute exec var rv closure st = (.abrupt e, closure1, st1))
    ∧ (∀ statement closure st e closure1 st1,
        exec statement closure st = (.abrupt e, closure1, st1) →
        Return.Execute exec statement closure st = (.abrupt e, closure1, st1))
    ∧ (∀ object field_name rv closure st obj e closure1 st1,
        VariableValue.Execute object closure st = .value obj →
        exec rv closure st = (.abrupt e, closure1, st1) →
        FieldAssignment.Execute exec object field_name rv closure st
          = (.abrupt e, closure1, st1))
    ∧ (∀ n arg rest closure st e closure1 st1,
        exec arg closure st = (.abrupt e, closure1, st1) →
        Print.Execute exec n (arg :: rest) closure st = (.abrupt e, closure1, st1))
    ∧ (∀ n arg rest closure st temp closure1 st1 text st2 e closure3 st3,
        exec arg closure st = (.value temp, closure1, st1) →
        Print.text exec n temp st1 = (.value text, st2) →
        Print.Execute exec n rest closure1
            (if rest.isEmpty then st2.write text else (st2.write text).write " ")
          = (.abrupt e, closure3, st3) →
        Print.Execute exec n (arg :: rest) closure st = (.abrupt e, closure3, st3))
    ∧ (∀ n argument closure st e closure1 st1,
        exec argument closure st = (.abrupt e, closure1, st1) →
        Stringify.Execute exec n argument closure st = (.abrupt e, closure1, st1))
    ∧ (∀ argument closure st e closure1 st1,
        exec argument closure st = (.abrupt e, closure1, st1) →
        Not.Execute exec argument closure st = (.abrupt e, closure1, st1))
    ∧ (∀ lhs rhs closure st e closure1 st1,
        exec lhs closure st = (.abrupt e, closure1, st1) →
        Or.Execute exec lhs rhs closure st = (.abrupt e, closure1, st1)
        ∧ And.Execute exec lhs rhs closure st = (.abrupt e, closure1, st1)
        ∧ ExecuteOperands exec lhs rhs closure st = (.abrupt e, closure1, st1))
    ∧ (∀ lhs rhs closure st l closure1 st1 e closure2 st2,
        exec lhs closure st = (.value l, closure1, st1) →
        exec rhs closure1 st1 = (.abrupt e, closure2, st2) →
        ExecuteOperands exec lhs rhs closure st = (.abrupt e, closure2, st2)
        ∧ (IsTrue l = false → Or.Execute exec lhs rhs closure st = (.abrupt e, closure2, st2))
        ∧ (IsTrue l = true → And.Execute exec lhs rhs closure st = (.abrupt e, closure2, st2)))
    ∧ (∀ lhs rhs cmp closure st e closure1 st1,
        ExecuteOperands exec lhs rhs closure st = (.abrupt e, closure1, st1) →
        Add.Execute exec lhs rhs closure st = (.abrupt e, closure1, st1)
        ∧ Sub.Execute exec lhs rhs closure st = (.abrupt e, closure1, st1)
        ∧ Mult.Execute exec lhs rhs closure st = (.abrupt e, closure1, st1)
        ∧ Div.Execute exec lhs rhs closure st = (.abrupt e, closure1, st1)
        ∧ Comparison.Execute exec cmp lhs rhs closure st = (.abrupt e, closure1, st1))
    ∧ (∀ pre arg post vs closure st closure1 st1 e closure2 st2,
        ExecuteArgs exec pre closure st = (.value vs, closure1, st1) →
        exec arg closure1 st1 = (.abrupt e, closure2, st2) →
        ExecuteArgs exec (pre ++ arg :: post) closure st = (.abrupt e, closure2, st2))
    ∧ (∀ object method args closure st e closure1 st1,
        ExecuteArgs exec args closure st = (.abrupt e, closure1, st1) →
        MethodCall.Execute exec object method args closure st = (.abrupt e, closure1, st1))
    ∧ (∀ object method args closure st vs closure1 st1 e closure2 st2,
        ExecuteArgs exec args closure st = (.value vs, closure1, st1) →
        exec object closure1 st1 = (.abrupt e, closure2, st2) →
        MethodCall.Execute exec object method args closure st = (.abrupt e, closure2, st2))
    ∧ (∀ object method args closure st vs closure1 st1 cls addr closure2 st2 e st3,
        ExecuteArgs exec args closure st = (.value vs, closure1, st1) →
        exec object closure1 st1 = (.value (some (.ClassInstance cls addr)), closure2, st2) →
        Call exec cls addr method vs st2 = (.abrupt e, st3) →
        MethodCall.Execute exec object method args closure st = (.abrupt e, closure2, st3))
    ∧ (∀ node cls args closure st e closure1 st1,
        HasMethod cls "__init__" args.length = true →
        ExecuteArgs exec args closure st = (.abrupt e, closure1, st1) →
        NewInstance.Execute exec node cls args closure st = (.abrupt e, closure1, st1))
    ∧ (∀ node cls args closure st vs closure1 st1 e st2,
        HasMethod cls "__init__" args.length = true →
        ExecuteArgs exec args closure st = (.value vs, closure1, st1) →
        Call exec cls (.node node) "__init__" vs st1 = (.abrupt e, st2) →
        NewInstance.Execute exec node cls args closure st = (.abrupt e, closure1, st2))
    ∧ (∀ n arg rest closure st temp closure1 st1 e st2,
        exec arg closure st = (.value temp, closure1, st1) →
        Print.text exec n temp st1 = (.abrupt e, st2) →
        Print.Execute exec n (arg :: rest) closure st = (.abrupt e, closure1, st2))
    ∧ (∀ n cls addr st e st1,
        HasMethod cls "__str__" 0 = true →
        Call exec cls addr "__str__" [] st = (.abrupt e, st1) →
        runtime.Print exec (n + 1) (.ClassInstance cls addr) st = (.abrupt e, st1)
        ∧ Print.text exec (n + 1) (some (.ClassInstance cls addr)) st = (.abrupt e, st1))
    ∧ (∀ n argument closure st cls addr closure1 st1 e st2,
        exec argument closure st = (.value (some (.ClassInstance cls addr)), closure1, st1) →
        HasMethod cls "__str__" 0 = true →
        Call exec cls addr "__str__" [] st1 = (.abrupt e, st2) →
        Stringify.Execute exec n argument closure st = (.abrupt e, closure1, st2))
    ∧ (∀ lhs rhs closure st cls addr r closure1 st1 e st2,
        ExecuteOperands exec lhs rhs closure st
          = (.value (some (.ClassInstance cls addr), r), closure1, st1) →
        HasMethod cls "__add__" 1 = true →
        Call exec cls addr "__add__" [r] st1 = (.abrupt e, st2) →
        Add.Execute exec lhs rhs closure st = (.abrupt e, closure1, st2))
    ∧ (∀ cmp lhs rhs closure st l r closure1 st1 e st2,
        ExecuteOperands exec lhs rhs closure st = (.value (l, r), closure1, st1) →
        cmp.apply exec l r st1 = (.abrupt e, st2) →
        Comparison.Execute exec cmp lhs rhs closure st = (.abrupt e, closure1, st2))
    ∧ (∀ cls addr rhs st e st1,
        (HasMethod cls "__eq__" 1 = true →
          Call exec cls addr "__eq__" [rhs] st = (.abrupt e, st1) →
          Equal exec (some (.ClassInstance cls addr)) rhs st = (.abrupt e, st1)
          ∧ NotEqual exec (some (.ClassInstance cls addr)) rhs st = (.abrupt e, st1))
        ∧ (HasMethod cls "__lt__" 1 = true →
          Call exec cls addr "__lt__" [rhs] st = (.abrupt e, st1) →
          Less exec (some (.ClassInstance cls addr)) rhs st = (.abrupt e, st1)
          ∧ Greater exec (some (.ClassInstance cls addr)) rhs st = (.abrupt e, st1)
          ∧ LessOrEqual exec (some (.ClassInstance cls addr)) rhs st = (.abrupt e, st1)
          ∧ GreaterOrEqual exec (some (.ClassInstance cls addr)) rhs st = (.abrupt e, st1)))
    ∧ (∀ cls addr method actual_args st method_ptr e closure1 st1,
        cls.GetMethod method = some method_ptr →
        method_ptr.formal_params.length = actual_args.length →
        exec method_ptr.body
            (bindArgs (Closure.set [] "self" (some (.ClassInstance cls addr)))
              method_ptr.formal_params actual_args) st
          = (.abrupt e, closure1, st1) →
        Call exec cls addr method actual_args st = (.abrupt e, st1)) := by
  refine ⟨?_, ?_, ?_, ?_, ?_, ?_, ?_, ?_, ?_, ?_, ?_, ?_, ?_, ?_, ?_, ?_, ?_, ?_, ?_, ?_,
    ?_, ?_, ?_, ?_, ?_, ?_, ?_, ?_, ?_, ?_, ?_⟩
  · intro e closure st v closure1 st1 h
    simp [Execute, Return.Execute, h]
  · intro body closure st v closure1 st1 h
    simp [Execute, MethodBody.Execute, h]
  · intro body closure st v closure1 st1 h
    simp [Execute, MethodBody.Execute, h]
  · intro body closure st what closure1 st1 h
    simp [Execute, MethodBody.Execute, h]
  · intro pre stmt post closure st closure1 st1 e closure2 st2 hpre hstmt
    simp [Execute, Compound.Execute,
      Compound.loop_stops (Execute fuel) stmt post e pre closure closure1 closure2 st st1 st2
        hpre hstmt]
  · intro condition if_body else_body closure st e closure1 st1 h
    simp [Execute, IfElse.Execute, h]
  · intro condition if_body else_body closure st c closure1 st1 e closure2 st2 hc ht hb
    simp [Execute, IfElse.Execute, hc, ht, hb]
  · intro condition if_body else_body closure st c closure1 st1 e closure2 st2 hc hf hb
    simp [Execute, IfElse.Execute, hc, hf, hb]
  · intro var rv closure st e closure1 st1 h
    simp [Assignment.Execute, h]
  · intro statement closure st e closure1 st1 h
    simp [Return.Execute, h]
  · intro object field_name rv closure st obj e closure1 st1 ho h
    simp [FieldAssignment.Execute, ho, h]
  · intro n arg rest closure st e closure1 st1 h
    simp [Print.Execute, Print.loop, h]
  · intro n arg rest closure st temp closure1 st1 text st2 e closure3 st3 h hp hrest
    simp only [Print.Execute, Print.loop, h, hp] at hrest ⊢
    exact hrest
  · intro n argument closure st e closure1 st1 h
    simp [Stringify.Execute, h]
  · intro argument closure st e closure1 st1 h
    simp [Not.Execute, h]
  · intro lhs rhs closure st e closure1 st1 h
    simp [Or.Execute, And.Execute, ExecuteOperands, h]
  · intro lhs rhs closure st l closure1 st1 e closure2 st2 hl hr
    refine ⟨by simp [ExecuteOperands, hl, hr], ?_, ?_⟩
    · intro hf
      simp [Or.Execute, hl, hr, hf]
    · intro ht
      simp [And.Execute, hl, hr, ht]
  · intro lhs rhs cmp closure st e closure1 st1 h
    simp [Add.Execute, Sub.Execute, Mult.Execute, Div.Execute, Comparison.Execute, h]
  · intro pre arg post vs closure st closure1 st1 e closure2 st2 hpre harg
    exact ExecuteArgs_stops exec arg post e pre vs closure closure1 closure2 st st1 st2 hpre harg
  · intro object method args closure st e closure1 st1 h
    simp [MethodCall.Execute, h]
  · intro object method args closure st vs closure1 st1 e closure2 st2 ha ho
    simp [MethodCall.Execute, ha, ho]
  · intro object method args closure st vs closure1 st1 cls addr closure2 st2 e st3 ha ho hcall
    simp [MethodCall.Execute, ha, ho, hcall]
  · intro node cls args closure st e closure1 st1 hm ha
    simp [NewInstance.Execute, hm, ha]
  · intro node cls args closure st vs closure1 st1 e st2 hm ha hcall
    simp [NewInstance.Execute, hm, ha, hcall]
  · intro n arg rest closure st temp closure1 st1 e st2 h hp
    simp [Print.Execute, Print.loop, h, hp]
  · intro n cls addr st e st1 hm hcall
    simp [runtime.Print, Print.text, hm, hcall]
  · intro n argument closure st cls addr closure1 st1 e st2 h hm hcall
    simp [Stringify.Execute, h, hm, hcall]
  · intro lhs rhs closure st cls addr r closure1 st1 e st2 h hm hcall
    simp [Add.Execute, h, hm, hcall]
  · intro cmp lhs rhs closure st l r closure1 st1 e st2 h hc
    simp [Comparison.Execute, h, hc]
  · intro cls addr rhs st e st1
    constructor
    · intro hm hcall
      simp [Equal, NotEqual, hm, hcall]
    · intro hm hcall
      simp [Less, Greater, LessOrEqual, GreaterOrEqual, hm, hcall]
  · intro cls addr method actual_args st method_ptr e closure1 st1 hg hlen h
    simp [Call, HasMethod, hg, hlen, h]

/-- Witness for C5: the body `Compound([IfElse(True, Return(7)), Print([])])` reaches the
`Return`; the `MethodBody` returns 7 and the `Print` after it has written nothing. -/
theorem MethodBody_Return_propagation_witness :
    Execute 4 (.Compound [.IfElse (.BoolConst true) (.Return (.NumericConst 7)) none,
        .Print []]) [] State.initial
      = (.abrupt (.ReturnException (some (.Number 7))), [], State.initial)
    ∧ Execute 5 (.MethodBody (.Compound [.IfElse (.BoolConst true)
        (.Return (.NumericConst 7)) none, .Print []])) [] State.initial
      = (.value (some (.Number 7)), [], State.initial) :=
  ⟨rfl, (MethodBody_Return_propagation 4 (Execute 0)).2.1 _ [] State.initial _ [] State.initial
    rfl⟩

end ast

namespace runtime

/-- The search of a method list finds nothing exactly when no method has the name. -/
theorem find_if_eq_none (methods : List Method) (name : String) :
    find_if methods name = none ↔ ∀ method ∈ methods, method.name ≠ name := by
  simp [find_if, List.find?_eq_none]

/-- A method found by the search belongs to the list and has the name. -/
theorem find_if_eq_some (methods : List Method) (name : String) (method : Method)
    (h : find_if methods name = some method) : method ∈ methods ∧ method.name = name := by
  unfold find_if at h
  have hmem := List.mem_of_find?_eq_some h
  have hname := List.find?_some h
  exact ⟨hmem, by simpa using hname⟩

/-- The class is the first element of its parent chain. -/
theorem Class.chain_head (cls : Class) : ∃ rest, cls.chain = cls :: rest := by
  match cls with
  | .mk name methods none => exact ⟨[], by simp [Class.chain]⟩
  | .mk name methods (some parent) => exact ⟨parent.chain, by simp [Class.chain]⟩

/-- Method resolution is the search of the classes of the parent chain in order. -/
theorem Class.GetMethod_eq_findSome (name : String) : ∀ cls : Class,
    cls.GetMethod name = cls.chain.findSome? (fun c => find_if c.methods_ name)
  | .mk n methods none => by
    simp only [Class.GetMethod, Class.chain, List.findSome?_cons, Class.methods_]
    cases h : find_if methods name with
    | none => simp
    | some method => rfl
  | .mk n methods (some parent) => by
    have ih := Class.GetMethod_eq_findSome name parent
    simp only [Class.GetMethod, Class.chain, List.findSome?_cons, Class.methods_]
    cases h : find_if methods name with
    | none => simpa using ih
    | some method => rfl

/-- C6: `Class::GetMethod` searches the parent chain of the class (the class itself, its
parent, its grandparent, ...; the chain is finite and acyclic by construction) and
returns the method of the given name defined in the nearest class of the chain that
defines the name: a method of a child overrides the one of an ancestor, an inherited
method is found through the child.  It returns absent exactly when no class of the chain
defines the name. -/
theorem Class.GetMethod_nearest (cls : Class) (name : String) :
    (cls.GetMethod name = none ↔ ∀ c ∈ cls.chain, ¬ c.Defines name)
    ∧ (∀ method, cls.GetMethod name = some method →
        ∃ pre c post, cls.chain = pre ++ c :: post
          ∧ (∀ c1 ∈ pre, ¬ c1.Defines name)
          ∧ find_if c.methods_ name = some method
          ∧ method ∈ c.methods_ ∧ method.name = name)
    ∧ (cls.Defines name → ∃ method ∈ cls.methods_, method.name = name
          ∧ cls.GetMethod name = some method)
    ∧ (∀ n methods parent, cls = .mk n methods (some parent) → ¬ cls.Defines name →
        cls.GetMethod name = parent.GetMethod name) := by
  have hdef : ∀ c : Class, find_if c.methods_ name = none ↔ ¬ c.Defines name := by
    intro c
    rw [find_if_eq_none]
    simp [Class.Defines]
  refine ⟨?_, ?_, ?_, ?_⟩
  · rw [Class.GetMethod_eq_findSome, List.findSome?_eq_none_iff]
    exact forall₂_congr (fun c _ => hdef c)
  · intro method h
    rw [Class.GetMethod_eq_findSome] at h
    obtain ⟨pre, c, post, hchain, hfind, hpre⟩ := List.findSome?_eq_some_iff.mp h
    refine ⟨pre, c, post, hchain, ?_, hfind, find_if_eq_some _ _ _ hfind⟩
    intro c1 hc1
    exact (hdef c1).mp (hpre c1 hc1)
  · intro hcls
    obtain ⟨rest, hrest⟩ := Class.chain_head cls
    cases hfind : find_if cls.methods_ name with
    | none => exact absurd hcls ((hdef cls).mp hfind)
    | some method =>
      obtain ⟨hmem, hname⟩ := find_if_eq_some _ _ _ hfind
      refine ⟨method, hmem, hname, ?_⟩
      rw [Class.GetMethod_eq_findSome, hrest, List.findSome?_cons, hfind]
  · intro n methods parent hcls hnot
    subst hcls
    have hnone : find_if methods name = none := (hdef (.mk n methods (some parent))).mpr hnot
    simp [Class.GetMethod, hnone]

end runtime

namespace ast

open runtime

/-- C7 (the code at the failing input): the program `f = Factory()`, `a = f.make()`,
`a.x = 5`, `b = f.make()`, `print b.x`, in which `make` is `return Plain()`, prints 5: the
second execution of the `NewInstance` node of `make` returns the instance the first one
returned, with the field `x` stored in between, and `a` and `b` hold the same instance. -/
theorem NewInstance_returns_same_instance :
    (Execute 10 example_two_instances [] State.initial).2.2.output = "5\n"
    ∧ (Execute 10 example_two_instances [] State.initial).2.1.at "a"
        = some (some (.ClassInstance example_Plain (.node 0)))
    ∧ (Execute 10 example_two_instances [] State.initial).2.1.at "b"
        = some (some (.ClassInstance example_Plain (.node 0))) := by
  refine ⟨by decide, rfl, rfl⟩

end ast

namespace runtime

/-- The order `stringLess` is total: `a` is greater than `b` exactly when it is neither
less than nor equal to `b`. -/
theorem stringLess_flip : ∀ a b : List Char,
    (!stringLess a b && !decide (a = b)) = stringLess b a
  | [], [] => by simp [stringLess]
  | [], _ :: _ => by simp [stringLess]
  | _ :: _, [] => by simp [stringLess]
  | x :: as, y :: bs => by
    have ih := stringLess_flip as bs
    simp only [stringLess, List.cons.injEq]
    rcases lt_trichotomy x y with hlt | heq | hgt
    · have h1 : ¬ y < x := not_lt_of_gt hlt
      have h2 : ¬ y = x := fun h => (ne_of_lt hlt) h.symm
      simp [hlt, h1, h2]
    · subst heq
      simpa using ih
    · have h1 : ¬ x < y := not_lt_of_gt hgt
      have h2 : ¬ x = y := fun h => (ne_of_lt hgt) h.symm
      simp [hgt, h1, h2]

/-- C8 (as stated, refuted): for two instances of a class whose `__lt__` always returns
`True` and whose `__eq__` always returns `False`, `Greater(a, b)` and `Less(b, a)` both
return without error, the first `false` and the second `true`. -/
theorem Greater_ne_Less_flip_on_instances :
    Greater (ast.Execute 5) (some (.ClassInstance example_AlwaysLess (.node 0)))
        (some (.ClassInstance example_AlwaysLess (.node 1))) State.initial
      = (.value false, State.initial)
    ∧ Less (ast.Execute 5) (some (.ClassInstance example_AlwaysLess (.node 1)))
        (some (.ClassInstance example_AlwaysLess (.node 0))) State.initial
      = (.value true, State.initial) :=
  ⟨rfl, rfl⟩

/-- C8 (amended): for two primitives of the same variant (two `Number`, two `String` or
two `Bool`), `Greater(a, b)` and `Less(b, a)` both return without error, leave the state
unchanged and return the same boolean. -/
theorem Greater_eq_Less_flip_on_primitives (exec : Executor) (a b : ObjectHolder) (st : State)
    (h : SamePrimitive a b) :
    ∃ result : Bool, Greater exec a b st = (.value result, st)
      ∧ Less exec b a st = (.value result, st) := by
  rcases a with _ | (l | l | l | l | _) <;> rcases b with _ | (r | r | r | r | _) <;>
    simp only [SamePrimitive] at h
  · refine ⟨decide (r < l), ?_, rfl⟩
    by_cases hlt : l < r
    · have : ¬ r < l := not_lt_of_gt hlt
      simp [Greater, Less, hlt, this]
    · by_cases heq : l = r
      · subst heq
        simp [Greater, Less, NotEqual, Equal]
      · have : r < l := lt_of_le_of_ne (not_lt.mp hlt) (fun h => heq h.symm)
        simp [Greater, Less, NotEqual, Equal, hlt, heq, this]
  · refine ⟨stringLess r.data l.data, ?_, rfl⟩
    have hflip := stringLess_flip l.data r.data
    have hdata : (l = r) ↔ (l.data = r.data) := String.ext_iff
    cases hless : stringLess l.data r.data with
    | true =>
      rw [hless] at hflip
      simp only [Bool.not_true, Bool.false_and] at hflip
      simp [Greater, Less, hless, ← hflip]
    | false =>
      rw [hless] at hflip
      simp only [Bool.not_false, Bool.true_and] at hflip
      have hbeq : (l == r) = decide (l.data = r.data) := by
        by_cases heq : l = r
        · subst heq
          simp
        · have hne : ¬ l.data = r.data := fun hd => heq (hdata.mpr hd)
          simp [heq, hne]
      simp [Greater, Less, NotEqual, Equal, hless, ← hflip, hbeq]
  · refine ⟨!r && l, ?_, rfl⟩
    cases l <;> cases r <;> rfl

/-- Witness for C8 (amended): the strings "ab" and "b". -/
theorem Greater_eq_Less_flip_on_primitives_witness :
    SamePrimitive (some (.String "b")) (some (.String "ab"))
    ∧ ∃ result : Bool,
        Greater (ast.Execute 0) (some (.String "b")) (some (.String "ab")) State.initial
          = (.value result, State.initial)
        ∧ Less (ast.Execute 0) (some (.String "ab")) (some (.String "b")) State.initial
          = (.value result, State.initial) :=
  ⟨trivial, Greater_eq_Less_flip_on_primitives (ast.Execute 0) (some (.String "b"))
    (some (.String "ab")) State.initial trivial⟩

end runtime

namespace runtime

/-- C9: `Equal` returns true for two empty holders and the equality of the payloads for
two `Number`, two `String` or two `Bool`, so that on these it is reflexive and symmetric;
when the left operand is not an instance of a class defining `__eq__` with one
parameter, it throws in every other case (different variants, exactly one empty holder,
a `Class` value, an instance without `__eq__`).  The state is left unchanged. -/
theorem Equal_on_primitives (exec : Executor) (st : State) :
    Equal exec none none st = (.value true, st)
    ∧ (∀ l r : Int,
        Equal exec (some (.Number l)) (some (.Number r)) st = (.value (decide (l = r)), st))
    ∧ (∀ l r : String,
        Equal exec (some (.String l)) (some (.String r)) st = (.value (decide (l = r)), st))
    ∧ (∀ l r : Bool,
        Equal exec (some (.Bool l)) (some (.Bool r)) st = (.value (decide (l = r)), st))
    ∧ (∀ lhs rhs : ObjectHolder,
        (∀ cls addr, lhs = some (.ClassInstance cls addr) → HasMethod cls "__eq__" 1 = false) →
        ¬ (lhs = none ∧ rhs = none) → ¬ SamePrimitive lhs rhs →
        Equal exec lhs rhs st = (.abrupt Equal.error, st))
    ∧ (∀ x : ObjectHolder, x = none ∨ SamePrimitive x x →
        Equal exec x x st = (.value true, st))
    ∧ (∀ a b : ObjectHolder, SamePrimitive a b → Equal exec a b st = Equal exec b a st) := by
  refine ⟨rfl, ?_, ?_, ?_, ?_, ?_, ?_⟩
  · intro l r
    by_cases h : l = r <;> simp [Equal, h]
  · intro l r
    by_cases h : l = r <;> simp [Equal, h]
  · intro l r
    by_cases h : l = r <;> simp [Equal, h]
  · intro lhs rhs hno hnone hprim
    rcases lhs with _ | (l | l | l | l | ⟨cls, addr⟩) <;>
      rcases rhs with _ | (r | r | r | r | ⟨cls2, addr2⟩) <;>
      simp only [SamePrimitive, not_true_eq_false, and_self, not_false_eq_true] at hnone hprim <;>
      first
        | rfl
        | simp [Equal, Equal.error, hno cls addr rfl]
  · intro x hx
    rcases x with _ | (l | l | l | l | _)
    · rfl
    · simp [Equal]
    · simp [Equal]
    · simp [Equal]
    · rcases hx with hx | hx
      · cases hx
      · exact absurd hx (by simp [SamePrimitive])
    · rcases hx with hx | hx
      · cases hx
      · exact absurd hx (by simp [SamePrimitive])
  · intro a b hab
    rcases a with _ | (l | l | l | l | _) <;> rcases b with _ | (r | r | r | r | _) <;>
      simp only [SamePrimitive] at hab
    · by_cases h : l = r
      · subst h
        rfl
      · have h2 : ¬ r = l := fun e => h e.symm
        simp [Equal, h, h2]
    · by_cases h : l = r
      · subst h
        rfl
      · have h2 : ¬ r = l := fun e => h e.symm
        simp [Equal, h, h2]
    · cases l <;> cases r <;> rfl

/-- Witness for C9: a `Number` and a `String` cannot be compared. -/
theorem Equal_on_primitives_witness :
    (∀ cls addr, (some (Object.Number 1) : ObjectHolder) = some (.ClassInstance cls addr) →
        HasMethod cls "__eq__" 1 = false)
    ∧ ¬ ((some (Object.Number 1) : ObjectHolder) = none
          ∧ (some (Object.String "1") : ObjectHolder) = none)
    ∧ ¬ SamePrimitive (some (.Number 1)) (some (.String "1"))
    ∧ Equal (ast.Execute 0) (some (.Number 1)) (some (.String "1")) State.initial
        = (.abrupt Equal.error, State.initial) :=
  ⟨fun _ _ h => (by cases h), fun h => (by cases h.1), fun h => h,
    (Equal_on_primitives (ast.Execute 0) State.initial).2.2.2.2.1 (some (.Number 1))
      (some (.String "1")) (fun _ _ h => (by cases h)) (fun h => (by cases h.1)) (fun h => h)⟩

end runtime

namespace runtime

/-- Lookup in a closure, entry by entry. -/
theorem Closure.at_cons (k : String) (v : ObjectHolder) (rest : Closure) (name : String) :
    Closure.at ((k, v) :: rest) name = if name = k then some v else Closure.at rest name := by
  by_cases h : name = k
  · subst h
    simp [Closure.at, List.lookup]
  · have hb : (name == k) = false := by simpa using h
    simp [Closure.at, List.lookup, hb, h]

/-- Lookup after `closure[key] = value`. -/
theorem Closure.at_set (closure : Closure) (key : String) (value : ObjectHolder)
    (name : String) :
    (closure.set key value).at name = if name = key then some value else closure.at name := by
  induction closure with
  | nil =>
    simp only [Closure.set, Closure.at_cons]
  | cons entry rest ih =>
    obtain ⟨k, v⟩ := entry
    by_cases hk : k = key
    · subst hk
      simp only [Closure.set, if_true, Closure.at_cons]
      by_cases h : name = k <;> simp [h]
    · simp only [Closure.set, hk, if_false, Closure.at_cons, ih]
      by_cases h : name = key
      · subst h
        have hne : ¬ name = k := fun e => hk e.symm
        simp [hne]
      · simp [h]

/-- Lookup in the closure built by the binding loop of `Call`. -/
theorem bindArgs_at (name : String) : ∀ (params : List String) (args : List ObjectHolder)
    (closure : Closure),
    (bindArgs closure params args).at name
      = match lastBinding params args name with
        | some value => some value
        | none => closure.at name
  | [], _, closure => by simp [bindArgs, lastBinding]
  | _ :: _, [], closure => by simp [bindArgs, lastBinding]
  | param :: params, arg :: args, closure => by
    have ih := bindArgs_at name params args (closure.set param arg)
    simp only [bindArgs, lastBinding, ih, Closure.at_set]
    cases lastBinding params args name with
    | some value => rfl
    | none =>
      by_cases h : name = param
      · subst h
        simp
      · have h2 : ¬ param = name := fun e => h e.symm
        simp [h, h2]

/-- A name that is no formal parameter has no binding among the arguments. -/
theorem lastBinding_eq_none (name : String) : ∀ (params : List String)
    (args : List ObjectHolder), name ∉ params → lastBinding params args name = none
  | [], _, _ => by simp [lastBinding]
  | _ :: _, [], _ => by simp [lastBinding]
  | param :: params, arg :: args, h => by
    have h1 : ¬ param = name := fun e => h (by simp [e])
    have h2 : name ∉ params := fun e => h (by simp [e])
    simp [lastBinding, lastBinding_eq_none name params args h2, h1]

/-- With pairwise different formal parameters, the parameter at position `i` is bound to
the argument at position `i`. -/
theorem lastBinding_get : ∀ (params : List String) (args : List ObjectHolder) (i : Nat)
    (hp : i < params.length) (ha : i < args.length), params.Nodup →
    lastBinding params args (params.get ⟨i, hp⟩) = some (args.get ⟨i, ha⟩)
  | [], _, _, hp, _, _ => by simp at hp
  | _ :: _, [], _, _, ha, _ => by simp at ha
  | param :: params, arg :: args, 0, _, _, hnd => by
    have hnot : param ∉ params := (List.nodup_cons.mp hnd).1
    simp [lastBinding, lastBinding_eq_none param params args hnot]
  | param :: params, arg :: args, i + 1, hp, ha, hnd => by
    have hp1 : i < params.length := by simpa using hp
    have ha1 : i < args.length := by simpa using ha
    have ih := lastBinding_get params args i hp1 ha1 (List.nodup_cons.mp hnd).2
    simp only [List.get_eq_getElem, List.getElem_cons_succ] at ih ⊢
    simp [lastBinding, ih]

/-- C10 (as stated, refuted): for the method `m(self)` with body `return self`, the call
`m(7)` on an instance returns 7: in the closure of the body `self` is bound to the
argument, not to the instance. -/
theorem Call_self_shadowed :
    Call (ast.Execute 5) example_SelfParam (.node 0) "m" [some (.Number 7)] State.initial
      = (.value (some (.Number 7)), State.initial) :=
  rfl

/-- C10 (amended): `ClassInstance::Call(name, args)` throws the 'no such method' error,
leaving the state unchanged, if and only if method resolution finds no method `name` or
the method found has a number of formal parameters different from `len(args)`.
Otherwise it executes the body of the method found, in the current state, in a closure
built from nothing but the instance, the formal parameters and the arguments, and returns
the outcome and state of the body.  In that closure every formal parameter is bound to
the argument at its position (at the last of its positions when the name is repeated),
`self` is bound to the instance unless a formal parameter is named `self`, and no other
name is bound.  The closure of the caller is not an input of the call, and `MethodCall`
returns it as the evaluation of the arguments and the object left it. -/
theorem Call_closure_and_error (exec : Executor) (cls : Class) (addr : Addr)
    (method : String) (actual_args : List ObjectHolder) (st : State) :
    (HasMethod cls method actual_args.length = false
      ↔ (cls.GetMethod method = none
          ∨ ∃ m, cls.GetMethod method = some m ∧ m.formal_params.length ≠ actual_args.length))
    ∧ (HasMethod cls method actual_args.length = false →
        Call exec cls addr method actual_args st = (.abrupt Call.error, st))
    ∧ (∀ m, cls.GetMethod method = some m → m.formal_params.length = actual_args.length →
        ∃ temp_closure : Closure,
          Call exec cls addr method actual_args st
            = ((exec m.body temp_closure st).1, (exec m.body temp_closure st).2.2)
          ∧ (∀ name, temp_closure.at name
              = match lastBinding m.formal_params actual_args name with
                | some value => some value
                | none => if name = "self" then some (some (.ClassInstance cls addr)) else none)
          ∧ ("self" ∉ m.formal_params →
              temp_closure.at "self" = some (some (.ClassInstance cls addr)))
          ∧ (m.formal_params.Nodup → ∀ (i : Nat) (hp : i < m.formal_params.length)
              (ha : i < actual_args.length),
              temp_closure.at (m.formal_params.get ⟨i, hp⟩) = some (actual_args.get ⟨i, ha⟩))
          ∧ (∀ name, name ≠ "self" → name ∉ m.formal_params → temp_closure.at name = none))
    ∧ (∀ object args closure vs closure1 st1 cls1 addr1 closure2 st2,
        ast.ExecuteArgs exec args closure st = (.value vs, closure1, st1) →
        exec object closure1 st1 = (.value (some (.ClassInstance cls1 addr1)), closure2, st2) →
        ast.MethodCall.Execute exec object method args closure st
          = ((Call exec cls1 addr1 method vs st2).1, closure2,
              (Call exec cls1 addr1 method vs st2).2)) := by
  refine ⟨?_, ?_, ?_, ?_⟩
  · unfold HasMethod
    cases hg : cls.GetMethod method with
    | none => simp
    | some m => simp
  · intro h
    simp [Call, h, Call.error]
  · intro m hg hlen
    have hat : ∀ name,
        (bindArgs (Closure.set [] "self" (some (.ClassInstance cls addr)))
            m.formal_params actual_args).at name
          = match lastBinding m.formal_params actual_args name with
            | some value => some value
            | none => if name = "self" then some (some (.ClassInstance cls addr)) else none := by
      intro name
      rw [bindArgs_at, Closure.at_set]
      rfl
    refine ⟨bindArgs (Closure.set [] "self" (some (.ClassInstance cls addr)))
        m.formal_params actual_args, ?_, hat, ?_, ?_, ?_⟩
    · simp [Call, HasMethod, hg, hlen]
    · intro hself
      rw [hat, lastBinding_eq_none "self" _ _ hself]
      simp
    · intro hnd i hp ha
      rw [hat, lastBinding_get m.formal_params actual_args i hp ha hnd]
    · intro name hname hnot
      rw [hat, lastBinding_eq_none name _ _ hnot]
      simp [hname]
  · intro object args closure vs closure1 st1 cls1 addr1 closure2 st2 ha ho
    simp [ast.MethodCall.Execute, ha, ho]

/-- Witness for C10 (amended): a call of `g` with no argument on an instance of `Base`,
whose `g` has one parameter, throws. -/
theorem Call_closure_and_error_witness :
    HasMethod example_Base "g" ([] : List ObjectHolder).length = false
    ∧ Call (ast.Execute 5) example_Base (.node 0) "g" [] State.initial
        = (.abrupt Call.error, State.initial) :=
  ⟨rfl, (Call_closure_and_error (ast.Execute 5) example_Base (.node 0) "g" []
    State.initial).2.1 rfl⟩

/-- Witness for C6: `Derived` defines `g`, so resolution of `g` from `Derived` gives a
method of `Derived` itself, not the `g` of its parent `Base`. -/
theorem Class.GetMethod_nearest_witness :
    example_Derived.Defines "g"
    ∧ ∃ method ∈ example_Derived.methods_, method.name = "g"
        ∧ example_Derived.GetMethod "g" = some method :=
  ⟨⟨_, List.mem_cons_self _ _, rfl⟩,
    (Class.GetMethod_nearest example_Derived "g").2.2.1 ⟨_, List.mem_cons_self _ _, rfl⟩⟩

end runtime

namespace parse

/-- A value found by `lookup` is paired with the key in the list. -/
theorem lookup_mem {α : Type} (key : String) (value : α) :
    ∀ entries : List (String × α), entries.lookup key = some value → (key, value) ∈ entries
  | [], h => by simp at h
  | (k, v) :: rest, h => by
    by_cases hk : key = k
    · subst hk
      simp [List.lookup] at h
      simp [h]
    · have hb : (key == k) = false := by simpa using hk
      simp only [List.lookup, hb] at h
      exact List.mem_cons_of_mem _ (lookup_mem key value rest h)

/-- A keyword is no structural token. -/
theorem KEY_WORDS_MAP_structural (s : String) (t : Token) (h : KEY_WORDS_MAP s = some t) :
    t.structural = false := by
  have hall : ∀ entry ∈ KEY_WORDS, entry.2.structural = false := by decide
  exact hall _ (lookup_mem s t KEY_WORDS h)

/-- A comparison token is no structural token. -/
theorem comparison_token_structural (c : Char) : (comparison_token c).structural = false := by
  unfold comparison_token
  split_ifs <;> rfl

/-- The token `LoadIdentifier` returns is a keyword or an `Id`, no structural token. -/
theorem LoadIdentifier_structural (b : Option Token) (input input1 : IStream) (t : Token)
    (h : LoadIdentifier b input = .ok (t, input1)) : t.structural = false := by
  unfold LoadIdentifier at h
  split at h
  · split at h
    · split at h
      · rename_i hk
        cases h
        exact KEY_WORDS_MAP_structural _ _ hk
      · cases h
        rfl
    · cases h
  · cases h

/-- A round that dispatches a lexeme goes on to the next round, with the tokens
unchanged or one token added that is not structural; the indentation is unchanged. -/
theorem LoadTokens.lexeme_next (s : LoadState) (c : Char) (input : IStream) (r : Step)
    (h : LoadTokens.lexeme s c input = r) :
    (∃ f, r = .fail f)
    ∨ ∃ s1, r = .next s1 ∧ s1.indent_ = s.indent_ ∧ s1.old_indent_ = s.old_indent_
        ∧ (s1.tokens_ = s.tokens_
            ∨ ∃ t, t.structural = false ∧ s1.tokens_ = s.tokens_ ++ [t]) := by
  subst h
  unfold LoadTokens.lexeme
  dsimp only
  split_ifs
  · exact Or.inr ⟨_, rfl, rfl, rfl, Or.inr ⟨_, comparison_token_structural c, rfl⟩⟩
  · exact Or.inr ⟨_, rfl, rfl, rfl, Or.inr ⟨_, (by rfl), rfl⟩⟩
  · exact Or.inr ⟨_, rfl, rfl, rfl, Or.inr ⟨_, (by rfl), rfl⟩⟩
  · split
    · exact Or.inr ⟨_, rfl, rfl, rfl, Or.inr ⟨_, (by rfl), rfl⟩⟩
    · exact Or.inl ⟨_, rfl⟩
  · split
    · rename_i t input1 hid
      exact Or.inr ⟨_, rfl, rfl, rfl, Or.inr ⟨t, LoadIdentifier_structural _ _ _ _ hid, rfl⟩⟩
    · exact Or.inl ⟨_, rfl⟩
  · split
    · exact Or.inr ⟨_, rfl, rfl, rfl, Or.inr ⟨_, (by rfl), rfl⟩⟩
    · exact Or.inl ⟨_, rfl⟩
  · exact Or.inr ⟨_, rfl, rfl, rfl, Or.inr ⟨_, (by rfl), rfl⟩⟩
  · exact Or.inr ⟨_, rfl, rfl, rfl, Or.inl rfl⟩

/-- The tokens left by the loop that pops back to the last `Newline` are among the tokens
it started from. -/
theorem pop_to_newline_subset (tokens : List Token) : pop_to_newline tokens ⊆ tokens := by
  intro t ht
  unfold pop_to_newline at ht
  rw [List.mem_reverse] at ht
  have := (List.dropWhile_suffix (fun t => t != Token.Newline)).subset ht
  exact List.mem_reverse.mp this

end parse

namespace parse

/-- The loop that counts spaces leaves a part of the characters it started from. -/
theorem count_spaces_length : ∀ (buf : List Char) (c : Char) (n n1 : Nat) (c1 : Char)
    (rest : List Char), count_spaces buf c n = some (n1, c1, rest) →
    rest.length ≤ buf.length
  | [], c, n, n1, c1, rest, h => by
    simp only [count_spaces] at h
    split_ifs at h
    simp only [Option.some.injEq, Prod.mk.injEq] at h
    simp [← h.2.2]
  | d :: r, c, n, n1, c1, rest, h => by
    simp only [count_spaces] at h
    split_ifs at h
    · have := count_spaces_length r d (n + 1) n1 c1 rest h
      simp only [List.length_cons]
      omega
    · simp only [Option.some.injEq, Prod.mk.injEq] at h
      simp [← h.2.2]

/-- Skipping the indentation keeps the flags of the stream and leaves a part of its
characters. -/
theorem skip_spaces_length (c : Char) (input : IStream) (n : Nat) (c1 : Char)
    (input1 : IStream) (h : skip_spaces c input = some (n, c1, input1)) :
    input1.eofbit = input.eofbit ∧ input1.failbit = input.failbit
      ∧ input1.buf.length ≤ input.buf.length := by
  unfold skip_spaces at h
  split_ifs at h
  · split at h
    · rename_i n2 c2 rest hcount
      simp only [Option.some.injEq, Prod.mk.injEq] at h
      obtain ⟨-, -, rfl⟩ := h
      exact ⟨rfl, rfl, count_spaces_length _ _ _ _ _ _ hcount⟩
    · cases h
  · simp only [Option.some.injEq, Prod.mk.injEq] at h
    obtain ⟨-, -, rfl⟩ := h
    exact ⟨rfl, rfl, le_refl _⟩

/-- Skipping a line consumes at least its line feed. -/
theorem skipLine_length : ∀ (buf rest : List Char), skipLine buf = some rest →
    rest.length < buf.length
  | [], rest, h => by simp [skipLine] at h
  | d :: r, rest, h => by
    simp only [skipLine] at h
    split_ifs at h
    · simp only [Option.some.injEq] at h
      subst h
      simp
    · have := skipLine_length r rest h
      simp only [List.length_cons]
      omega

/-- Skipping a comment on a stream in good state, followed by the `putback` of the line
feed: the flags are sound and no more characters are left than before. -/
theorem ignoreLine_putback (buf : List Char) :
    let input1 := ({ buf := buf, eofbit := false, failbit := false } : IStream).ignoreLine
    (if !input1.eof then input1.putback '\n' else input1).sound
      ∧ (if !input1.eof then input1.putback '\n' else input1).buf.length ≤ buf.length := by
  simp only [IStream.ignoreLine, IStream.good, Bool.not_false, Bool.and_self, if_true]
  cases hskip : skipLine buf with
  | none => simp [IStream.eof, IStream.sound]
  | some rest =>
    have := skipLine_length buf rest hskip
    simp only [IStream.eof, Bool.not_false, if_true, IStream.putback, Bool.false_eq_true,
      if_false, IStream.sound, List.length_cons, false_implies, true_and]
    omega

/-- The digit loop of `LoadNumber` leaves a part of the characters, without `failbit`. -/
theorem read_digits_length : ∀ (buf parsed : List Char),
    (read_digits buf parsed).2.failbit = false
      ∧ (read_digits buf parsed).2.buf.length ≤ buf.length
  | [], parsed => by simp [read_digits]
  | d :: r, parsed => by
    simp only [read_digits]
    split_ifs
    · have := read_digits_length r (parsed ++ [d])
      exact ⟨this.1, by simp only [List.length_cons]; omega⟩
    · simp

/-- The loop of `LoadIdentifier` leaves sound flags and a part of the characters. -/
theorem LoadIdentifier.loop_rest_length (b : Option Token) : ∀ (buf s s1 : List Char)
    (input1 : IStream), LoadIdentifier.loop b buf s = .ok (s1, input1) →
    input1.sound ∧ input1.buf.length ≤ buf.length
  | [], s, s1, input1, h => by
    simp only [LoadIdentifier.loop] at h
    split_ifs at h
    simp only [Except.ok.injEq, Prod.mk.injEq] at h
    obtain ⟨-, rfl⟩ := h
    simp [IStream.sound]
  | c :: rest, s, s1, input1, h => by
    have hput : ∀ d : Char,
        (({ buf := rest, eofbit := false, failbit := false } : IStream).putback d).sound
        ∧ (({ buf := rest, eofbit := false, failbit := false } : IStream).putback d).buf.length
            ≤ (c :: rest).length := by
      intro d
      simp [IStream.putback, IStream.sound]
    simp only [LoadIdentifier.loop] at h
    by_cases h1 : c = '#'
    · simp only [h1, if_true, Except.ok.injEq, Prod.mk.injEq] at h
      obtain ⟨-, rfl⟩ := h
      have := ignoreLine_putback rest
      exact ⟨this.1, by simp only [List.length_cons]; omega⟩
    · simp only [h1, if_false] at h
      by_cases h2 : c = ':'
      · simp only [h2, if_true] at h
        cases b with
        | none => cases h
        | some t =>
          simp only [Except.ok.injEq, Prod.mk.injEq] at h
          obtain ⟨-, rfl⟩ := h
          exact h2 ▸ hput ':'
      · simp only [h2, if_false] at h
        by_cases h3 : c = '(' ∨ c = ')' ∨ c = ',' ∨ c = '.'
        · simp only [h3, if_true, Except.ok.injEq, Prod.mk.injEq] at h
          obtain ⟨-, rfl⟩ := h
          exact hput c
        · simp only [h3, if_false] at h
          by_cases h4 : c = '\n'
          · simp only [h4, if_true, Except.ok.injEq, Prod.mk.injEq] at h
            obtain ⟨-, rfl⟩ := h
            exact h4 ▸ hput '\n'
          · simp only [h4, if_false] at h
            by_cases h5 : c = ' '
            · simp only [h5, if_true, Except.ok.injEq, Prod.mk.injEq] at h
              obtain ⟨-, rfl⟩ := h
              simp [IStream.sound]
            · simp only [h5, if_false] at h
              have := LoadIdentifier.loop_rest_length b rest (s ++ [c]) s1 input1 h
              exact ⟨this.1, by simp only [List.length_cons]; omega⟩

/-- The loop of `LoadString` leaves sound flags and a part of the characters. -/
theorem LoadString.loop_remaining_length (starting : Char) : ∀ (buf : List Char) (current : Char)
    (str str1 : List Char) (input1 : IStream),
    LoadString.loop starting buf current str = some (str1, input1) →
    input1.sound ∧ input1.buf.length ≤ buf.length
  | [], current, str, str1, input1, h => by
    simp only [LoadString.loop] at h
    split_ifs at h
    simp only [Option.some.injEq, Prod.mk.injEq] at h
    obtain ⟨-, rfl⟩ := h
    simp [IStream.sound]
  | d :: rest, current, str, str1, input1, h => by
    unfold LoadString.loop at h
    by_cases h1 : current = starting
    · simp only [h1, if_true, Option.some.injEq, Prod.mk.injEq] at h
      obtain ⟨-, rfl⟩ := h
      simp [IStream.sound]
    · simp only [h1, if_false] at h
      by_cases h2 : current = backslash
      · simp only [h2, if_true] at h
        cases rest with
        | nil =>
          simp only at h
          split_ifs at h
          simp only [Option.some.injEq, Prod.mk.injEq] at h
          obtain ⟨-, rfl⟩ := h
          simp [IStream.sound]
        | cons e rest2 =>
          simp only at h
          have := LoadString.loop_remaining_length starting rest2 e _ str1 input1 h
          exact ⟨this.1, by simp only [List.length_cons]; omega⟩
      · simp only [h2, if_false] at h
        have := LoadString.loop_remaining_length starting rest d _ str1 input1 h
        exact ⟨this.1, by simp only [List.length_cons]; omega⟩

end parse

namespace parse

/-- A letter or underscore is none of the characters that end an identifier. -/
theorem identifier_start (c : Char) (h : c.isAlpha = true ∨ c = '_') :
    ¬ c = '#' ∧ ¬ c = ':' ∧ ¬ (c = '(' ∨ c = ')' ∨ c = ',' ∨ c = '.') ∧ ¬ c = '\n'
      ∧ ¬ c = ' ' := by
  refine ⟨?_, ?_, ?_, ?_, ?_⟩
  · rintro rfl
    revert h
    decide
  · rintro rfl
    revert h
    decide
  · rintro (rfl | rfl | rfl | rfl) <;> revert h <;> decide
  · rintro rfl
    revert h
    decide
  · rintro rfl
    revert h
    decide

/-- A round that dispatches a lexeme, on a stream in good state from which the character
`c` has been read, leaves sound flags and no more characters than there were after
`c`. -/
theorem LoadTokens.lexeme_progress (s : LoadState) (c : Char) (buf : List Char) :
    (LoadTokens.lexeme s c { buf := buf, eofbit := false, failbit := false }).Progress
      (buf.length + 1) := by
  unfold LoadTokens.lexeme
  by_cases h1 : c = '!' ∨ c = '=' ∨ c = '<' ∨ c = '>'
  · rw [if_pos h1]
    cases buf with
    | nil => simp [IStream.peek, IStream.good, Step.Progress, IStream.sound]
    | cons d r =>
      simp only [IStream.peek, IStream.good, Bool.not_false, Bool.and_self, if_true]
      split_ifs
      · simp only [Step.Progress, IStream.sound, IStream.ignore1, IStream.good, Bool.not_false,
          Bool.and_self, if_true, List.length_cons]
        exact ⟨fun hf => (by cases hf), by omega⟩
      · simp [Step.Progress, IStream.sound]
  · rw [if_neg h1]
    by_cases h2 : c = '+' ∨ c = '-' ∨ c = '*' ∨ c = '/'
    · rw [if_pos h2]
      simp [Step.Progress, IStream.sound]
    · rw [if_neg h2]
      by_cases h3 : c.isDigit = true
      · rw [if_pos h3]
        have hlen := read_digits_length buf ([] ++ [c])
        have hnum : LoadNumber (({ buf := buf, eofbit := false, failbit := false }
            : IStream).putback c)
            = (stoi (read_digits buf ([] ++ [c])).1, (read_digits buf ([] ++ [c])).2) := by
          simp [LoadNumber, IStream.putback, IStream.good, read_digits, h3]
        rw [hnum]
        cases stoi (read_digits buf ([] ++ [c])).1 with
        | none => trivial
        | some value =>
          refine ⟨?_, ?_⟩
          · intro hf
            rw [hlen.1] at hf
            cases hf
          · have := hlen.2
            show (read_digits buf ([] ++ [c])).2.buf.length < buf.length + 1
            omega
      · rw [if_neg h3]
        by_cases h4 : c.isAlpha = true ∨ c = '_'
        · rw [if_pos h4]
          obtain ⟨t1, t2, t3, t4, t5⟩ := identifier_start c h4
          have hloop : LoadIdentifier.loop (back s.tokens_) (c :: buf) []
              = LoadIdentifier.loop (back s.tokens_) buf ([] ++ [c]) := by
            simp [LoadIdentifier.loop, t1, t2, t3, t4, t5]
          have hid : LoadIdentifier (back s.tokens_)
              (({ buf := buf, eofbit := false, failbit := false } : IStream).putback c)
              = match LoadIdentifier.loop (back s.tokens_) buf ([] ++ [c]) with
                | .ok (s1, input1) =>
                  match KEY_WORDS_MAP (String.mk s1) with
                  | some keyword => .ok (keyword, input1)
                  | none => .ok (.Id (String.mk s1), input1)
                | .error f => .error f := by
            simp only [LoadIdentifier, IStream.putback, IStream.good, Bool.false_eq_true,
              if_false, Bool.not_false, Bool.and_self, if_true, hloop]
          rw [hid]
          cases hl : LoadIdentifier.loop (back s.tokens_) buf ([] ++ [c]) with
          | error f => trivial
          | ok res =>
            obtain ⟨s1, input1⟩ := res
            have hlen := LoadIdentifier.loop_rest_length _ _ _ _ _ hl
            dsimp only
            cases KEY_WORDS_MAP (String.mk s1) with
            | none => exact And.intro hlen.1 (Nat.lt_succ_of_le hlen.2)
            | some keyword => exact And.intro hlen.1 (Nat.lt_succ_of_le hlen.2)
        · rw [if_neg h4]
          by_cases h5 : c = squote ∨ c = dquote
          · rw [if_pos h5]
            cases buf with
            | nil =>
              simp only [LoadString, IStream.putback, IStream.getInt, IStream.get,
                IStream.good, Bool.false_eq_true, if_false, Bool.not_false, Bool.and_self,
                if_true, Bool.not_true, Bool.and_false]
              split_ifs <;> simp [Step.Progress, IStream.sound]
            | cons d r =>
              have hstr : LoadString (({ buf := d :: r, eofbit := false, failbit := false }
                  : IStream).putback c) = LoadString.loop c r d [] := by
                simp [LoadString, IStream.putback, IStream.getInt, IStream.get, IStream.good]
              rw [hstr]
              cases hl : LoadString.loop c r d [] with
              | none => trivial
              | some res =>
                obtain ⟨str1, input1⟩ := res
                have hlen := LoadString.loop_remaining_length _ _ _ _ _ _ hl
                exact And.intro hlen.1 (by simp only [List.length_cons]; omega)
          · rw [if_neg h5]
            split_ifs <;> simp [Step.Progress, IStream.sound]

end parse

namespace parse

/-- Progress below a bound is progress below any larger bound. -/
theorem Step.Progress.mono {n m : Nat} (r : Step) (h : r.Progress n) (hnm : n ≤ m) :
    r.Progress m := by
  cases r with
  | next s1 => exact ⟨h.1, Nat.lt_of_lt_of_le h.2 hnm⟩
  | done tokens => trivial
  | fail f => trivial

/-- At the end of the file the round ends the loop. -/
theorem LoadTokens.dispatch_eof (s : LoadState) (c : Char) (input : IStream) (n : Nat)
    (h : input.eof = true) : (LoadTokens.dispatch s c input).Progress n := by
  unfold LoadTokens.dispatch
  rw [if_pos h]
  trivial

/-- The rest of a round after the indentation step, on a stream in good state from which
the character `c` has been read, leaves sound flags and no more characters than there
were after `c`. -/
theorem LoadTokens.dispatch_progress (s : LoadState) (c : Char) (buf : List Char) :
    (LoadTokens.dispatch s c { buf := buf, eofbit := false, failbit := false }).Progress
      (buf.length + 1) := by
  unfold LoadTokens.dispatch
  rw [if_neg (by simp [IStream.eof])]
  by_cases h1 : c = '#'
  · rw [if_pos h1]
    have := ignoreLine_putback buf
    exact And.intro this.1 (Nat.lt_succ_of_le this.2)
  · rw [if_neg h1]
    by_cases h2 : c = '\n'
    · rw [if_pos h2]
      split_ifs <;> exact And.intro (by simp [IStream.sound]) (Nat.lt_succ_self _)
    · rw [if_neg h2]
      exact LoadTokens.lexeme_progress s c buf

/-- A round of the loop of `LoadTokens` on a stream with sound flags ends the loop or
leaves sound flags and fewer characters. -/
theorem LoadTokens.body_progress (s : LoadState) (hs : s.input.sound) :
    (LoadTokens.body s).Progress s.input.buf.length := by
  obtain ⟨tokens, indent, old_indent, c, ⟨buf, e, f⟩⟩ := s
  have hstep : ∀ (s1 : LoadState) (c1 : Char) (input1 : IStream),
      input1.eofbit = (IStream.get ⟨buf, e, f⟩ c).2.eofbit →
      input1.failbit = (IStream.get ⟨buf, e, f⟩ c).2.failbit →
      input1.buf.length ≤ (IStream.get ⟨buf, e, f⟩ c).2.buf.length →
      (LoadTokens.dispatch s1 c1 input1).Progress buf.length := by
    intro s1 c1 input1 he hf hl
    by_cases hgood : e = false ∧ f = false
    · obtain ⟨rfl, rfl⟩ := hgood
      cases buf with
      | nil =>
        apply LoadTokens.dispatch_eof
        simpa [IStream.eof, IStream.get, IStream.good] using he
      | cons d r =>
        simp only [IStream.get, IStream.good, Bool.not_false, Bool.and_self, if_true] at he hf hl
        obtain ⟨buf1, e1, f1⟩ := input1
        simp only at he hf hl
        subst he hf
        exact Step.Progress.mono _ (LoadTokens.dispatch_progress s1 c1 buf1)
          (by simp only [List.length_cons]; omega)
    · apply LoadTokens.dispatch_eof
      have hbad : IStream.good ⟨buf, e, f⟩ = false := by
        cases e <;> cases f <;> simp [IStream.good] at hgood ⊢
      have he2 : e = true := by
        cases e
        · cases f
          · simp at hgood
          · exact hs rfl
        · rfl
      simp only [IStream.get, hbad, Bool.false_eq_true, if_false] at he
      simp [IStream.eof, he, he2]
  unfold LoadTokens.body
  dsimp only
  split_ifs
  · cases hsk : skip_spaces (IStream.get ⟨buf, e, f⟩ c).1 (IStream.get ⟨buf, e, f⟩ c).2 with
    | none => trivial
    | some res =>
      obtain ⟨n, c1, input1⟩ := res
      obtain ⟨he, hf, hl⟩ := skip_spaces_length _ _ _ _ _ hsk
      exact hstep _ c1 input1 he hf hl
  · exact hstep _ _ _ rfl rfl (le_refl _)

/-- With one round of fuel more than there are characters left, the loop of `LoadTokens`
reaches an outcome: it is never cut short by the fuel. -/
theorem LoadTokens.loop_total : ∀ (fuel : Nat) (s : LoadState), s.input.sound →
    s.input.buf.length < fuel → ∃ r, LoadTokens.loop fuel s = some r
  | 0, _, _, h => by omega
  | fuel + 1, s, hs, h => by
    have hp := LoadTokens.body_progress s hs
    simp only [LoadTokens.loop]
    cases hb : LoadTokens.body s with
    | next s1 =>
      rw [hb] at hp
      exact LoadTokens.loop_total fuel s1 hp.1 (by have := hp.2; omega)
    | done tokens => exact ⟨_, rfl⟩
    | fail f => exact ⟨_, rfl⟩

end parse

namespace parse

/-- The rest of a round after the indentation step keeps `Eof` last. -/
theorem LoadTokens.dispatch_EofLast (s : LoadState) (c : Char) (input : IStream)
    (h : Token.Eof ∉ s.tokens_) : (LoadTokens.dispatch s c input).EofLast := by
  have hlex : (LoadTokens.lexeme s c input).EofLast := by
    rcases LoadTokens.lexeme_next s c input _ rfl with ⟨f, hf⟩ | ⟨s1, hs1, -, -, htok⟩
    · rw [hf]
      trivial
    · rw [hs1]
      show Token.Eof ∉ s1.tokens_
      rcases htok with heq | ⟨t, ht, heq⟩
      · rw [heq]
        exact h
      · rw [heq]
        intro hmem
        rcases List.mem_append.mp hmem with hm | hm
        · exact h hm
        · have hEof : Token.Eof = t := by simpa using hm
          subst hEof
          cases ht
  have hnl : Token.Eof ∉ s.tokens_ ++ [Token.Newline] := by simpa using h
  unfold LoadTokens.dispatch
  dsimp only
  split_ifs <;>
    first
      | exact hlex
      | exact h
      | exact hnl
      | exact ⟨_, rfl, h⟩
      | exact ⟨_, rfl, hnl⟩
      | exact fun hmem => h (pop_to_newline_subset _ hmem)

/-- A round of the loop of `LoadTokens` keeps `Eof` last. -/
theorem LoadTokens.body_EofLast (s : LoadState) (h : Token.Eof ∉ s.tokens_) :
    (LoadTokens.body s).EofLast := by
  unfold LoadTokens.body
  dsimp only
  split_ifs
  · split
    · trivial
    · apply LoadTokens.dispatch_EofLast
      dsimp only
      split_ifs
      · intro hmem
        rcases List.mem_append.mp hmem with hm | hm
        · exact h hm
        · have := (List.mem_replicate.mp hm).2
          cases this
      · intro hmem
        rcases List.mem_append.mp hmem with hm | hm
        · exact h hm
        · have := (List.mem_replicate.mp hm).2
          cases this
      · exact h
  · exact LoadTokens.dispatch_EofLast s _ _ h

/-- The tokens the loop of `LoadTokens` returns, started without `Eof` among the tokens,
are tokens without `Eof` followed by one `Eof`. -/
theorem LoadTokens.loop_EofLast : ∀ (fuel : Nat) (s : LoadState) (ts : List Token),
    Token.Eof ∉ s.tokens_ → LoadTokens.loop fuel s = some (.tokens ts) →
    ∃ pre, ts = pre ++ [Token.Eof] ∧ Token.Eof ∉ pre
  | 0, _, _, _, h => by simp [LoadTokens.loop] at h
  | fuel + 1, s, ts, hs, h => by
    have hbody := LoadTokens.body_EofLast s hs
    simp only [LoadTokens.loop] at h
    cases hb : LoadTokens.body s with
    | next s1 =>
      rw [hb] at h hbody
      exact LoadTokens.loop_EofLast fuel s1 ts hbody h
    | done tokens =>
      rw [hb] at h hbody
      simp only [Option.some.injEq, LexResult.tokens.injEq] at h
      subst h
      exact hbody
    | fail f =>
      rw [hb] at h
      simp at h

/-- C3: on the text `x`, line feed, two spaces the lexer does not return, whatever the
initial content of its variable `c`: from the third round on it is in the loop that
counts the spaces at the start of the last line, so that no token sequence, with or
without `Eof`, is produced. With a line feed after the spaces the lexer returns `Id(x)`,
`Newline`, `Eof`, and the text of the line `x = 'a' + 12` gives its tokens and `Eof`.
On every text, and with whatever initial content of `c`, the lexer reaches an outcome
(a token sequence returned or a failure to return), and every token sequence it returns
is not empty, has `Eof` as its last token, and holds `Eof` exactly once. -/
theorem LoadTokens_ends_with_one_Eof :
    (∀ (c0 : Char) (fuel : Nat), LoadTokens (fuel + 3) c0 "x\n  " = some (.failure .hang))
    ∧ (∀ (c0 : Char) (fuel : Nat) (ts : List Token),
        LoadTokens fuel c0 "x\n  " ≠ some (.tokens ts))
    ∧ LoadTokens 10 'x' "x\n  \n" = some (.tokens [.Id "x", .Newline, .Eof])
    ∧ LoadTokens 20 'x' "x = 'a' + 12\n"
      = some (.tokens [.Id "x", .Char '=', .String "a", .Char '+', .Number 12, .Newline,
          .Eof])
    ∧ (∀ (c0 : Char) (text : String), ∃ r, LoadTokens (text.length + 1) c0 text = some r)
    ∧ (∀ (c0 : Char) (text : String) (fuel : Nat) (ts : List Token),
        LoadTokens fuel c0 text = some (.tokens ts) →
        ts ≠ [] ∧ ts.getLast? = some Token.Eof ∧ ts.count Token.Eof = 1) := by
  have h3 : ∀ (c0 : Char) (fuel : Nat),
      LoadTokens (fuel + 3) c0 "x\n  " = some (.failure .hang) :=
    fun _ _ => rfl
  refine ⟨h3, ?_, by decide, by decide, ?_, ?_⟩
  · intro c0 fuel ts h
    rcases fuel with _ | _ | _ | fuel
    · cases h
    · cases h
    · cases h
    · rw [h3 c0 fuel] at h
      cases h
  · intro c0 text
    apply LoadTokens.loop_total
    · intro hf
      cases hf
    · show text.data.length < text.data.length + 1
      omega
  · intro c0 text fuel ts h
    obtain ⟨pre, rfl, hpre⟩ :=
      LoadTokens.loop_EofLast fuel (LoadState.init c0 text.data) ts (by simp [LoadState.init]) h
    refine ⟨by simp, by simp, ?_⟩
    rw [List.count_append, List.count_eq_zero.mpr hpre]
    simp

/-- Witness for C3: the text of two lines `x = 1`, `print x`. -/
theorem LoadTokens_ends_with_one_Eof_witness :
    LoadTokens 20 'x' "x = 1\nprint x\n"
      = some (.tokens [.Id "x", .Char '=', .Number 1, .Newline, .Print, .Id "x", .Newline,
          .Eof])
    ∧ ([.Id "x", .Char '=', .Number 1, .Newline, .Print, .Id "x", .Newline, .Eof]
          : List Token) ≠ []
    ∧ ([.Id "x", .Char '=', .Number 1, .Newline, .Print, .Id "x", .Newline, .Eof]
          : List Token).getLast? = some Token.Eof
    ∧ ([.Id "x", .Char '=', .Number 1, .Newline, .Print, .Id "x", .Newline, .Eof]
          : List Token).count Token.Eof = 1 :=
  ⟨by decide, LoadTokens_ends_with_one_Eof.2.2.2.2.2 'x' "x = 1\nprint x\n" 20 _ (by decide)⟩

end parse

namespace parse

/-- C2 (the code at the failing input): on the text `x`, line feed, two spaces, `y`, whose
last line is indented and not ended by a line feed, `LoadTokens` returns `Id(x)`,
`Newline`, `Indent`, `Id(y)`, `Newline`, `Eof`: one `Indent` and no `Dedent`.  With a line
feed at the end of the text the `Dedent` is there. -/
theorem LoadTokens_Indent_without_Dedent (c0 : Char) :
    LoadTokens 10 c0 "x\n  y"
      = some (.tokens [.Id "x", .Newline, .Indent, .Id "y", .Newline, .Eof])
    ∧ ([.Id "x", .Newline, .Indent, .Id "y", .Newline, .Eof] : List Token).count .Indent = 1
    ∧ ([.Id "x", .Newline, .Indent, .Id "y", .Newline, .Eof] : List Token).count .Dedent = 0
    ∧ LoadTokens 10 c0 "x\n  y\n"
      = some (.tokens [.Id "x", .Newline, .Indent, .Id "y", .Newline, .Dedent, .Eof]) := by
  refine ⟨rfl, by decide, by decide, rfl⟩

end parse

namespace parse

/-- The loop that counts the spaces of an indentation stops at the first character that
is no space. -/
theorem count_spaces_replicate (d : Char) (rest : List Char) (hd : d ≠ ' ') :
    ∀ (k n : Nat),
    count_spaces (List.replicate k ' ' ++ d :: rest) ' ' n = some (n + k + 1, d, rest)
  | 0, n => by
    simp only [List.replicate, List.nil_append, count_spaces, if_true]
    cases rest with
    | nil => simp [count_spaces, hd]
    | cons e rest => simp [count_spaces, hd]
  | k + 1, n => by
    have ih := count_spaces_replicate d rest hd k (n + 1)
    have harith : n + 1 + k + 1 = n + (k + 1) + 1 := by omega
    rw [List.replicate_succ, List.cons_append]
    simp only [count_spaces, if_true]
    rw [ih, harith]

/-- A stream in good state is determined by its characters. -/
theorem IStream.eq_of_good (input : IStream) (h : input.good = true) :
    input = { buf := input.buf, eofbit := false, failbit := false } := by
  obtain ⟨buf, e, f⟩ := input
  simp only [IStream.good, Bool.and_eq_true, Bool.not_eq_true'] at h
  obtain ⟨rfl, rfl⟩ := h
  rfl

/-- Reading a character and skipping the indentation, on a line of `k` spaces followed by
a character `d` that is no space. -/
theorem skip_spaces_after_get (input : IStream) (c d : Char) (k : Nat) (rest : List Char)
    (hgood : input.good = true) (hd : d ≠ ' ')
    (hbuf : input.buf = List.replicate k ' ' ++ d :: rest) :
    skip_spaces (input.get c).1 (input.get c).2
      = some (k, d, { buf := rest, eofbit := false, failbit := false }) := by
  rw [IStream.eq_of_good input hgood, hbuf]
  cases k with
  | zero =>
    simp [IStream.get, IStream.good, skip_spaces, hd]
  | succ k =>
    have hcount := count_spaces_replicate d rest hd k 0
    simp only [Nat.zero_add] at hcount
    simp [IStream.get, IStream.good, skip_spaces, List.replicate, hcount]

/-- The last token after `Indent` or `Dedent` tokens have been added. -/
theorem back_append_replicate (tokens : List Token) (n : Nat) (t : Token) (hn : 0 < n) :
    back (tokens ++ List.replicate n t) = some t := by
  obtain ⟨m, rfl⟩ : ∃ m, n = m + 1 := ⟨n - 1, by omega⟩
  rw [List.replicate_succ', ← List.append_assoc]
  simp [back]

/-- Popping back to the last `Newline` removes the `Indent` or `Dedent` tokens added at
the start of a line. -/
theorem pop_to_newline_append_replicate (tokens : List Token) (n : Nat) (t : Token)
    (ht : t ≠ Token.Newline) (hstart : tokens = [] ∨ back tokens = some Token.Newline) :
    pop_to_newline (tokens ++ List.replicate n t) = tokens := by
  unfold pop_to_newline
  rw [List.reverse_append, List.reverse_replicate,
    List.dropWhile_append_of_pos (by
      intro a ha
      have := (List.mem_replicate.mp ha).2
      subst this
      simpa using ht)]
  rcases hstart with h | h
  · subst h
    rfl
  · have hhead : tokens.reverse.head? = some Token.Newline := by
      rw [List.head?_reverse]
      exact h
    cases hrev : tokens.reverse with
    | nil => rw [hrev] at hhead; cases hhead
    | cons a l =>
      rw [hrev] at hhead
      simp only [List.head?_cons, Option.some.injEq] at hhead
      subst hhead
      have : tokens = (Token.Newline :: l).reverse := by
        rw [← hrev, List.reverse_reverse]
      simp [List.dropWhile, this]

end parse

namespace parse

/-- At the start of a line no token is `Indent` or `Dedent` at the back. -/
theorem back_at_start (tokens : List Token)
    (hstart : tokens = [] ∨ back tokens = some Token.Newline) :
    ¬ (back tokens = some Token.Indent ∨ back tokens = some Token.Dedent)
    ∧ (tokens.isEmpty = true ∨ back tokens = some Token.Newline) := by
  rcases hstart with h | h
  · subst h
    simp [back]
  · simp [h]

/-- The round of the loop of `LoadTokens` on a line of `k` spaces followed by a line
feed, at the start of a logical line: the tokens and the indentation are as before. -/
theorem LoadTokens.body_blank (s : LoadState) (k : Nat) (rest : List Char)
    (hstart : s.atLineStart) (hbuf : s.input.buf = List.replicate k ' ' ++ '\n' :: rest) :
    LoadTokens.body s
      = .next { tokens_ := s.tokens_, indent_ := s.indent_, old_indent_ := s.indent_,
                c := '\n', input := { buf := rest, eofbit := false, failbit := false } } := by
  obtain ⟨htok, hgood⟩ := hstart
  obtain ⟨hnot, hcond⟩ := back_at_start s.tokens_ htok
  have hskip := skip_spaces_after_get s.input s.c '\n' k rest hgood (by decide) hbuf
  unfold LoadTokens.body
  simp only [hcond, if_true, hskip]
  rcases Nat.lt_trichotomy (k / 2) s.indent_ with hlt | heq | hgt
  · have h1 : ¬ k / 2 > s.indent_ := by omega
    have hback := back_append_replicate s.tokens_ (s.indent_ - k / 2) Token.Dedent (by omega)
    have hpop := pop_to_newline_append_replicate s.tokens_ (s.indent_ - k / 2) Token.Dedent
      (by decide) htok
    simp [LoadTokens.dispatch, IStream.eof, h1, hlt, hback, hpop]
  · have himp : ¬ s.tokens_ = [] → back s.tokens_ = some Token.Newline := by
      intro hne
      rcases htok with h | h
      · exact absurd h hne
      · exact h
    simp [LoadTokens.dispatch, IStream.eof, heq, hnot, hcond]
    exact himp
  · have hback := back_append_replicate s.tokens_ (k / 2 - s.indent_) Token.Indent (by omega)
    have hpop := pop_to_newline_append_replicate s.tokens_ (k / 2 - s.indent_) Token.Indent
      (by decide) htok
    simp [LoadTokens.dispatch, IStream.eof, hgt, hback, hpop]

end parse

namespace parse

/-- Skipping a comment: the characters after the first line feed are left. -/
theorem skipLine_append (rest : List Char) : ∀ text : List Char, '\n' ∉ text →
    skipLine (text ++ '\n' :: rest) = some rest
  | [], _ => by simp [skipLine]
  | d :: text, h => by
    have hd : ¬ d = '\n' := fun e => h (by simp [e])
    have ht : '\n' ∉ text := fun e => h (by simp [e])
    simp [skipLine, hd, skipLine_append rest text ht]

/-- What the rest of a round does with the frame does not depend on the character and
the stream recorded in the frame: both are overwritten. -/
theorem LoadTokens.dispatch_frame (s : LoadState) (c1 : Char) (c : Char) (input : IStream) :
    LoadTokens.dispatch { s with c := c1 } c input = LoadTokens.dispatch s c input :=
  rfl

/-- The first round of the loop of `LoadTokens` on a line of `k` spaces followed by a
comment, at the start of a logical line: the comment is skipped up to its line feed;
`Indent` or `Dedent` tokens have been added if the indentation of the line differs from
the current one. -/
theorem LoadTokens.body_comment (s : LoadState) (k : Nat) (text rest : List Char)
    (hstart : s.atLineStart) (htext : '\n' ∉ text)
    (hbuf : s.input.buf = List.replicate k ' ' ++ '#' :: (text ++ '\n' :: rest)) :
    ∃ tokens1, LoadTokens.body s
        = .next { tokens_ := tokens1, indent_ := k / 2, old_indent_ := s.indent_, c := '#',
                  input := { buf := '\n' :: rest, eofbit := false, failbit := false } }
      ∧ ((k / 2 = s.indent_ ∧ tokens1 = s.tokens_)
          ∨ ∃ n t, 0 < n ∧ (t = Token.Indent ∨ t = Token.Dedent)
              ∧ tokens1 = s.tokens_ ++ List.replicate n t) := by
  obtain ⟨htok, hgood⟩ := hstart
  obtain ⟨hnot, hcond⟩ := back_at_start s.tokens_ htok
  have hskip := skip_spaces_after_get s.input s.c '#' k (text ++ '\n' :: rest) hgood
    (by decide) hbuf
  have hline := skipLine_append rest text htext
  unfold LoadTokens.body
  simp only [hcond, if_true, hskip]
  refine ⟨if k / 2 > s.indent_ then
        s.tokens_ ++ List.replicate (k / 2 - s.indent_) Token.Indent
      else if k / 2 < s.indent_ then
        s.tokens_ ++ List.replicate (s.indent_ - k / 2) Token.Dedent
      else s.tokens_, ?_, ?_⟩
  · simp [LoadTokens.dispatch, IStream.eof, IStream.ignoreLine, IStream.good, hline,
      IStream.putback]
  · rcases Nat.lt_trichotomy (k / 2) s.indent_ with hlt | heq | hgt
    · have h1 : ¬ k / 2 > s.indent_ := by omega
      exact Or.inr ⟨s.indent_ - k / 2, Token.Dedent, by omega, Or.inr rfl, by simp [h1, hlt]⟩
    · exact Or.inl ⟨heq, by simp [heq]⟩
    · exact Or.inr ⟨k / 2 - s.indent_, Token.Indent, by omega, Or.inl rfl, by simp [hgt]⟩

/-- The round on the line feed that ends a comment line for which `Indent` or `Dedent`
tokens were added: they are popped and the indentation is restored. -/
theorem LoadTokens.body_after_comment (tokens : List Token) (n : Nat) (t : Token)
    (indent old_indent : Nat) (c : Char) (rest : List Char) (hn : 0 < n)
    (ht : t = Token.Indent ∨ t = Token.Dedent)
    (htok : tokens = [] ∨ back tokens = some Token.Newline) :
    LoadTokens.body
        { tokens_ := tokens ++ List.replicate n t, indent_ := indent,
          old_indent_ := old_indent, c := c,
          input := { buf := '\n' :: rest, eofbit := false, failbit := false } }
      = .next { tokens_ := tokens, indent_ := old_indent, old_indent_ := old_indent,
                c := '\n', input := { buf := rest, eofbit := false, failbit := false } } := by
  have hback := back_append_replicate tokens n t hn
  have hne : t ≠ Token.Newline := by
    rcases ht with h | h <;> subst h <;> decide
  have hpop := pop_to_newline_append_replicate tokens n t hne htok
  have hempty : (tokens ++ List.replicate n t).isEmpty = false := by
    obtain ⟨m, rfl⟩ : ∃ m, n = m + 1 := ⟨n - 1, by omega⟩
    cases tokens <;> simp [List.replicate_succ]
  have hback2 : ¬ (some t = some Token.Newline) := by simpa using hne
  have hback3 : some t = some Token.Indent ∨ some t = some Token.Dedent := by
    rcases ht with h | h <;> simp [h]
  unfold LoadTokens.body
  simp [hback, hempty, hback2, LoadTokens.dispatch, IStream.get, IStream.good, IStream.eof,
    hback3, hpop]
  intro hni
  rcases ht with h | h
  · exact absurd h hni
  · exact h

/-- At the start of a logical line the round does not depend on the value of `c` left by
the previous round, nor on `old_indent_`, provided there is a character to read or `c`
is no space. -/
theorem LoadTokens.body_at_start (s : LoadState) (c1 c2 : Char) (o1 o2 : Nat)
    (hstart : s.atLineStart) (h : s.input.buf ≠ [] ∨ (c1 ≠ ' ' ∧ c2 ≠ ' ')) :
    LoadTokens.body { s with c := c1, old_indent_ := o1 }
      = LoadTokens.body { s with c := c2, old_indent_ := o2 } := by
  obtain ⟨htok, hgood⟩ := hstart
  obtain ⟨hnot, hcond⟩ := back_at_start s.tokens_ htok
  have hinput := IStream.eq_of_good s.input hgood
  unfold LoadTokens.body
  simp only [hcond, if_true]
  cases hb : s.input.buf with
  | nil =>
    have hc : c1 ≠ ' ' ∧ c2 ≠ ' ' := by
      rcases h with h | h
      · exact absurd hb h
      · exact h
    rw [hinput, hb]
    simp [IStream.get, IStream.good, skip_spaces, hc.1, hc.2, LoadTokens.dispatch, IStream.eof]
  | cons d r =>
    rw [hinput, hb]
    simp only [IStream.get, IStream.good, Bool.not_false, Bool.and_self, if_true]
    cases skip_spaces d { buf := r, eofbit := false, failbit := false } with
    | none => rfl
    | some res => rfl

end parse

namespace parse

/-- From the frame reached after a blank or comment line, the loop of `LoadTokens` goes on
as from the frame in which the line is not in the stream. -/
theorem LoadTokens.loop_after_blank (s : LoadState) (rest : List Char)
    (hstart : s.atLineStart) (hc : rest ≠ [] ∨ s.c ≠ ' ') (fuel : Nat) :
    LoadTokens.loop fuel
        { tokens_ := s.tokens_, indent_ := s.indent_, old_indent_ := s.indent_, c := '\n',
          input := { buf := rest, eofbit := false, failbit := false } }
      = LoadTokens.loop fuel (s.withBuf rest) := by
  cases fuel with
  | zero => rfl
  | succ fuel =>
    obtain ⟨htok, hgood⟩ := hstart
    simp only [IStream.good, Bool.and_eq_true, Bool.not_eq_true'] at hgood
    have hb : (s.withBuf rest).atLineStart := by
      refine ⟨htok, ?_⟩
      simp [LoadState.withBuf, IStream.good, hgood.1, hgood.2]
    have hcond : (s.withBuf rest).input.buf ≠ [] ∨ ('\n' ≠ ' ' ∧ s.c ≠ ' ') := by
      rcases hc with h | h
      · exact Or.inl h
      · exact Or.inr ⟨by decide, h⟩
    have hbody := LoadTokens.body_at_start (s.withBuf rest) '\n' s.c s.indent_ s.old_indent_
      hb hcond
    have h1 : ({ s.withBuf rest with c := '\n', old_indent_ := s.indent_ } : LoadState)
        = { tokens_ := s.tokens_, indent_ := s.indent_, old_indent_ := s.indent_, c := '\n',
            input := { buf := rest, eofbit := false, failbit := false } } := by
      simp [LoadState.withBuf, hgood.1, hgood.2]
    have h2 : ({ s.withBuf rest with c := s.c, old_indent_ := s.old_indent_ } : LoadState)
        = s.withBuf rest := rfl
    rw [h1, h2] at hbody
    simp only [LoadTokens.loop, hbody]

/-- The rounds the loop of `LoadTokens` spends on a blank or comment line that starts a
logical line and ends with a line feed: one or two, after which the loop goes on as from
the frame in which the line is not in the stream. -/
theorem LoadTokens.loop_blank_line (s : LoadState) (line rest : List Char)
    (hstart : s.atLineStart) (hline : BlankLine line)
    (hbuf : s.input.buf = line ++ '\n' :: rest) (hc : rest ≠ [] ∨ s.c ≠ ' ') :
    ∃ j, 1 ≤ j ∧ j ≤ 2 ∧ (∀ fuel, fuel < j → LoadTokens.loop fuel s = none)
      ∧ ∀ fuel, LoadTokens.loop (fuel + j) s = LoadTokens.loop fuel (s.withBuf rest) := by
  obtain ⟨k, comment, rfl, hcomment⟩ := hline
  rcases hcomment with rfl | ⟨text, rfl, htext⟩
  · refine ⟨1, le_refl 1, by omega, ?_, ?_⟩
    · intro fuel hf
      have : fuel = 0 := by omega
      subst this
      rfl
    · intro fuel
      have hbody := LoadTokens.body_blank s k rest hstart (by simpa using hbuf)
      simp only [LoadTokens.loop, hbody]
      exact LoadTokens.loop_after_blank s rest hstart hc fuel
  · have hbuf2 : s.input.buf = List.replicate k ' ' ++ '#' :: (text ++ '\n' :: rest) := by
      simpa [List.append_assoc] using hbuf
    obtain ⟨tokens1, hbody, hcases⟩ := LoadTokens.body_comment s k text rest hstart htext hbuf2
    have hsecond : LoadTokens.body
          { tokens_ := tokens1, indent_ := k / 2, old_indent_ := s.indent_, c := '#',
            input := { buf := '\n' :: rest, eofbit := false, failbit := false } }
        = .next { tokens_ := s.tokens_, indent_ := s.indent_, old_indent_ := s.indent_,
                  c := '\n', input := { buf := rest, eofbit := false, failbit := false } } := by
      rcases hcases with ⟨heq, rfl⟩ | ⟨n, t, hn, ht, rfl⟩
      · have hblank := LoadTokens.body_blank
            { tokens_ := s.tokens_, indent_ := k / 2, old_indent_ := s.indent_, c := '#',
              input := { buf := '\n' :: rest, eofbit := false, failbit := false } }
            0 rest ⟨hstart.1, rfl⟩ rfl
        rw [hblank, heq]
      · exact LoadTokens.body_after_comment s.tokens_ n t (k / 2) s.indent_ '#' rest hn ht
          hstart.1
    refine ⟨2, by omega, le_refl 2, ?_, ?_⟩
    · intro fuel hf
      rcases fuel with _ | _ | fuel
      · rfl
      · simp only [LoadTokens.loop, hbody]
      · omega
    · intro fuel
      simp only [LoadTokens.loop, hbody, hsecond]
      exact LoadTokens.loop_after_blank s rest hstart hc fuel

/-- A blank line that is ended by a line feed is skipped: when the loop of `LoadTokens` is
at the start of a logical line (no token yet or the last token is `Newline`, stream in
good state) and the next line of the text consists only of spaces and/or a `#` comment
and ends with a line feed, it goes on as if that line were not in the text: after the one
or two rounds spent on the line, the tokens and the indent level are what they were.
(When nothing follows the line, the character left in `c` by the previous line must not
be a space, which holds after a line feed.) -/
theorem LoadTokens_skips_blank_line (s : LoadState) (line rest : List Char)
    (hstart : s.atLineStart) (hline : BlankLine line)
    (hbuf : s.input.buf = line ++ '\n' :: rest) (hc : rest ≠ [] ∨ s.c ≠ ' ') :
    (∃ j, 1 ≤ j ∧ j ≤ 2
      ∧ ∀ fuel, LoadTokens.loop (fuel + j) s = LoadTokens.loop fuel (s.withBuf rest))
    ∧ ∀ r : LexResult, (∃ fuel, LoadTokens.loop fuel s = some r)
        ↔ (∃ fuel, LoadTokens.loop fuel (s.withBuf rest) = some r) := by
  obtain ⟨j, h1, h2, hnone, hloop⟩ := LoadTokens.loop_blank_line s line rest hstart hline hbuf hc
  refine ⟨⟨j, h1, h2, hloop⟩, ?_⟩
  intro r
  constructor
  · rintro ⟨fuel, hf⟩
    by_cases hlt : fuel < j
    · rw [hnone fuel hlt] at hf
      cases hf
    · refine ⟨fuel - j, ?_⟩
      rw [← hloop (fuel - j)]
      have : fuel - j + j = fuel := by omega
      rw [this]
      exact hf
  · rintro ⟨fuel, hf⟩
    exact ⟨fuel + j, by rw [hloop fuel]; exact hf⟩

/-- C4: on the text `x`, line feed, two spaces, `# c`, whose last line is a comment
that is not ended by a line feed, the lexer returns `Id(x)`, `Newline`, `Indent`, `Eof`,
while the text without that line gives `Id(x)`, `Newline`, `Eof`: the `Indent` added for
the spaces of the comment line is not taken back. On the text `x`, line feed, two
spaces, whose last line is made of spaces and is not ended by a line feed, the lexer
does not return at all. With a line feed at the end of the blank or comment line the
text gives the tokens of the text without the line, also when another line follows; and
a blank or comment line that is ended by a line feed and stands first in a text gives,
for every text that follows it, the outcome of that text alone. -/
theorem LoadTokens_blank_last_line :
    LoadTokens 10 'x' "x\n  # c" = some (.tokens [.Id "x", .Newline, .Indent, .Eof])
    ∧ LoadTokens 10 'x' "x\n" = some (.tokens [.Id "x", .Newline, .Eof])
    ∧ (∀ (c0 : Char) (fuel : Nat) (ts : List Token),
        LoadTokens fuel c0 "x\n  " ≠ some (.tokens ts))
    ∧ LoadTokens 10 'x' "x\n  # c\n" = some (.tokens [.Id "x", .Newline, .Eof])
    ∧ LoadTokens 10 'x' "x\n  \n" = some (.tokens [.Id "x", .Newline, .Eof])
    ∧ LoadTokens 10 'x' "x\n  # c\n  y\n"
      = some (.tokens [.Id "x", .Newline, .Indent, .Id "y", .Newline, .Dedent, .Eof])
    ∧ LoadTokens 10 'x' "x\n  y\n"
      = some (.tokens [.Id "x", .Newline, .Indent, .Id "y", .Newline, .Dedent, .Eof])
    ∧ (∀ (c0 : Char) (line rest : List Char) (r : LexResult), BlankLine line → rest ≠ [] →
        ((∃ fuel, LoadTokens fuel c0 (String.mk (line ++ '\n' :: rest)) = some r)
          ↔ (∃ fuel, LoadTokens fuel c0 (String.mk rest) = some r))) := by
  have h3 : ∀ (c0 : Char) (fuel : Nat),
      LoadTokens (fuel + 3) c0 "x\n  " = some (.failure .hang) :=
    fun _ _ => rfl
  refine ⟨by decide, by decide, ?_, by decide, by decide, by decide, by decide, ?_⟩
  · intro c0 fuel ts h
    rcases fuel with _ | _ | _ | fuel
    · cases h
    · cases h
    · cases h
    · rw [h3 c0 fuel] at h
      cases h
  · intro c0 line rest r hline hrest
    obtain ⟨j, -, -, hnone, hloop⟩ := LoadTokens.loop_blank_line
      (LoadState.init c0 (line ++ '\n' :: rest)) line rest ⟨Or.inl rfl, rfl⟩ hline rfl
      (Or.inl hrest)
    constructor
    · rintro ⟨fuel, hf⟩
      by_cases hlt : fuel < j
      · have := hnone fuel hlt
        simp only [LoadTokens] at hf
        rw [this] at hf
        cases hf
      · refine ⟨fuel - j, ?_⟩
        have hfj : fuel - j + j = fuel := by omega
        have := hloop (fuel - j)
        rw [hfj] at this
        simp only [LoadTokens] at hf ⊢
        rw [this] at hf
        exact hf
    · rintro ⟨fuel, hf⟩
      refine ⟨fuel + j, ?_⟩
      simp only [LoadTokens] at hf ⊢
      rw [hloop fuel]
      exact hf

/-- Witness for C4: the comment line `  # c` in front of the text `x`, line feed. -/
theorem LoadTokens_blank_last_line_witness :
    BlankLine "  # c".data
    ∧ ((∃ fuel, LoadTokens fuel 'x' (String.mk ("  # c".data ++ '\n' :: "x\n".data))
          = some (.tokens [.Id "x", .Newline, .Eof]))
      ↔ (∃ fuel, LoadTokens fuel 'x' (String.mk "x\n".data)
          = some (.tokens [.Id "x", .Newline, .Eof]))) :=
  ⟨⟨2, "# c".data, rfl, Or.inr ⟨" c".data, rfl, by decide⟩⟩,
    LoadTokens_blank_last_line.2.2.2.2.2.2.2 'x' "  # c".data "x\n".data
      (.tokens [.Id "x", .Newline, .Eof])
      ⟨2, "# c".data, rfl, Or.inr ⟨" c".data, rfl, by decide⟩⟩ (by decide)⟩

end parse

namespace ast

open runtime

/-- A value in the range of `int` is its own 32-bit two's-complement value. -/
theorem int32_of_InIntRange (x : Int) (h : InIntRange x) : int32 x = x := by
  unfold InIntRange at h
  unfold int32
  omega

/-- C11: for an `Add` node whose operands evaluate to `l` and `r` (the left one first):
two `Number` give the `Number` of their `int` sum `l + r` (the sum itself whenever it is
in the range of `int`); two `String` give the `String` `l ++ r`; a left operand that is
an instance of a class with `__add__` of one parameter gives the outcome of that method
called with `r`; every other pair of operands (among them `Number + String`, an empty
left operand, an empty right operand of a `Number` or `String`, an instance on the right
only, an instance without `__add__` on the left) gives the 'wrong types' error. -/
theorem Add_Execute_by_types (fuel : Nat) (lhs rhs : Statement)
    (closure closure1 closure2 : Closure) (st st1 st2 : State) (l r : ObjectHolder)
    (hl : Execute fuel lhs closure st = (.value l, closure1, st1))
    (hr : Execute fuel rhs closure1 st1 = (.value r, closure2, st2)) :
    (∀ a b : Int, l = some (.Number a) → r = some (.Number b) →
        Execute (fuel + 1) (.Add lhs rhs) closure st
            = (.value (some (.Number (int32 (a + b)))), closure2, st2)
          ∧ (InIntRange (a + b) → int32 (a + b) = a + b))
    ∧ (∀ a b : String, l = some (.String a) → r = some (.String b) →
        Execute (fuel + 1) (.Add lhs rhs) closure st
          = (.value (some (.String (a ++ b))), closure2, st2))
    ∧ (∀ cls addr, l = some (.ClassInstance cls addr) → HasMethod cls "__add__" 1 = true →
        Execute (fuel + 1) (.Add lhs rhs) closure st
          = ((Call (Execute fuel) cls addr "__add__" [r] st2).1, closure2,
              (Call (Execute fuel) cls addr "__add__" [r] st2).2))
    ∧ (¬ Add.Accepts l r →
        Execute (fuel + 1) (.Add lhs rhs) closure st = (.abrupt WrongTypes, closure2, st2))
    ∧ (∀ (a : Int) (b : String), ¬ Add.Accepts (some (.Number a)) (some (.String b)))
    ∧ (∀ (a : String) (b : Int), ¬ Add.Accepts (some (.String a)) (some (.Number b)))
    ∧ (∀ x : ObjectHolder, ¬ Add.Accepts none x)
    ∧ (∀ a : Int, ¬ Add.Accepts (some (.Number a)) none)
    ∧ (∀ a : String, ¬ Add.Accepts (some (.String a)) none)
    ∧ (∀ (a : Int) cls addr, ¬ Add.Accepts (some (.Number a)) (some (.ClassInstance cls addr)))
    ∧ (∀ (a : String) cls addr,
        ¬ Add.Accepts (some (.String a)) (some (.ClassInstance cls addr)))
    ∧ (∀ cls addr x, HasMethod cls "__add__" 1 = false →
        ¬ Add.Accepts (some (.ClassInstance cls addr)) x) := by
  have hops : ExecuteOperands (Execute fuel) lhs rhs closure st = (.value (l, r), closure2, st2) := by
    simp [ExecuteOperands, hl, hr]
  refine ⟨?_, ?_, ?_, ?_, ?_, ?_, ?_, ?_, ?_, ?_, ?_, ?_⟩
  · rintro a b rfl rfl
    exact ⟨by simp [Execute, Add.Execute, hops], int32_of_InIntRange _⟩
  · rintro a b rfl rfl
    simp [Execute, Add.Execute, hops]
  · rintro cls addr rfl hm
    simp [Execute, Add.Execute, hops, hm]
  · intro hno
    rcases l with _ | (a | a | a | a | ⟨cls, addr⟩) <;>
      rcases r with _ | (b | b | b | b | ⟨cls2, addr2⟩) <;>
      simp only [Add.Accepts, not_true_eq_false, Bool.not_eq_true] at hno <;>
      simp [Execute, Add.Execute, hops, WrongTypes, hno]
  · intro a b h
    exact h
  · intro a b h
    exact h
  · intro x h
    cases x <;> exact h
  · intro a h
    exact h
  · intro a h
    exact h
  · intro a cls addr h
    exact h
  · intro a cls addr h
    exact h
  · intro cls addr x hm h
    simp [Add.Accepts, hm] at h

/-- Witness for C11: `Add(1, "a")` gives the 'wrong types' error. -/
theorem Add_Execute_by_types_witness :
    Execute 1 (.NumericConst 1) [] State.initial = (.value (some (.Number 1)), [], State.initial)
    ∧ Execute 1 (.StringConst "a") [] State.initial
        = (.value (some (.String "a")), [], State.initial)
    ∧ ¬ Add.Accepts (some (.Number 1)) (some (.String "a"))
    ∧ Execute 2 (.Add (.NumericConst 1) (.StringConst "a")) [] State.initial
        = (.abrupt WrongTypes, [], State.initial) :=
  ⟨rfl, rfl, fun h => h,
    (Add_Execute_by_types 1 (.NumericConst 1) (.StringConst "a") [] [] [] State.initial
      State.initial State.initial (some (.Number 1)) (some (.String "a")) rfl rfl).2.2.2.1
      (fun h => h)⟩

end ast

namespace ast

open runtime

/-- The truncated quotient of two `int` values is in the range of `int`, except for
`INT_MIN / -1`. -/
theorem tdiv_InIntRange (a b : Int) (ha : InIntRange a) (hb : b ≠ 0)
    (hmin : ¬ (a = -2147483648 ∧ b = -1)) : InIntRange (Int.tdiv a b) := by
  unfold InIntRange at *
  have h1 : (Int.tdiv a b).natAbs ≤ a.natAbs := by
    rw [Int.natAbs_tdiv]
    exact Nat.div_le_self _ _
  by_cases hb1 : b = -1
  · subst hb1
    have : Int.tdiv a (-1) = -a := by
      rw [Int.tdiv_neg, Int.tdiv_one]
    rw [this]
    have : a ≠ -2147483648 := fun h => hmin ⟨h, rfl⟩
    omega
  · by_cases hq : Int.tdiv a b = 2147483648
    · exfalso
      have h2 : a.natAbs = 2147483648 := by omega
      have h3 : a = -2147483648 := by omega
      subst h3
      have h4 : (Int.tdiv (-2147483648) b).natAbs = 2147483648 / b.natAbs := by
        rw [Int.natAbs_tdiv]
        rfl
      have h5 : b.natAbs = 1 := by
        have h6 : 2147483648 / b.natAbs = 2147483648 := by omega
        have h7 : 0 < b.natAbs := Int.natAbs_pos.mpr hb
        rcases Nat.lt_or_ge 1 b.natAbs with h8 | h8
        · have := Nat.div_lt_self (by decide : 0 < 2147483648) h8
          omega
        · omega
      have h9 : b = 1 := by omega
      subst h9
      simp at hq
    · omega

/-- C12, counterexample: in `(0 - 2147483647 - 1) / (0 - 1)` both operands evaluate to a
`Number`, the divisor is not 0, and the division does not return a `Number`: the quotient
of `INT_MIN` by `-1` is no `int` and the behaviour of the division is undefined. -/
theorem Div_INT_MIN_by_minus_one :
    Execute 3 (.Sub (.Sub (.NumericConst 0) (.NumericConst 2147483647)) (.NumericConst 1)) []
        State.initial
      = (.value (some (.Number (-2147483648))), [], State.initial)
    ∧ Execute 3 (.Sub (.NumericConst 0) (.NumericConst 1)) [] State.initial
      = (.value (some (.Number (-1))), [], State.initial)
    ∧ Execute 4 example_INT_MIN_by_minus_one [] State.initial
      = (.abrupt .undefined, [], State.initial)
    ∧ Int.tdiv (-2147483648) (-1) = 2147483648
    ∧ ¬ InIntRange (Int.tdiv (-2147483648) (-1)) := by
  refine ⟨rfl, rfl, rfl, by decide, ?_⟩
  unfold InIntRange
  decide

/-- C12, amended: for a `Div` node whose operands evaluate to `l` and `r` (the left one
first): two `Number` with `r = 0` give the zero-division error, for every `l`; two
`Number` with `r ≠ 0`, other than `INT_MIN` and `-1`, give the `Number` of the quotient
truncated toward zero (for an `int` `l` that quotient is in the range of `int`); for
`INT_MIN` and `-1` the behaviour is undefined; an operand that is no `Number` gives the
'wrong types' error. A `Print` whose first argument is a `Div` with divisor 0 raises the
zero-division error in the state the operands left, and `Print([Div(1, 0)])` raises it
with the closure and the output unchanged. -/
theorem Div_Execute_by_types (fuel : Nat) (lhs rhs : Statement)
    (closure closure1 closure2 : Closure) (st st1 st2 : State) (l r : ObjectHolder)
    (hl : Execute fuel lhs closure st = (.value l, closure1, st1))
    (hr : Execute fuel rhs closure1 st1 = (.value r, closure2, st2)) :
    (∀ a : Int, l = some (.Number a) → r = some (.Number 0) →
        Execute (fuel + 1) (.Div lhs rhs) closure st = (.abrupt ZeroDivision, closure2, st2)
        ∧ ∀ rest, Execute (fuel + 2) (.Print (.Div lhs rhs :: rest)) closure st
            = (.abrupt ZeroDivision, closure2, st2))
    ∧ (∀ a b : Int, l = some (.Number a) → r = some (.Number b) → b ≠ 0 →
        ¬ (a = -2147483648 ∧ b = -1) →
        Execute (fuel + 1) (.Div lhs rhs) closure st
            = (.value (some (.Number (int32 (Int.tdiv a b)))), closure2, st2)
          ∧ (InIntRange a → int32 (Int.tdiv a b) = Int.tdiv a b))
    ∧ (l = some (.Number (-2147483648)) → r = some (.Number (-1)) →
        Execute (fuel + 1) (.Div lhs rhs) closure st = (.abrupt .undefined, closure2, st2))
    ∧ (¬ (IsNumber l ∧ IsNumber r) →
        Execute (fuel + 1) (.Div lhs rhs) closure st = (.abrupt WrongTypes, closure2, st2))
    ∧ (∀ (n : Nat) (c : Closure) (s : State),
        Execute (n + 3) (.Print [.Div (.NumericConst 1) (.NumericConst 0)]) c s
          = (.abrupt ZeroDivision, c, s)) := by
  have hops : ExecuteOperands (Execute fuel) lhs rhs closure st = (.value (l, r), closure2, st2) := by
    simp [ExecuteOperands, hl, hr]
  refine ⟨?_, ?_, ?_, ?_, ?_⟩
  · rintro a rfl rfl
    have h1 : Div.Execute (Execute fuel) lhs rhs closure st
        = (.abrupt ZeroDivision, closure2, st2) := by
      simp [Div.Execute, hops, ZeroDivision]
    refine ⟨by simp [Execute, h1], fun rest => ?_⟩
    simp [Execute, Print.Execute, Print.loop, h1]
  · rintro a b rfl rfl hb hmin
    refine ⟨?_, fun ha => ?_⟩
    · simp only [Execute, Div.Execute, hops]
      rw [if_neg hb, if_neg hmin]
    · exact int32_of_InIntRange _ (tdiv_InIntRange a b ha hb hmin)
  · rintro rfl rfl
    simp [Execute, Div.Execute, hops]
  · intro hno
    rcases l with _ | (a | a | a | a | ⟨cls, addr⟩) <;>
      rcases r with _ | (b | b | b | b | ⟨cls2, addr2⟩) <;>
      simp only [IsNumber, and_self, not_true_eq_false] at hno <;>
      simp [Execute, Div.Execute, hops, WrongTypes]
  · intro n c s
    simp [Execute, Print.Execute, Print.loop, Div.Execute, ExecuteOperands, ZeroDivision]

/-- Witness for C12: `Div(7, 2)` gives `Number(3)`, and `Div(7, 0)` raises the
zero-division error. -/
theorem Div_Execute_by_types_witness :
    Execute 1 (.NumericConst 7) [] State.initial = (.value (some (.Number 7)), [], State.initial)
    ∧ Execute 1 (.NumericConst 2) [] State.initial
        = (.value (some (.Number 2)), [], State.initial)
    ∧ Execute 2 (.Div (.NumericConst 7) (.NumericConst 2)) [] State.initial
        = (.value (some (.Number (int32 (Int.tdiv 7 2)))), [], State.initial)
    ∧ int32 (Int.tdiv 7 2) = 3
    ∧ Execute 2 (.Div (.NumericConst 7) (.NumericConst 0)) [] State.initial
        = (.abrupt ZeroDivision, [], State.initial) :=
  ⟨rfl, rfl,
    ((Div_Execute_by_types 1 (.NumericConst 7) (.NumericConst 2) [] [] [] State.initial
      State.initial State.initial (some (.Number 7)) (some (.Number 2)) rfl rfl).2.1
      7 2 rfl rfl (by decide) (by decide)).1,
    by decide,
    ((Div_Execute_by_types 1 (.NumericConst 7) (.NumericConst 0) [] [] [] State.initial
      State.initial State.initial (some (.Number 7)) (some (.Number 0)) rfl rfl).1
      7 rfl rfl).1⟩

end ast

namespace ast

open runtime

/-- Two writes to the output stream are one write of the concatenation. -/
theorem State.write_write (st : State) (a b : String) :
    (st.write a).write b = st.write (a ++ b) := by
  simp [State.write, String.append_assoc]

/-- The text `Print` writes for an empty holder and for a `Number`, `String` or `Bool`,
with the state unchanged. -/
theorem Print.text_of_PrimitiveText (exec : Executor) (fuel : Nat) (v : ObjectHolder)
    (t : String) (st : State) (h : PrimitiveText v = some t) :
    Print.text exec fuel v st = (.value t, st) := by
  rcases v with _ | (a | a | a | a | ⟨cls, addr⟩) <;>
    simp only [PrimitiveText, Option.some.injEq, reduceCtorEq] at h <;>
    subst h <;> cases fuel <;> simp [Print.text, runtime.Print]

/-- The loop of `Print` over arguments without effects writes the texts joined by single
spaces. -/
theorem Print.loop_joinTexts (exec : Executor) (fuel : Nat) (c : Closure) :
    ∀ (args : List Statement) (texts : List String) (st : State),
      List.Forall₂ (EvaluatesToText exec c) args texts →
      Print.loop exec fuel args c st = (.value (), c, st.write (joinTexts texts)) := by
  intro args
  induction args with
  | nil =>
    intro texts st h
    cases h
    simp [Print.loop, joinTexts, State.write]
  | cons a rest ih =>
    intro texts st h
    cases h with
    | cons ha hrest =>
      obtain ⟨v, hv, ht⟩ := ha
      rw [Print.loop, hv st]
      simp only [Print.text_of_PrimitiveText exec fuel v _ st ht]
      cases hrest with
      | nil => simp [Print.loop, joinTexts]
      | cons hb hrest2 =>
        rw [ih _ _ (List.Forall₂.cons hb hrest2)]
        simp [joinTexts, State.write_write, String.append_assoc]

/-- C13: a `Print` without arguments writes a line feed. A `Print` whose first argument
evaluates to a value of text `t` (that of an empty holder is `None`, of a `Number` its
decimal digits, of a `String` its contents, of a `Bool` `True` or `False`) writes `t`,
and a space if more arguments follow, in the state that argument left, and goes on as
the `Print` of the remaining arguments from there: the arguments are evaluated in index
order. Hence a `Print` of arguments without effects of their own returns `None` and
appends to the output exactly their texts with one space between two consecutive ones
and a line feed at the end. -/
theorem Print_Execute_output (fuel : Nat) (c : Closure) (st : State) :
    Execute (fuel + 1) (.Print []) c st = (.value none, c, st.write "\n")
    ∧ (∀ (a : Statement) (rest : List Statement) (v : ObjectHolder) (t : String)
        (c1 : Closure) (st1 : State),
        Execute fuel a c st = (.value v, c1, st1) → PrimitiveText v = some t →
        Execute (fuel + 1) (.Print (a :: rest)) c st
          = Execute (fuel + 1) (.Print rest) c1
              (st1.write (t ++ if rest.isEmpty then "" else " ")))
    ∧ (∀ (args : List Statement) (texts : List String),
        List.Forall₂ (EvaluatesToText (Execute fuel) c) args texts →
        Execute (fuel + 1) (.Print args) c st
          = (.value none, c, st.write (joinTexts texts ++ "\n")))
    ∧ PrimitiveText none = some "None"
    ∧ PrimitiveText (some (.Number 42)) = some "42"
    ∧ PrimitiveText (some (.Number (-7))) = some "-7"
    ∧ (∀ s : String, PrimitiveText (some (.String s)) = some s)
    ∧ PrimitiveText (some (.Bool true)) = some "True"
    ∧ PrimitiveText (some (.Bool false)) = some "False"
    ∧ joinTexts [] = ""
    ∧ joinTexts ["1", "a", "None"] = "1 a None" := by
  refine ⟨rfl, ?_, ?_, rfl, by decide, by decide, fun _ => rfl, rfl, rfl, rfl, by decide⟩
  · intro a rest v t c1 st1 ha ht
    simp only [Execute, Print.Execute]
    rw [Print.loop, ha]
    simp only [Print.text_of_PrimitiveText (Execute fuel) fuel v t st1 ht]
    cases rest <;> simp [State.write_write]
  · intro args texts h
    simp only [Execute, Print.Execute]
    rw [Print.loop_joinTexts (Execute fuel) fuel c args texts st h]
    simp [State.write_write]

/-- Witness for C13: `print 1, "a", None, True` appends `1 a None True` and a line feed. -/
theorem Print_Execute_output_witness :
    Execute 2 (.Print [.NumericConst 1, .StringConst "a", .None, .BoolConst true]) []
        State.initial
      = (.value none, [],
          State.initial.write (joinTexts ["1", "a", "None", "True"] ++ "\n")) :=
  (Print_Execute_output 1 [] State.initial).2.2.1
    [.NumericConst 1, .StringConst "a", .None, .BoolConst true] ["1", "a", "None", "True"]
    (List.Forall₂.cons ⟨some (.Number 1), fun _ => rfl, by decide⟩
      (List.Forall₂.cons ⟨some (.String "a"), fun _ => rfl, rfl⟩
        (List.Forall₂.cons ⟨none, fun _ => rfl, rfl⟩
          (List.Forall₂.cons ⟨some (.Bool true), fun _ => rfl, rfl⟩ List.Forall₂.nil))))

end ast

namespace ast

open runtime

/-- C14: `IsTrue` holds of a holder exactly when it holds a `Number` other than 0, a
non-empty `String` or `Bool(true)`; it is false for the empty holder, `Number(0)`,
`String("")`, `Bool(false)`, every class and every instance. Hence, for an expression
`x` that evaluates to `h`, `Not(Not(x))` evaluates (with the effects of `x` alone) to a
`Bool` whose truthiness is that of `h`, and `Not(x)` to one whose truthiness is the
opposite. -/
theorem IsTrue_cases_and_double_negation :
    (∀ h : ObjectHolder, IsTrue h = true ↔
        ((∃ n : Int, h = some (.Number n) ∧ n ≠ 0)
          ∨ (∃ s : String, h = some (.String s) ∧ s ≠ "")
          ∨ h = some (.Bool true)))
    ∧ IsTrue none = false
    ∧ IsTrue (some (.Number 0)) = false
    ∧ IsTrue (some (.String "")) = false
    ∧ IsTrue (some (.Bool false)) = false
    ∧ (∀ cls, IsTrue (some (.Class cls)) = false)
    ∧ (∀ cls addr, IsTrue (some (.ClassInstance cls addr)) = false)
    ∧ (∀ (fuel : Nat) (x : Statement) (c c1 : Closure) (st st1 : State) (h : ObjectHolder),
        Execute fuel x c st = (.value h, c1, st1) →
          Execute (fuel + 1) (.Not x) c st = (.value (some (.Bool (!IsTrue h))), c1, st1)
          ∧ Execute (fuel + 2) (.Not (.Not x)) c st
              = (.value (some (.Bool (IsTrue h))), c1, st1)
          ∧ IsTrue (some (.Bool (IsTrue h))) = IsTrue h
          ∧ IsTrue (some (.Bool (!IsTrue h))) = !IsTrue h) := by
  refine ⟨?_, rfl, rfl, rfl, rfl, fun _ => rfl, fun _ _ => rfl, ?_⟩
  · intro h
    rcases h with _ | (a | a | a | a | ⟨cls, addr⟩) <;> simp [IsTrue]
  · intro fuel x c c1 st st1 h hx
    have h1 : Execute (fuel + 1) (.Not x) c st
        = (.value (some (.Bool (!IsTrue h))), c1, st1) := by
      simp [Execute, Not.Execute, hx]
    refine ⟨h1, ?_, rfl, rfl⟩
    have h2 : Execute (fuel + 2) (.Not (.Not x)) c st
        = Not.Execute (Execute (fuel + 1)) (.Not x) c st := rfl
    rw [h2]
    simp [Not.Execute, h1, IsTrue]

/-- Witness for C14: `Not(Not(5))` evaluates to `Bool(true)`, as `IsTrue` of `Number(5)`. -/
theorem IsTrue_cases_and_double_negation_witness :
    Execute 1 (.NumericConst 5) [] State.initial = (.value (some (.Number 5)), [], State.initial)
    ∧ Execute 3 (.Not (.Not (.NumericConst 5))) [] State.initial
        = (.value (some (.Bool (IsTrue (some (.Number 5))))), [], State.initial) :=
  ⟨rfl, (IsTrue_cases_and_double_negation.2.2.2.2.2.2.2 1 (.NumericConst 5) [] []
      State.initial State.initial (some (.Number 5)) rfl).2.1⟩

end ast

namespace parse

/-- What the `switch` of `LoadString` appends for an escape is what the escape stands
for. -/
theorem escape_eq_value (c : Char) : escape c = (StringItem.escaped c).value := by
  unfold escape StringItem.value
  split_ifs <;> simp_all

/-- The loop of `LoadString` on the rest of a terminated literal. -/
theorem LoadString.loop_literal (starting : Char) (hs : starting ≠ backslash)
    (rest : List Char) : ∀ (items : List StringItem) (current : Char) (buf str : List Char),
    (∀ item ∈ items, item.fits starting) →
    current :: buf = literalSource items ++ starting :: rest →
    LoadString.loop starting buf current str
      = some (str ++ literalValue items, IStream.mk rest false false) := by
  intro items
  induction items with
  | nil =>
    intro current buf str _ h
    simp only [literalSource, List.nil_append, List.cons.injEq] at h
    obtain ⟨rfl, rfl⟩ := h
    cases buf <;> unfold LoadString.loop <;> rw [if_pos rfl] <;> simp [literalValue]
  | cons item items ih =>
    intro current buf str hfit h
    have hfits : ∀ i ∈ items, i.fits starting := fun i hi => hfit i (List.mem_cons_of_mem _ hi)
    have hne : ∃ e rest2, literalSource items ++ starting :: rest = e :: rest2 := by
      cases hl : literalSource items ++ starting :: rest with
      | nil => simp at hl
      | cons e rest2 => exact ⟨e, rest2, rfl⟩
    obtain ⟨e, rest2, he⟩ := hne
    cases item with
    | plain c =>
      have hc : c ≠ starting ∧ c ≠ backslash := by
        simpa [StringItem.fits] using hfit (.plain c) (List.mem_cons_self _ _)
      simp only [literalSource, StringItem.source, List.cons_append, List.nil_append] at h
      rw [he] at h
      injection h with h1 hbuf
      subst h1
      subst hbuf
      unfold LoadString.loop
      rw [if_neg hc.1, if_neg hc.2]
      rw [ih e rest2 (str ++ [current]) hfits he.symm]
      simp [literalValue, StringItem.value]
    | escaped c =>
      simp only [literalSource, StringItem.source, List.cons_append, List.nil_append] at h
      rw [he] at h
      injection h with h1 hbuf
      subst h1
      subst hbuf
      unfold LoadString.loop
      rw [if_neg (Ne.symm hs), if_pos rfl]
      simp only
      rw [ih e rest2 (str ++ escape c) hfits he.symm, escape_eq_value]
      simp [literalValue]

/-- C15, counterexample: the literal made of a quote, `a`, a backslash, `q`, `b` and a
quote is read as the string `ab`: the backslash and the `q` after it are both dropped.
The lexer gives the token `String(ab)` for it. -/
theorem LoadString_drops_unknown_escape :
    LoadString (IStream.mk [dquote, 'a', backslash, 'q', 'b', dquote] false false)
      = some (['a', 'b'], IStream.mk [] false false)
    ∧ escape 'q' = []
    ∧ LoadTokens 10 'x' (String.mk [dquote, 'a', backslash, 'q', 'b', dquote])
      = some (.tokens [.String "ab", .Newline, .Eof]) := by
  refine ⟨by decide, by decide, rfl⟩

/-- C15, amended: for a terminated literal (an opening quote of either kind, a body of
characters other than that quote and the backslash and of escapes, the same quote again),
`LoadString` returns the body in which `\n` stands for a line feed, `\t` for a tab, an
escaped quote of either kind or backslash for itself, and every other escape for nothing
(the backslash and the character after it are dropped); a quote of the other kind is
kept as it is. The stream is left after the closing quote. -/
theorem LoadString_terminated_literal (starting : Char) (items : List StringItem)
    (rest : List Char) (hs : starting = squote ∨ starting = dquote)
    (hfit : ∀ item ∈ items, item.fits starting) :
    LoadString (IStream.mk (starting :: (literalSource items ++ starting :: rest)) false false)
      = some (literalValue items, IStream.mk rest false false)
    ∧ (StringItem.escaped 'n').value = ['\n']
    ∧ (StringItem.escaped 't').value = ['\t']
    ∧ (StringItem.escaped dquote).value = [dquote]
    ∧ (StringItem.escaped squote).value = [squote]
    ∧ (StringItem.escaped backslash).value = [backslash]
    ∧ (∀ c : Char, c ≠ 'n' → c ≠ 't' → c ≠ dquote → c ≠ squote → c ≠ backslash →
        (StringItem.escaped c).value = [])
    ∧ (∀ c : Char, (StringItem.plain c).value = [c])
    ∧ (StringItem.plain squote).fits dquote
    ∧ (StringItem.plain dquote).fits squote := by
  have hsb : starting ≠ backslash := by
    rcases hs with rfl | rfl <;> decide
  refine ⟨?_, by decide, by decide, by decide, by decide, by decide, ?_, fun _ => rfl,
    by decide, by decide⟩
  · obtain ⟨e, rest2, he⟩ : ∃ e rest2, literalSource items ++ starting :: rest = e :: rest2 := by
      cases hl : literalSource items ++ starting :: rest with
      | nil => simp at hl
      | cons e rest2 => exact ⟨e, rest2, rfl⟩
    rw [he]
    have h := LoadString.loop_literal starting hsb rest items e rest2 [] hfit he.symm
    simp only [List.nil_append] at h
    simp [LoadString, IStream.getInt, IStream.get, IStream.good, h]
  · intro c h1 h2 h3 h4 h5
    simp [StringItem.value, h1, h2, h3, h4, h5]

/-- Witness for C15: the literal `"a\tb'c"`. -/
theorem LoadString_terminated_literal_witness :
    LoadString (IStream.mk (dquote :: (literalSource [.plain 'a', .escaped 't', .plain 'b',
          .plain squote, .plain 'c'] ++ dquote :: ['\n'])) false false)
      = some (literalValue [.plain 'a', .escaped 't', .plain 'b', .plain squote, .plain 'c'],
          IStream.mk ['\n'] false false) :=
  (LoadString_terminated_literal dquote
    [.plain 'a', .escaped 't', .plain 'b', .plain squote, .plain 'c'] ['\n'] (Or.inr rfl)
    (by decide)).1

end parse

namespace parse

end parse

namespace parse

end parse

namespace parse

/-- A text of lines of spaces and comments, each ended by a line feed, gives `Eof` alone,
when the variable `c` does not start as a space. -/
theorem LoadTokens.loop_blank_lines (c0 : Char) (hc0 : c0 ≠ ' ') :
    ∀ lines : List (List Char), (∀ line ∈ lines, BlankLine line) →
    ∃ fuel, LoadTokens.loop fuel (LoadState.init c0 (joinLines lines))
      = some (.tokens [Token.Eof]) := by
  intro lines
  induction lines with
  | nil =>
    intro _
    refine ⟨1, ?_⟩
    simp [LoadTokens.loop, LoadTokens.body, LoadState.init, joinLines, IStream.get,
      IStream.good, skip_spaces, hc0, LoadTokens.dispatch, IStream.eof]
  | cons line lines ih =>
    intro h
    obtain ⟨fuel, hfuel⟩ := ih (fun l hl => h l (List.mem_cons_of_mem _ hl))
    obtain ⟨j, -, -, -, hloop⟩ := LoadTokens.loop_blank_line
      (LoadState.init c0 (joinLines (line :: lines))) line (joinLines lines)
      ⟨Or.inl rfl, rfl⟩ (h line (List.mem_cons_self _ _)) rfl (Or.inr hc0)
    exact ⟨fuel + j, by rw [hloop]; exact hfuel⟩

/-- C17: on the text of two spaces without line feed the lexer never returns (the loop
that counts the spaces of the indentation does not end at the end of the input), and on
the text of the indented comment `  # c` without line feed it returns `Indent`, `Eof`;
on the empty text it reads its variable `c` before any value is stored in it, and does
not return if that happens to be a space. On the empty text otherwise, and on every text
of lines of spaces and comments that are each ended by a line feed, it returns `Eof`
alone. -/
theorem LoadTokens_blank_text (c0 : Char) :
    (∀ fuel : Nat, LoadTokens (fuel + 1) c0 "  " = some (.failure .hang))
    ∧ LoadTokens 10 c0 "  # c" = some (.tokens [.Indent, .Eof])
    ∧ (∀ fuel : Nat, LoadTokens (fuel + 1) ' ' "" = some (.failure .hang))
    ∧ LoadTokens 10 c0 "  \n" = some (.tokens [.Eof])
    ∧ LoadTokens 10 c0 "  # c\n" = some (.tokens [.Eof])
    ∧ LoadTokens 10 c0 "# c" = some (.tokens [.Eof])
    ∧ (c0 ≠ ' ' → LoadTokens 1 c0 "" = some (.tokens [.Eof]))
    ∧ (c0 ≠ ' ' → ∀ lines : List (List Char), (∀ line ∈ lines, BlankLine line) →
        ∃ fuel, LoadTokens fuel c0 (String.mk (joinLines lines)) = some (.tokens [.Eof])) := by
  refine ⟨fun _ => rfl, rfl, fun _ => rfl, rfl, rfl, rfl, ?_, ?_⟩
  · intro hc0
    simp [LoadTokens, LoadTokens.loop, LoadTokens.body, LoadState.init, IStream.get,
      IStream.good, skip_spaces, hc0, LoadTokens.dispatch, IStream.eof]
  · intro hc0 lines h
    exact LoadTokens.loop_blank_lines c0 hc0 lines h

/-- Witness for C17: the text of the three lines `# a`, an empty line and three spaces. -/
theorem LoadTokens_blank_text_witness :
    ∃ fuel, LoadTokens fuel 'x' (String.mk (joinLines ["# a".data, [], "   ".data]))
      = some (.tokens [.Eof]) :=
  (LoadTokens_blank_text 'x').2.2.2.2.2.2.2 (by decide) ["# a".data, [], "   ".data]
    (by
      intro line hl
      simp only [List.mem_cons, List.mem_singleton, List.not_mem_nil, or_false] at hl
      rcases hl with rfl | rfl | rfl
      · exact ⟨0, "# a".data, rfl, Or.inr ⟨" a".data, rfl, by decide⟩⟩
      · exact ⟨0, [], rfl, Or.inl rfl⟩
      · exact ⟨3, [], rfl, Or.inl rfl⟩)

end parse

namespace parse

/-- C18: the text `x`, line feed, two spaces holds no string literal and no number, and
the lexer does not return on it: from the third round on, the loop that counts the spaces
at the start of the last line never ends, whatever the fuel. With a line feed after the
spaces, or with the spaces after `x` on the first line, the lexer returns. On the text
`a:` the lexer reads the last token of an empty token vector. -/
theorem LoadTokens_hangs_on_trailing_spaces (c0 : Char) :
    (∀ fuel : Nat, LoadTokens (fuel + 3) c0 "x\n  " = some (.failure .hang))
    ∧ (∀ (fuel : Nat) (ts : List Token), LoadTokens fuel c0 "x\n  " ≠ some (.tokens ts))
    ∧ LoadTokens 10 c0 "x\n  \n" = some (.tokens [.Id "x", .Newline, .Eof])
    ∧ LoadTokens 10 c0 "x  " = some (.tokens [.Id "x", .Newline, .Eof])
    ∧ LoadTokens 10 c0 "a:" = some (.failure .undefined) := by
  have h3 : ∀ fuel : Nat, LoadTokens (fuel + 3) c0 "x\n  " = some (.failure .hang) :=
    fun _ => rfl
  refine ⟨h3, ?_, rfl, rfl, rfl⟩
  intro fuel ts h
  rcases fuel with _ | _ | _ | fuel
  · cases h
  · cases h
  · cases h
  · rw [h3 fuel] at h
    cases h

end parse

namespace parse

/-- Calls of `NextToken` keep the tokens and move a cursor inside the sequence forward by
one each, up to the last token. -/
theorem Lexer.afterCalls_cursor (ts : List Token) : ∀ (k : Nat) (lexer : Lexer),
    lexer.tokens_ = ts → lexer.current_token_ ≤ ts.length - 1 →
    (Lexer.afterCalls k lexer).tokens_ = ts
    ∧ (Lexer.afterCalls k lexer).current_token_
        = min (lexer.current_token_ + k) (ts.length - 1) := by
  intro k
  induction k with
  | zero =>
    intro lexer ht hc
    exact ⟨ht, by simp [Lexer.afterCalls]; omega⟩
  | succ k ih =>
    intro lexer ht hc
    rw [Lexer.afterCalls]
    by_cases hlast : lexer.current_token_ + 1 ≥ lexer.tokens_.length
    · have hn : lexer.NextToken.2 = lexer := by simp [Lexer.NextToken, hlast]
      rw [hn]
      obtain ⟨h1, h2⟩ := ih lexer ht hc
      refine ⟨h1, ?_⟩
      rw [h2]
      rw [ht] at hlast
      omega
    · have hn : lexer.NextToken.2
          = { lexer with current_token_ := lexer.current_token_ + 1 } := by
        simp [Lexer.NextToken, hlast]
      rw [hn]
      rw [ht] at hlast
      obtain ⟨h1, h2⟩ := ih { lexer with current_token_ := lexer.current_token_ + 1 } ht
        (by simp only; omega)
      refine ⟨h1, ?_⟩
      rw [h2]
      simp only
      omega

/-- C19: for a lexer that holds the tokens `ts` with `Eof` last and whose cursor starts at
the first token: after `k` calls of `NextToken` the tokens are the same, the cursor is at
`min k (n - 1)` and `CurrentToken` is the token there; every call of `NextToken`, on any
lexer, returns the token `CurrentToken` reports afterwards; with the cursor at the last
token `NextToken` returns `Eof` and leaves the lexer as it is, which is so after every
`k ≥ n - 1` calls. -/
theorem Lexer_NextToken_cursor (ts : List Token) (hlast : ts.getLast? = some Token.Eof) :
    (∀ k : Nat,
        (Lexer.afterCalls k (Lexer.start ts)).tokens_ = ts
        ∧ (Lexer.afterCalls k (Lexer.start ts)).current_token_ = min k (ts.length - 1)
        ∧ (Lexer.afterCalls k (Lexer.start ts)).CurrentToken
            = ts.get? (min k (ts.length - 1)))
    ∧ (∀ lexer : Lexer, lexer.NextToken.1 = lexer.NextToken.2.CurrentToken)
    ∧ (∀ lexer : Lexer, lexer.tokens_ = ts → lexer.current_token_ = ts.length - 1 →
        lexer.CurrentToken = some Token.Eof ∧ lexer.NextToken = (some Token.Eof, lexer))
    ∧ (∀ k : Nat, ts.length - 1 ≤ k →
        (Lexer.afterCalls k (Lexer.start ts)).CurrentToken = some Token.Eof
        ∧ (Lexer.afterCalls k (Lexer.start ts)).NextToken
            = (some Token.Eof, Lexer.afterCalls k (Lexer.start ts))) := by
  have hcur : ∀ k : Nat,
      (Lexer.afterCalls k (Lexer.start ts)).tokens_ = ts
      ∧ (Lexer.afterCalls k (Lexer.start ts)).current_token_ = min k (ts.length - 1) := by
    intro k
    have h := Lexer.afterCalls_cursor ts k (Lexer.start ts) rfl (Nat.zero_le _)
    simpa [Lexer.start] using h
  have hat : ∀ lexer : Lexer, lexer.tokens_ = ts → lexer.current_token_ = ts.length - 1 →
      lexer.CurrentToken = some Token.Eof ∧ lexer.NextToken = (some Token.Eof, lexer) := by
    intro lexer ht hc
    have h1 : lexer.CurrentToken = some Token.Eof := by
      rw [Lexer.CurrentToken, ht, hc, List.get?_eq_getElem?, ← List.getLast?_eq_getElem?]
      exact hlast
    have h2 : lexer.current_token_ + 1 ≥ lexer.tokens_.length := by
      rw [ht, hc]
      omega
    refine ⟨h1, ?_⟩
    have h3 : lexer.NextToken = (lexer.CurrentToken, lexer) := by
      simp [Lexer.NextToken, h2, Lexer.CurrentToken]
    rw [h3, h1]
  refine ⟨?_, fun lexer => rfl, hat, ?_⟩
  · intro k
    obtain ⟨h1, h2⟩ := hcur k
    exact ⟨h1, h2, by rw [Lexer.CurrentToken, h1, h2]⟩
  · intro k hk
    obtain ⟨h1, h2⟩ := hcur k
    exact hat _ h1 (by rw [h2]; omega)

/-- Witness for C19: on `[Id(x), Newline, Eof]` the fifth call of `NextToken` returns
`Eof`. -/
theorem Lexer_NextToken_cursor_witness :
    [Token.Id "x", Token.Newline, Token.Eof].getLast? = some Token.Eof
    ∧ (Lexer.afterCalls 4 (Lexer.start [Token.Id "x", Token.Newline, Token.Eof])).NextToken
        = (some Token.Eof,
            Lexer.afterCalls 4 (Lexer.start [Token.Id "x", Token.Newline, Token.Eof])) :=
  ⟨rfl, ((Lexer_NextToken_cursor [Token.Id "x", Token.Newline, Token.Eof] rfl).2.2.2 4
    (by decide)).2⟩

end parse

namespace ast

open runtime

/-- C20, counterexample: in the call `Announcer().m(<argument>)` the object expression
alone writes `obj` and the argument alone writes `arg`, and the call writes `arg` before
`obj`; in the call `missing.m(1 / 0)` the object expression alone raises 'no such
variable', and the call raises the zero-division error of the argument. -/
theorem MethodCall_argument_before_object :
    (Execute 4 example_object [] State.initial).2.2.output = "obj\n"
    ∧ (Execute 4 example_argument [] State.initial).2.2.output = "arg\n"
    ∧ (Execute 5 example_call [] State.initial).1 = .value none
    ∧ (Execute 5 example_call [] State.initial).2.2.output = "arg\nobj\n"
    ∧ (Execute 5 example_call [] State.initial).2.2.output ≠ "obj\narg\n"
    ∧ Execute 2 (.VariableValue ["missing"]) [] State.initial
        = (.abrupt (.runtime_error "No such variable!"), [], State.initial)
    ∧ Execute 3 example_call_errors [] State.initial
        = (.abrupt ZeroDivision, [], State.initial) := by
  refine ⟨by decide, by decide, rfl, by decide, by decide, rfl, rfl⟩

/-- C20, amended: a `MethodCall` evaluates its arguments first, from left to right, and
the object expression after them, in the state the arguments left. An argument that ends
abruptly ends the call before the remaining arguments and the object are evaluated; an
object expression that ends abruptly ends the call after the arguments; an object that
is an instance has the method called on it with the values of the arguments. -/
theorem MethodCall_Execute_arguments_then_object (fuel : Nat) (object : Statement)
    (method : String) (args : List Statement) (c : Closure) (st : State) :
    (∀ (e : Abrupt) (c1 : Closure) (st1 : State),
        ExecuteArgs (Execute fuel) args c st = (.abrupt e, c1, st1) →
        Execute (fuel + 1) (.MethodCall object method args) c st = (.abrupt e, c1, st1))
    ∧ (∀ (vs : List ObjectHolder) (c1 : Closure) (st1 : State),
        ExecuteArgs (Execute fuel) args c st = (.value vs, c1, st1) →
        (∀ (e : Abrupt) (c2 : Closure) (st2 : State),
          Execute fuel object c1 st1 = (.abrupt e, c2, st2) →
          Execute (fuel + 1) (.MethodCall object method args) c st = (.abrupt e, c2, st2))
        ∧ (∀ (cls : runtime.Class) (addr : Addr) (c2 : Closure) (st2 : State),
          Execute fuel object c1 st1 = (.value (some (.ClassInstance cls addr)), c2, st2) →
          Execute (fuel + 1) (.MethodCall object method args) c st
            = ((Call (Execute fuel) cls addr method vs st2).1, c2,
                (Call (Execute fuel) cls addr method vs st2).2)))
    ∧ ExecuteArgs (Execute fuel) [] c st = (.value [], c, st)
    ∧ (∀ (a : Statement) (rest : List Statement) (e : Abrupt) (c1 : Closure) (st1 : State),
        Execute fuel a c st = (.abrupt e, c1, st1) →
        ExecuteArgs (Execute fuel) (a :: rest) c st = (.abrupt e, c1, st1))
    ∧ (∀ (a : Statement) (rest : List Statement) (v : ObjectHolder) (c1 : Closure)
        (st1 : State), Execute fuel a c st = (.value v, c1, st1) →
        (∀ (vs : List ObjectHolder) (c2 : Closure) (st2 : State),
          ExecuteArgs (Execute fuel) rest c1 st1 = (.value vs, c2, st2) →
          ExecuteArgs (Execute fuel) (a :: rest) c st = (.value (v :: vs), c2, st2))
        ∧ (∀ (e : Abrupt) (c2 : Closure) (st2 : State),
          ExecuteArgs (Execute fuel) rest c1 st1 = (.abrupt e, c2, st2) →
          ExecuteArgs (Execute fuel) (a :: rest) c st = (.abrupt e, c2, st2))) := by
  refine ⟨?_, ?_, rfl, ?_, ?_⟩
  · intro e c1 st1 h
    simp [Execute, MethodCall.Execute, h]
  · intro vs c1 st1 h
    refine ⟨?_, ?_⟩
    · intro e c2 st2 ho
      simp [Execute, MethodCall.Execute, h, ho]
    · intro cls addr c2 st2 ho
      simp [Execute, MethodCall.Execute, h, ho]
  · intro a rest e c1 st1 h
    simp [ExecuteArgs, h]
  · intro a rest v c1 st1 h
    refine ⟨?_, ?_⟩
    · intro vs c2 st2 hr
      simp [ExecuteArgs, h, hr]
    · intro e c2 st2 hr
      simp [ExecuteArgs, h, hr]

/-- Witness for C20: in `missing.m(1 / 0)` the argument raises, and so does the call. -/
theorem MethodCall_Execute_arguments_then_object_witness :
    ExecuteArgs (Execute 2) [.Div (.NumericConst 1) (.NumericConst 0)] [] State.initial
        = (.abrupt ZeroDivision, [], State.initial)
    ∧ Execute 3 (.MethodCall (.VariableValue ["missing"]) "m"
          [.Div (.NumericConst 1) (.NumericConst 0)]) [] State.initial
        = (.abrupt ZeroDivision, [], State.initial) :=
  ⟨rfl, (MethodCall_Execute_arguments_then_object 2 (.VariableValue ["missing"]) "m"
      [.Div (.NumericConst 1) (.NumericConst 0)] [] State.initial).1
      ZeroDivision [] State.initial rfl⟩

end ast

namespace parse

/-- The rest of a round after the indentation step, when it ends the loop, returns the
tokens closed as at the end of the file. -/
theorem LoadTokens.dispatch_EndsClosed (s : LoadState) (c : Char) (input : IStream) :
    (LoadTokens.dispatch s c input).EndsClosed := by
  have hlex : (LoadTokens.lexeme s c input).EndsClosed := by
    rcases LoadTokens.lexeme_next s c input _ rfl with ⟨f, hf⟩ | ⟨s1, hs1, -⟩
    · rw [hf]
      trivial
    · rw [hs1]
      trivial
  unfold LoadTokens.dispatch
  dsimp only
  by_cases heof : input.eof = true
  · rw [if_pos heof]
    refine ⟨s.tokens_, ?_⟩
    cases hb : back s.tokens_ with
    | none =>
      have hnil : s.tokens_ = [] := by
        simpa [back, List.getLast?_eq_none_iff] using hb
      refine Or.inl ⟨hnil, ?_⟩
      simp [hnil]
    | some t =>
      have hne : s.tokens_.isEmpty = false := by
        cases hl : s.tokens_ with
        | nil => simp [hl, back] at hb
        | cons a l => rfl
      cases hlay : t.isLayout with
      | true =>
        refine Or.inr (Or.inl ⟨t, hb, hlay, ?_⟩)
        cases t <;> simp [Token.isLayout] at hlay <;> simp [hne, hb]
      | false =>
        refine Or.inr (Or.inr ⟨t, hb, hlay, ?_⟩)
        cases t <;> simp [Token.isLayout] at hlay <;> simp [hne, hb]
  · rw [if_neg heof]
    split_ifs <;> first | exact hlex | trivial

/-- A round of the loop of `LoadTokens`, when it ends the loop, returns the tokens closed
as at the end of the file. -/
theorem LoadTokens.body_EndsClosed (s : LoadState) : (LoadTokens.body s).EndsClosed := by
  unfold LoadTokens.body
  dsimp only
  split_ifs
  · split
    · trivial
    · exact LoadTokens.dispatch_EndsClosed _ _ _
  · exact LoadTokens.dispatch_EndsClosed _ _ _

/-- The tokens the loop of `LoadTokens` returns are closed as at the end of the file. -/
theorem LoadTokens.loop_EndsClosed : ∀ (fuel : Nat) (s : LoadState) (ts : List Token),
    LoadTokens.loop fuel s = some (.tokens ts) → ∃ toks, ClosedAtEof toks ts
  | 0, _, _, h => by simp [LoadTokens.loop] at h
  | fuel + 1, s, ts, h => by
    have hbody := LoadTokens.body_EndsClosed s
    simp only [LoadTokens.loop] at h
    cases hb : LoadTokens.body s with
    | next s1 =>
      rw [hb] at h
      exact LoadTokens.loop_EndsClosed fuel s1 ts h
    | done tokens =>
      rw [hb] at h hbody
      simp only [Option.some.injEq, LexResult.tokens.injEq] at h
      subst h
      exact hbody
    | fail f =>
      rw [hb] at h
      simp at h

end parse

namespace parse

/-- A part at the end of a text that ends with a last line keeps the line feed in front
of that line, or holds no line feed. -/
theorem suffix_of_last_line (last : List Char) (hlast : '\n' ∉ last) :
    ∀ (x buf1 : List Char), buf1 <:+ x ++ '\n' :: last →
    (∃ x1, buf1 = x1 ++ '\n' :: last) ∨ '\n' ∉ buf1
  | [], buf1, h => by
    rcases List.suffix_cons_iff.mp h with rfl | h2
    · exact Or.inl ⟨[], rfl⟩
    · exact Or.inr (fun hmem => hlast (h2.subset hmem))
  | a :: x, buf1, h => by
    rcases List.suffix_cons_iff.mp h with rfl | h2
    · exact Or.inl ⟨a :: x, rfl⟩
    · exact suffix_of_last_line last hlast x buf1 h2

/-- Characters read without a line feed among them leave the line feed in front of the
last line in the stream. -/
theorem rest_of_last_line (last : List Char) (x consumed buf1 : List Char)
    (h : x ++ '\n' :: last = consumed ++ buf1) (hc : '\n' ∉ consumed) :
    ∃ x1, buf1 = x1 ++ '\n' :: last := by
  induction consumed generalizing x with
  | nil => exact ⟨x, by simpa using h.symm⟩
  | cons a cs ih =>
    cases x with
    | nil =>
      simp only [List.nil_append, List.cons_append, List.cons.injEq] at h
      exact absurd (h.1 ▸ List.mem_cons_self _ _) hc
    | cons b x =>
      simp only [List.cons_append, List.cons.injEq] at h
      exact ih x h.2 (fun hm => hc (List.mem_cons_of_mem _ hm))

/-- The loop that pops back to the last `Newline` leaves the tokens at the start of a
line. -/
theorem pop_to_newline_LineStart (tokens : List Token) : LineStart (pop_to_newline tokens) := by
  unfold LineStart pop_to_newline back
  cases hd : List.dropWhile (fun t => t != Token.Newline) tokens.reverse with
  | nil => exact Or.inl rfl
  | cons a l =>
    right
    have hhead := List.head_dropWhile_not (fun t => t != Token.Newline) tokens.reverse
      (by rw [hd]; simp)
    simp only [hd, List.head_cons] at hhead
    have ha : a = Token.Newline := by simpa using hhead
    simp [ha]

/-- The loop that counts the spaces of the indentation, when it ends, has read that many
spaces and then the character it returns, which is no space. -/
theorem count_spaces_shape : ∀ (buf : List Char) (c : Char) (n n1 : Nat) (c1 : Char)
    (rest : List Char), count_spaces buf c n = some (n1, c1, rest) →
    c1 ≠ ' ' ∧ ∃ k, c :: buf = List.replicate k ' ' ++ c1 :: rest
  | [], c, n, n1, c1, rest, h => by
    simp only [count_spaces] at h
    split_ifs at h with hc
    simp only [Option.some.injEq, Prod.mk.injEq] at h
    obtain ⟨-, rfl, rfl⟩ := h
    exact ⟨hc, 0, rfl⟩
  | d :: r, c, n, n1, c1, rest, h => by
    simp only [count_spaces] at h
    split_ifs at h with hc
    · obtain ⟨h1, k, hk⟩ := count_spaces_shape r d (n + 1) n1 c1 rest h
      refine ⟨h1, k + 1, ?_⟩
      rw [hc, hk]
      rfl
    · simp only [Option.some.injEq, Prod.mk.injEq] at h
      obtain ⟨-, rfl, rfl⟩ := h
      exact ⟨hc, 0, rfl⟩

end parse

namespace parse

/-- Skipping a line reads characters other than the line feed up to the first line feed,
or finds none. -/
theorem skipLine_shape : ∀ (buf : List Char),
    (∀ rest, skipLine buf = some rest → ∃ a, buf = a ++ '\n' :: rest ∧ '\n' ∉ a)
    ∧ (skipLine buf = none → '\n' ∉ buf)
  | [] => by simp [skipLine]
  | d :: r => by
    obtain ⟨ih1, ih2⟩ := skipLine_shape r
    by_cases hd : d = '\n'
    · subst hd
      refine ⟨?_, ?_⟩
      · intro rest h
        simp only [skipLine, if_true, Option.some.injEq] at h
        subst h
        exact ⟨[], rfl, by simp⟩
      · intro h
        simp [skipLine] at h
    · refine ⟨?_, ?_⟩
      · intro rest h
        simp only [skipLine, if_neg hd] at h
        obtain ⟨a, ha, hna⟩ := ih1 rest h
        refine ⟨d :: a, by rw [ha]; rfl, ?_⟩
        intro hm
        rcases List.mem_cons.mp hm with h1 | h1
        · exact hd h1.symm
        · exact hna h1
      · intro h
        simp only [skipLine, if_neg hd] at h
        intro hm
        rcases List.mem_cons.mp hm with h1 | h1
        · exact hd h1.symm
        · exact ih2 h h1

/-- Skipping a comment on a stream in good state, followed by the `putback` of the line
feed, reads no line feed for good and leaves a tidy stream. -/
theorem ignoreLine_putback_consumed (buf : List Char) :
    let input1 := ({ buf := buf, eofbit := false, failbit := false } : IStream).ignoreLine
    (if !input1.eof then input1.putback '\n' else input1).tidy
      ∧ ∃ consumed, buf = consumed ++ (if !input1.eof then input1.putback '\n' else input1).buf
          ∧ '\n' ∉ consumed := by
  simp only [IStream.ignoreLine, IStream.good, Bool.not_false, Bool.and_self, if_true]
  cases hskip : skipLine buf with
  | none =>
    have := (skipLine_shape buf).2 hskip
    simp only [IStream.eof, Bool.not_true, Bool.false_eq_true, if_false, List.append_nil]
    exact ⟨Or.inr ⟨rfl, rfl⟩, buf, rfl, this⟩
  | some rest =>
    obtain ⟨a, ha, hna⟩ := (skipLine_shape buf).1 rest hskip
    simp only [IStream.eof, Bool.not_false, if_true, IStream.putback, Bool.false_eq_true,
      if_false]
    exact ⟨Or.inl ⟨rfl, rfl⟩, a, ha, hna⟩

/-- The digit loop of `LoadNumber` leaves a tidy stream with a part at the end of the
characters. -/
theorem read_digits_suffix : ∀ (buf parsed : List Char),
    (read_digits buf parsed).2.tidy ∧ (read_digits buf parsed).2.buf <:+ buf
  | [], parsed => by simp [read_digits, IStream.tidy]
  | d :: r, parsed => by
    simp only [read_digits]
    split_ifs
    · have := read_digits_suffix r (parsed ++ [d])
      exact ⟨this.1, this.2.trans (List.suffix_cons d r)⟩
    · exact ⟨Or.inl ⟨rfl, rfl⟩, List.suffix_refl _⟩

/-- The loop of `LoadIdentifier` leaves a tidy stream with a part at the end of the
characters. -/
theorem LoadIdentifier.loop_rest_suffix (b : Option Token) : ∀ (buf s s1 : List Char)
    (input1 : IStream), LoadIdentifier.loop b buf s = .ok (s1, input1) →
    input1.tidy ∧ input1.buf <:+ buf
  | [], s, s1, input1, h => by
    simp only [LoadIdentifier.loop] at h
    split_ifs at h
    simp only [Except.ok.injEq, Prod.mk.injEq] at h
    obtain ⟨-, rfl⟩ := h
    exact ⟨Or.inr ⟨rfl, rfl⟩, List.suffix_refl _⟩
  | c :: rest, s, s1, input1, h => by
    have hput : ∀ d : Char, d = c →
        (({ buf := rest, eofbit := false, failbit := false } : IStream).putback d).tidy
        ∧ (({ buf := rest, eofbit := false, failbit := false } : IStream).putback d).buf
            <:+ c :: rest := by
      intro d hd
      subst hd
      exact ⟨Or.inl ⟨rfl, rfl⟩, List.suffix_refl _⟩
    simp only [LoadIdentifier.loop] at h
    by_cases h1 : c = '#'
    · simp only [h1, if_true, Except.ok.injEq, Prod.mk.injEq] at h
      obtain ⟨-, rfl⟩ := h
      obtain ⟨ht, consumed, hc, -⟩ := ignoreLine_putback_consumed rest
      refine ⟨ht, c :: consumed, ?_⟩
      rw [List.cons_append, ← hc, h1]
    · simp only [h1, if_false] at h
      by_cases h2 : c = ':'
      · simp only [h2, if_true] at h
        cases b with
        | none => cases h
        | some t =>
          simp only [Except.ok.injEq, Prod.mk.injEq] at h
          obtain ⟨-, rfl⟩ := h
          exact h2 ▸ hput ':' h2.symm
      · simp only [h2, if_false] at h
        by_cases h3 : c = '(' ∨ c = ')' ∨ c = ',' ∨ c = '.'
        · simp only [h3, if_true, Except.ok.injEq, Prod.mk.injEq] at h
          obtain ⟨-, rfl⟩ := h
          exact hput c rfl
        · simp only [h3, if_false] at h
          by_cases h4 : c = '\n'
          · simp only [h4, if_true, Except.ok.injEq, Prod.mk.injEq] at h
            obtain ⟨-, rfl⟩ := h
            exact h4 ▸ hput '\n' h4.symm
          · simp only [h4, if_false] at h
            by_cases h5 : c = ' '
            · simp only [h5, if_true, Except.ok.injEq, Prod.mk.injEq] at h
              obtain ⟨-, rfl⟩ := h
              exact ⟨Or.inl ⟨rfl, rfl⟩, List.suffix_cons _ _⟩
            · simp only [h5, if_false] at h
              have := LoadIdentifier.loop_rest_suffix b rest (s ++ [c]) s1 input1 h
              exact ⟨this.1, this.2.trans (List.suffix_cons _ _)⟩

/-- The loop of `LoadString` leaves a tidy stream with a part at the end of the
characters. -/
theorem LoadString.loop_remaining_suffix (starting : Char) : ∀ (buf : List Char) (current : Char)
    (str str1 : List Char) (input1 : IStream),
    LoadString.loop starting buf current str = some (str1, input1) →
    input1.tidy ∧ input1.buf <:+ buf
  | [], current, str, str1, input1, h => by
    simp only [LoadString.loop] at h
    split_ifs at h
    simp only [Option.some.injEq, Prod.mk.injEq] at h
    obtain ⟨-, rfl⟩ := h
    exact ⟨Or.inl ⟨rfl, rfl⟩, List.suffix_refl _⟩
  | d :: rest, current, str, str1, input1, h => by
    unfold LoadString.loop at h
    by_cases h1 : current = starting
    · simp only [h1, if_true, Option.some.injEq, Prod.mk.injEq] at h
      obtain ⟨-, rfl⟩ := h
      exact ⟨Or.inl ⟨rfl, rfl⟩, List.suffix_refl _⟩
    · simp only [h1, if_false] at h
      by_cases h2 : current = backslash
      · simp only [h2, if_true] at h
        cases rest with
        | nil =>
          simp only at h
          split_ifs at h
          simp only [Option.some.injEq, Prod.mk.injEq] at h
          obtain ⟨-, rfl⟩ := h
          exact ⟨Or.inr ⟨rfl, rfl⟩, List.nil_suffix⟩
        | cons e rest2 =>
          simp only at h
          have := LoadString.loop_remaining_suffix starting rest2 e _ str1 input1 h
          exact ⟨this.1, this.2.trans ((List.suffix_cons _ _).trans (List.suffix_cons _ _))⟩
      · simp only [h2, if_false] at h
        have := LoadString.loop_remaining_suffix starting rest d _ str1 input1 h
        exact ⟨this.1, this.2.trans (List.suffix_cons _ _)⟩

end parse

namespace parse

/-- A round that dispatches a character other than the space adds one token, which is
not structural. -/
theorem LoadTokens.lexeme_appends (s s1 : LoadState) (c : Char) (input : IStream)
    (hc : c ≠ ' ') (h : LoadTokens.lexeme s c input = .next s1) :
    ∃ t, t.structural = false ∧ s1.tokens_ = s.tokens_ ++ [t] := by
  unfold LoadTokens.lexeme at h
  dsimp only at h
  split_ifs at h
  · cases h
    exact ⟨_, comparison_token_structural c, rfl⟩
  · cases h
    exact ⟨_, (by rfl), rfl⟩
  · cases h
    exact ⟨_, (by rfl), rfl⟩
  · split at h
    · cases h
      exact ⟨_, (by rfl), rfl⟩
    · cases h
  · split at h
    · rename_i t input1 hid
      cases h
      exact ⟨t, LoadIdentifier_structural _ _ _ _ hid, rfl⟩
    · cases h
  · split at h
    · cases h
      exact ⟨_, (by rfl), rfl⟩
    · cases h
  · cases h
    exact ⟨_, (by rfl), rfl⟩

/-- A round that dispatches a space leaves the tokens and the stream as they are. -/
theorem LoadTokens.lexeme_space (s : LoadState) (input : IStream) :
    LoadTokens.lexeme s ' ' input = .next { s with c := ' ', input := input } := by
  unfold LoadTokens.lexeme
  simp [squote, dquote]

/-- A round that dispatches a lexeme, on a stream in good state from which the character
`c` has been read, leaves a tidy stream with a part at the end of the characters. -/
theorem LoadTokens.lexeme_suffix (s s1 : LoadState) (c : Char) (buf : List Char)
    (h : LoadTokens.lexeme s c { buf := buf, eofbit := false, failbit := false } = .next s1) :
    s1.input.tidy ∧ s1.input.buf <:+ buf := by
  unfold LoadTokens.lexeme at h
  by_cases h1 : c = '!' ∨ c = '=' ∨ c = '<' ∨ c = '>'
  · rw [if_pos h1] at h
    cases buf with
    | nil =>
      simp only [IStream.peek, IStream.good, Bool.not_false, Bool.and_self, if_true] at h
      split_ifs at h <;> cases h <;> exact ⟨Or.inr ⟨rfl, rfl⟩, List.suffix_refl _⟩
    | cons d r =>
      simp only [IStream.peek, IStream.good, Bool.not_false, Bool.and_self, if_true] at h
      split_ifs at h
      · cases h
        simp only [IStream.ignore1, IStream.good, Bool.not_false, Bool.and_self, if_true]
        exact ⟨Or.inl ⟨rfl, rfl⟩, List.suffix_cons _ _⟩
      · cases h
        exact ⟨Or.inl ⟨rfl, rfl⟩, List.suffix_refl _⟩
  · rw [if_neg h1] at h
    by_cases h2 : c = '+' ∨ c = '-' ∨ c = '*' ∨ c = '/'
    · rw [if_pos h2] at h
      cases h
      exact ⟨Or.inl ⟨rfl, rfl⟩, List.suffix_refl _⟩
    · rw [if_neg h2] at h
      by_cases h3 : c.isDigit = true
      · rw [if_pos h3] at h
        have hsuf := read_digits_suffix buf ([] ++ [c])
        have hnum : LoadNumber (({ buf := buf, eofbit := false, failbit := false }
            : IStream).putback c)
            = (stoi (read_digits buf ([] ++ [c])).1, (read_digits buf ([] ++ [c])).2) := by
          simp [LoadNumber, IStream.putback, IStream.good, read_digits, h3]
        rw [hnum] at h
        cases hst : stoi (read_digits buf ([] ++ [c])).1 with
        | none =>
          rw [hst] at h
          cases h
        | some value =>
          rw [hst] at h
          cases h
          exact hsuf
      · rw [if_neg h3] at h
        by_cases h4 : c.isAlpha = true ∨ c = '_'
        · rw [if_pos h4] at h
          obtain ⟨t1, t2, t3, t4, t5⟩ := identifier_start c h4
          have hloop : LoadIdentifier.loop (back s.tokens_) (c :: buf) []
              = LoadIdentifier.loop (back s.tokens_) buf ([] ++ [c]) := by
            simp [LoadIdentifier.loop, t1, t2, t3, t4, t5]
          have hid : LoadIdentifier (back s.tokens_)
              (({ buf := buf, eofbit := false, failbit := false } : IStream).putback c)
              = match LoadIdentifier.loop (back s.tokens_) buf ([] ++ [c]) with
                | .ok (s1, input1) =>
                  match KEY_WORDS_MAP (String.mk s1) with
                  | some keyword => .ok (keyword, input1)
                  | none => .ok (.Id (String.mk s1), input1)
                | .error f => .error f := by
            simp only [LoadIdentifier, IStream.putback, IStream.good, Bool.false_eq_true,
              if_false, Bool.not_false, Bool.and_self, if_true, hloop]
          rw [hid] at h
          cases hl : LoadIdentifier.loop (back s.tokens_) buf ([] ++ [c]) with
          | error f =>
            rw [hl] at h
            cases h
          | ok res =>
            obtain ⟨str, input1⟩ := res
            have hsuf := LoadIdentifier.loop_rest_suffix _ _ _ _ _ hl
            rw [hl] at h
            dsimp only at h
            cases hk : KEY_WORDS_MAP (String.mk str) with
            | none =>
              rw [hk] at h
              cases h
              exact hsuf
            | some keyword =>
              rw [hk] at h
              cases h
              exact hsuf
        · rw [if_neg h4] at h
          by_cases h5 : c = squote ∨ c = dquote
          · rw [if_pos h5] at h
            cases buf with
            | nil =>
              simp only [LoadString, IStream.putback, IStream.getInt, IStream.get,
                IStream.good, Bool.false_eq_true, if_false, Bool.not_false, Bool.and_self,
                if_true, Bool.not_true, Bool.and_false] at h
              split_ifs at h
              cases h
              exact ⟨Or.inr ⟨rfl, rfl⟩, List.suffix_refl _⟩
            | cons d r =>
              have hstr : LoadString (({ buf := d :: r, eofbit := false, failbit := false }
                  : IStream).putback c) = LoadString.loop c r d [] := by
                simp [LoadString, IStream.putback, IStream.getInt, IStream.get, IStream.good]
              rw [hstr] at h
              cases hl : LoadString.loop c r d [] with
              | none =>
                rw [hl] at h
                cases h
              | some res =>
                obtain ⟨str1, input1⟩ := res
                have hsuf := LoadString.loop_remaining_suffix _ _ _ _ _ _ hl
                rw [hl] at h
                cases h
                exact ⟨hsuf.1, hsuf.2.trans (List.suffix_cons _ _)⟩
          · rw [if_neg h5] at h
            split_ifs at h <;> cases h <;> exact ⟨Or.inl ⟨rfl, rfl⟩, List.suffix_refl _⟩

end parse

namespace parse

/-- The tokens with one more token that is not structural have the token of a lexeme
last. -/
theorem ContentLast_append (tokens : List Token) (t : Token) (ht : t.structural = false) :
    ContentLast (tokens ++ [t]) :=
  ⟨t, by simp [back], ht⟩

/-- The rest of a round after the indentation step, on a stream in good state from which
the character `c` has been read: the round does not end the loop; a line feed leaves
the tokens at the start of a line; a comment or a space leaves the tokens as they are
and reads no line feed for good; any other character adds the token of a lexeme. -/
theorem LoadTokens.dispatch_effect (s : LoadState) (c : Char) (rest : List Char) :
    (∃ f, LoadTokens.dispatch s c { buf := rest, eofbit := false, failbit := false } = .fail f)
    ∨ ∃ s1, LoadTokens.dispatch s c { buf := rest, eofbit := false, failbit := false }
          = .next s1
        ∧ s1.input.tidy
        ∧ ((c = '\n' ∧ s1.input.buf = rest ∧ LineStart s1.tokens_)
          ∨ (c ≠ '\n' ∧ (c = '#' ∨ c = ' ') ∧ s1.tokens_ = s.tokens_
              ∧ ∃ consumed, rest = consumed ++ s1.input.buf ∧ '\n' ∉ consumed)
          ∨ (c ≠ '\n' ∧ c ≠ '#' ∧ c ≠ ' ' ∧ s1.input.buf <:+ rest
              ∧ ContentLast s1.tokens_)) := by
  unfold LoadTokens.dispatch
  rw [if_neg (by simp [IStream.eof])]
  by_cases h1 : c = '#'
  · rw [if_pos h1]
    right
    obtain ⟨ht, consumed, hc, hn⟩ := ignoreLine_putback_consumed rest
    exact ⟨_, rfl, ht, Or.inr (Or.inl ⟨by rw [h1]; decide, Or.inl h1, rfl, consumed, hc, hn⟩)⟩
  · rw [if_neg h1]
    by_cases h2 : c = '\n'
    · rw [if_pos h2]
      right
      by_cases h3 : back s.tokens_ = some Token.Indent ∨ back s.tokens_ = some Token.Dedent
      · rw [if_pos h3]
        exact ⟨_, rfl, Or.inl ⟨rfl, rfl⟩,
          Or.inl ⟨h2, rfl, pop_to_newline_LineStart s.tokens_⟩⟩
      · rw [if_neg h3]
        by_cases h4 : ¬ (s.tokens_.isEmpty = true ∨ back s.tokens_ = some Token.Newline)
        · rw [if_pos h4]
          exact ⟨_, rfl, Or.inl ⟨rfl, rfl⟩, Or.inl ⟨h2, rfl, Or.inr (by simp [back])⟩⟩
        · rw [if_neg h4]
          refine ⟨_, rfl, Or.inl ⟨rfl, rfl⟩, Or.inl ⟨h2, rfl, ?_⟩⟩
          rcases not_not.mp h4 with h5 | h5
          · exact Or.inl (by simpa using h5)
          · exact Or.inr h5
    · rw [if_neg h2]
      by_cases h3 : c = ' '
      · subst h3
        rw [LoadTokens.lexeme_space]
        exact Or.inr ⟨_, rfl, Or.inl ⟨rfl, rfl⟩,
          Or.inr (Or.inl ⟨h2, Or.inr rfl, rfl, [], rfl, by simp⟩)⟩
      · cases hl : LoadTokens.lexeme s c { buf := rest, eofbit := false, failbit := false } with
        | fail f => exact Or.inl ⟨f, rfl⟩
        | done tokens =>
          rcases LoadTokens.lexeme_next s c _ _ hl with ⟨f, hf⟩ | ⟨s1, hs1, -⟩
          · cases hf
          · cases hs1
        | next s1 =>
          obtain ⟨ht, hsuf⟩ := LoadTokens.lexeme_suffix s s1 c rest hl
          obtain ⟨t, hts, htok⟩ := LoadTokens.lexeme_appends s s1 c _ h3 hl
          exact Or.inr ⟨s1, rfl, ht, Or.inr (Or.inr ⟨h2, h1, h3, hsuf,
            htok ▸ ContentLast_append _ t hts⟩)⟩

end parse

namespace parse

/-- Skipping the indentation on a stream in good state from which the character `d` has
been read: the spaces read, then the character returned, which is no space. -/
theorem skip_spaces_shape (d : Char) (rest : List Char) (n : Nat) (c : Char)
    (input1 : IStream)
    (h : skip_spaces d { buf := rest, eofbit := false, failbit := false } = some (n, c, input1)) :
    c ≠ ' ' ∧ ∃ rest1 k, input1 = { buf := rest1, eofbit := false, failbit := false }
      ∧ d :: rest = List.replicate k ' ' ++ c :: rest1 := by
  unfold skip_spaces at h
  split_ifs at h with hd
  · split at h
    · rename_i n2 c2 rest2 hcount
      simp only [Option.some.injEq, Prod.mk.injEq] at h
      obtain ⟨-, rfl, rfl⟩ := h
      obtain ⟨hc, k, hk⟩ := count_spaces_shape _ _ _ _ _ _ hcount
      exact ⟨hc, rest2, k, rfl, hk⟩
    · cases h
  · simp only [Option.some.injEq, Prod.mk.injEq] at h
    obtain ⟨-, rfl, rfl⟩ := h
    exact ⟨hd, rest, 0, rfl, rfl⟩

/-- The token of a lexeme last is not the start of a line. -/
theorem ContentLast_not_LineStart (tokens : List Token) (h : ContentLast tokens) :
    ¬ (tokens.isEmpty = true ∨ back tokens = some Token.Newline) := by
  obtain ⟨t, hb, ht⟩ := h
  rintro (h1 | h1)
  · have : tokens = [] := by simpa using h1
    subst this
    simp [back] at hb
  · rw [hb] at h1
    cases h1
    cases ht

/-- From the effect of a round to the place of the loop with respect to the last line. -/
theorem InLastLine_of_effect (last : List Char) (hlast : '\n' ∉ last)
    (hcontent : ¬ BlankLine last) (s1 : LoadState) (buf rest1 : List Char) (k : Nat)
    (c : Char) (tokens1 : List Token)
    (hbuf : buf = List.replicate k ' ' ++ c :: rest1)
    (hphase : (∃ x, buf = x ++ '\n' :: last) ∨ (buf = last ∧ c ≠ ' ')
      ∨ ('\n' ∉ buf ∧ ContentLast tokens1))
    (htidy : s1.input.tidy)
    (heff : (c = '\n' ∧ s1.input.buf = rest1 ∧ LineStart s1.tokens_)
      ∨ (c ≠ '\n' ∧ (c = '#' ∨ c = ' ') ∧ s1.tokens_ = tokens1
          ∧ ∃ consumed, rest1 = consumed ++ s1.input.buf ∧ '\n' ∉ consumed)
      ∨ (c ≠ '\n' ∧ c ≠ '#' ∧ c ≠ ' ' ∧ s1.input.buf <:+ rest1 ∧ ContentLast s1.tokens_)) :
    InLastLine last s1 := by
  have hspaces : '\n' ∉ List.replicate k ' ' := by
    intro hm
    have := (List.mem_replicate.mp hm).2
    revert this
    decide
  have hsuf1 : rest1 <:+ buf := by
    rw [hbuf]
    exact (List.suffix_cons c rest1).trans (List.suffix_append _ _)
  have hcmem : c ∈ buf := by
    rw [hbuf]
    simp
  refine ⟨htidy, ?_⟩
  rcases hphase with ⟨x, hx⟩ | ⟨hB, hcs⟩ | ⟨hn, hcl⟩
  · rcases heff with ⟨hc, hb1, hls⟩ | ⟨hc, -, -, consumed, hcons, hncons⟩ | ⟨-, -, -, hsuf, hcl⟩
    · subst hc
      obtain ⟨x1, hx1⟩ := rest_of_last_line last x (List.replicate k ' ') ('\n' :: rest1)
        (by rw [← hx, hbuf]) hspaces
      cases x1 with
      | nil =>
        simp only [List.nil_append, List.cons.injEq, true_and] at hx1
        exact Or.inr (Or.inl ⟨hb1.trans hx1, hls⟩)
      | cons a x2 =>
        simp only [List.cons_append, List.cons.injEq] at hx1
        exact Or.inl ⟨x2, hb1.trans hx1.2⟩
    · left
      apply rest_of_last_line last x (List.replicate k ' ' ++ c :: consumed) s1.input.buf
      · rw [← hx, hbuf, hcons]
        simp
      · intro hm
        rcases List.mem_append.mp hm with h1 | h1
        · exact hspaces h1
        · rcases List.mem_cons.mp h1 with h2 | h2
          · exact hc h2.symm
          · exact hncons h2
    · rcases suffix_of_last_line last hlast x s1.input.buf (hx ▸ hsuf.trans hsuf1) with h1 | h1
      · exact Or.inl h1
      · exact Or.inr (Or.inr ⟨h1, hcl⟩)
  · have hnb : '\n' ∉ buf := hB ▸ hlast
    rcases heff with ⟨hc, -, -⟩ | ⟨-, hc, -, -⟩ | ⟨-, -, -, hsuf, hcl⟩
    · exact absurd (hc ▸ hcmem) hnb
    · rcases hc with hc | hc
      · exfalso
        apply hcontent
        refine ⟨k, '#' :: rest1, ?_, Or.inr ⟨rest1, rfl, fun hm => hnb (hsuf1.subset hm)⟩⟩
        rw [← hB, hbuf, hc]
      · exact absurd hc hcs
    · exact Or.inr (Or.inr ⟨fun hm => hnb ((hsuf.trans hsuf1).subset hm), hcl⟩)
  · rcases heff with ⟨hc, -, -⟩ | ⟨-, -, htok, consumed, hcons, -⟩ | ⟨-, -, -, hsuf, hcl2⟩
    · exact absurd (hc ▸ hcmem) hn
    · refine Or.inr (Or.inr ⟨?_, htok ▸ hcl⟩)
      intro hm
      apply hn
      apply hsuf1.subset
      rw [hcons]
      exact List.mem_append_right _ hm
    · exact Or.inr (Or.inr ⟨fun hm => hn ((hsuf.trans hsuf1).subset hm), hcl2⟩)

end parse

namespace parse

/-- Tokens with the token of a lexeme last, closed by `Newline` and `Eof`. -/
theorem EndsWithContentLine_of_ContentLast (tokens : List Token) (h : ContentLast tokens) :
    EndsWithContentLine (tokens ++ [Token.Newline, Token.Eof]) := by
  obtain ⟨t, hb, ht⟩ := h
  have hne : tokens ≠ [] := by
    rintro rfl
    simp [back] at hb
  have hlast : tokens.getLast hne = t := by
    rw [back, List.getLast?_eq_getLast tokens hne] at hb
    exact Option.some.inj hb
  refine ⟨tokens.dropLast, t, ?_, ht⟩
  conv_lhs => rw [← List.dropLast_append_getLast hne, hlast]
  simp

/-- At the end of the input, with the token of a lexeme last, the round ends the loop and
closes the tokens by `Newline` and `Eof`. -/
theorem LoadTokens.body_at_end (s : LoadState) (hcl : ContentLast s.tokens_)
    (htidy : s.input.tidy) (hend : s.input.eofbit = true ∨ s.input.buf = []) :
    LoadTokens.body s = .done (s.tokens_ ++ [Token.Newline, Token.Eof]) := by
  have hnls := ContentLast_not_LineStart s.tokens_ hcl
  obtain ⟨t, hb, ht⟩ := hcl
  have hne : s.tokens_.isEmpty = false := by
    cases hl : s.tokens_ with
    | nil => simp [hl, back] at hb
    | cons a l => rfl
  have heof : (s.input.get s.c).2.eof = true := by
    unfold IStream.get IStream.good IStream.eof
    rcases htidy with ⟨h1, h2⟩ | ⟨h1, -⟩
    · rcases hend with h | h
      · rw [h1] at h
        cases h
      · simp [h, h1, h2]
    · simp [h1]
  unfold LoadTokens.body
  dsimp only
  rw [if_neg hnls]
  unfold LoadTokens.dispatch
  rw [if_pos heof]
  cases t <;> simp [Token.structural] at ht <;> simp [hne, hb]

/-- A round of the loop of `LoadTokens` keeps its place with respect to the last line of a
text that has content and is not ended by a line feed, or ends the loop with the tokens
closed by `Newline` and `Eof` after the token of a lexeme. -/
theorem LoadTokens.body_KeepsLastLine (last : List Char) (hlast : '\n' ∉ last)
    (hcontent : ¬ BlankLine last) (s : LoadState) (h : InLastLine last s) :
    (LoadTokens.body s).KeepsLastLine last := by
  obtain ⟨htidy, hphase⟩ := h
  have hnonblank : last ≠ [] := by
    rintro rfl
    exact hcontent ⟨0, [], rfl, Or.inl rfl⟩
  by_cases hend : s.input.eofbit = true ∨ s.input.buf = []
  · have hcl : ContentLast s.tokens_ := by
      have hnil : s.input.buf = [] := by
        rcases hend with h1 | h1
        · rcases htidy with h2 | h2
          · rw [h2.1] at h1
            cases h1
          · exact h2.2
        · exact h1
      rcases hphase with ⟨x, hx⟩ | ⟨hB, -⟩ | ⟨-, hcl⟩
      · rw [hnil] at hx
        simp at hx
      · exact absurd (hB.symm.trans hnil) hnonblank
      · exact hcl
    rw [LoadTokens.body_at_end s hcl htidy hend]
    exact EndsWithContentLine_of_ContentLast _ hcl
  · simp only [not_or, Bool.not_eq_true] at hend
    obtain ⟨heofbit, hbufne⟩ := hend
    have hfail : s.input.failbit = false := by
      rcases htidy with h2 | h2
      · exact h2.2
      · rw [h2.1] at heofbit
        cases heofbit
    cases s with
    | mk tokens_ indent_ old_indent_ c0 input =>
    cases input with
    | mk buf eofbit failbit =>
    dsimp only at heofbit hfail hbufne hphase
    subst heofbit hfail
    cases buf with
    | nil => exact absurd rfl hbufne
    | cons d rest =>
    unfold LoadTokens.body
    simp only [IStream.get, IStream.good, Bool.not_false, Bool.and_self, if_true]
    by_cases hls : tokens_.isEmpty = true ∨ back tokens_ = some Token.Newline
    · rw [if_pos hls]
      cases hskip : skip_spaces d { buf := rest, eofbit := false, failbit := false } with
      | none => trivial
      | some res =>
        obtain ⟨n, c, input1⟩ := res
        obtain ⟨hc, rest1, k, rfl, hshape⟩ := skip_spaces_shape d rest n c input1 hskip
        dsimp only
        have hphase2 : (∃ x, d :: rest = x ++ '\n' :: last) ∨ (d :: rest = last ∧ c ≠ ' ')
            ∨ ('\n' ∉ d :: rest ∧ ContentLast tokens_) := by
          rcases hphase with hA | ⟨hB, -⟩ | ⟨hn, hcl⟩
          · exact Or.inl hA
          · exact Or.inr (Or.inl ⟨hB, hc⟩)
          · exact absurd hls (ContentLast_not_LineStart _ hcl)
        have hphase3 : (∃ x, d :: rest = x ++ '\n' :: last) ∨ (d :: rest = last ∧ c ≠ ' ')
            ∨ ('\n' ∉ d :: rest ∧ ContentLast
                (if n / 2 > indent_ then
                  tokens_ ++ List.replicate (n / 2 - indent_) Token.Indent
                else if n / 2 < indent_ then
                  tokens_ ++ List.replicate (indent_ - n / 2) Token.Dedent
                else tokens_)) := by
          rcases hphase2 with hA | hB | ⟨-, hcl⟩
          · exact Or.inl hA
          · exact Or.inr (Or.inl hB)
          · exact absurd hls (ContentLast_not_LineStart _ hcl)
        rcases LoadTokens.dispatch_effect
          { tokens_ :=
              if n / 2 > indent_ then
                tokens_ ++ List.replicate (n / 2 - indent_) Token.Indent
              else if n / 2 < indent_ then
                tokens_ ++ List.replicate (indent_ - n / 2) Token.Dedent
              else tokens_,
            indent_ := n / 2, old_indent_ := indent_, c := c0,
            input := { buf := d :: rest, eofbit := false, failbit := false } }
          c rest1 with ⟨f, hf⟩ | ⟨s1, hs1, ht1, heff⟩
        · rw [hf]
          trivial
        · rw [hs1]
          exact InLastLine_of_effect last hlast hcontent s1 (d :: rest) rest1 k c _ hshape
            hphase3 ht1 heff
    · rw [if_neg hls]
      have hphase2 : (∃ x, d :: rest = x ++ '\n' :: last) ∨ (d :: rest = last ∧ d ≠ ' ')
          ∨ ('\n' ∉ d :: rest ∧ ContentLast tokens_) := by
        rcases hphase with hA | ⟨-, hB⟩ | hC
        · exact Or.inl hA
        · exfalso
          apply hls
          rcases hB with h1 | h1
          · exact Or.inl (by simp [h1])
          · exact Or.inr h1
        · exact Or.inr (Or.inr hC)
      rcases LoadTokens.dispatch_effect
        { tokens_ := tokens_, indent_ := indent_, old_indent_ := old_indent_, c := c0,
          input := { buf := d :: rest, eofbit := false, failbit := false } }
        d rest with ⟨f, hf⟩ | ⟨s1, hs1, ht1, heff⟩
      · rw [hf]
        trivial
      · rw [hs1]
        exact InLastLine_of_effect last hlast hcontent s1 (d :: rest) rest 0 d _ rfl
          hphase2 ht1 heff

end parse

namespace parse

/-- The tokens the loop of `LoadTokens` returns on a text whose last line has content and
is not ended by a line feed end with the token of a lexeme, `Newline` and `Eof`. -/
theorem LoadTokens.loop_KeepsLastLine (last : List Char) (hlast : '\n' ∉ last)
    (hcontent : ¬ BlankLine last) : ∀ (fuel : Nat) (s : LoadState) (ts : List Token),
    InLastLine last s → LoadTokens.loop fuel s = some (.tokens ts) → EndsWithContentLine ts
  | 0, _, _, _, h => by simp [LoadTokens.loop] at h
  | fuel + 1, s, ts, hs, h => by
    have hbody := LoadTokens.body_KeepsLastLine last hlast hcontent s hs
    simp only [LoadTokens.loop] at h
    cases hb : LoadTokens.body s with
    | next s1 =>
      rw [hb] at h hbody
      exact LoadTokens.loop_KeepsLastLine last hlast hcontent fuel s1 ts hbody h
    | done tokens =>
      rw [hb] at h hbody
      simp only [Option.some.injEq, LexResult.tokens.injEq] at h
      subst h
      exact hbody
    | fail f =>
      rw [hb] at h
      simp at h

/-- The loop of `LoadTokens` starts before or at the last line of the text. -/
theorem InLastLine_init (c0 : Char) (pre last : List Char)
    (hpre : pre = [] ∨ pre.getLast? = some '\n') :
    InLastLine last (LoadState.init c0 (pre ++ last)) := by
  refine ⟨Or.inl ⟨rfl, rfl⟩, ?_⟩
  rcases hpre with rfl | hp
  · exact Or.inr (Or.inl ⟨rfl, Or.inl rfl⟩)
  · left
    have hne : pre ≠ [] := by
      rintro rfl
      simp at hp
    refine ⟨pre.dropLast, ?_⟩
    have hl : pre.getLast hne = '\n' := by
      rw [List.getLast?_eq_getLast pre hne] at hp
      exact Option.some.inj hp
    show pre ++ last = pre.dropLast ++ '\n' :: last
    conv_lhs => rw [← List.dropLast_append_getLast hne, hl]
    simp

end parse

namespace parse

/-- A letter or underscore is no operator character and no digit. -/
theorem identifier_start_branch (c : Char) (h : c.isAlpha = true ∨ c = '_') :
    ¬ (c = '!' ∨ c = '=' ∨ c = '<' ∨ c = '>') ∧ ¬ (c = '+' ∨ c = '-' ∨ c = '*' ∨ c = '/')
      ∧ ¬ c.isDigit = true := by
  refine ⟨?_, ?_, ?_⟩
  · rintro (rfl | rfl | rfl | rfl) <;> revert h <;> decide
  · rintro (rfl | rfl | rfl | rfl) <;> revert h <;> decide
  · intro hd
    rcases h with h | rfl
    · simp only [Char.isAlpha, Char.isUpper, Char.isLower, Char.isDigit, Bool.or_eq_true,
        Bool.and_eq_true, decide_eq_true_eq] at h hd
      have h1 : 48 ≤ c.val.toNat := hd.1
      have h2 : c.val.toNat ≤ 57 := hd.2
      rcases h with ⟨h3, h4⟩ | ⟨h3, h4⟩
      · have h5 : 65 ≤ c.val.toNat := h3
        omega
      · have h5 : 97 ≤ c.val.toNat := h3
        omega
    · revert hd
      decide

/-- The loop of `LoadIdentifier` appends every character at which it does not stop. -/
theorem LoadIdentifier.loop_run (b : Option Token) (tail : List Char) :
    ∀ (run s : List Char), (∀ d ∈ run, identifier_end d = false) →
    LoadIdentifier.loop b (run ++ tail) s = LoadIdentifier.loop b tail (s ++ run)
  | [], s, _ => by simp
  | d :: run, s, h => by
    have hd := h d (List.mem_cons_self _ _)
    simp only [identifier_end, Bool.or_eq_false_iff, beq_eq_false_iff_ne, ne_eq] at hd
    obtain ⟨⟨⟨⟨⟨⟨⟨a1, a2⟩, a3⟩, a4⟩, a5⟩, a6⟩, a7⟩, a8⟩ := hd
    have hstep : LoadIdentifier.loop b (d :: (run ++ tail)) s
        = LoadIdentifier.loop b (run ++ tail) (s ++ [d]) := by
      simp [LoadIdentifier.loop, a1, a2, a3, a4, a5, a6, a7, a8]
    rw [List.cons_append, hstep,
      LoadIdentifier.loop_run b tail run (s ++ [d]) (fun e he => h e (List.mem_cons_of_mem _ he))]
    simp

/-- The function `LoadIdentifier` after a letter or underscore `c` has been put back, on
the characters `run` at which an identifier does not end followed by `tail`: what the
loop does at `tail`, with the string `c`, `run` read. -/
theorem LoadIdentifier_run (b : Option Token) (c : Char) (run tail : List Char)
    (hc : c.isAlpha = true ∨ c = '_') (hrun : ∀ d ∈ run, identifier_end d = false) :
    LoadIdentifier b (({ buf := run ++ tail, eofbit := false, failbit := false } : IStream).putback c)
      = match LoadIdentifier.loop b tail (c :: run) with
        | .ok (s1, input1) => .ok (identifier_token s1, input1)
        | .error f => .error f := by
  obtain ⟨t1, t2, t3, t4, t5⟩ := identifier_start c hc
  have hloop : LoadIdentifier.loop b (c :: (run ++ tail)) []
      = LoadIdentifier.loop b tail (c :: run) := by
    have h1 : LoadIdentifier.loop b (c :: (run ++ tail)) []
        = LoadIdentifier.loop b (run ++ tail) [c] := by
      simp [LoadIdentifier.loop, t1, t2, t3, t4, t5]
    rw [h1, LoadIdentifier.loop_run b tail run [c] hrun]
    rfl
  simp only [LoadIdentifier, IStream.putback, IStream.good, Bool.false_eq_true, if_false,
    Bool.not_false, Bool.and_self, if_true, hloop]
  cases LoadIdentifier.loop b tail (c :: run) with
  | error f => rfl
  | ok res =>
    obtain ⟨s1, input1⟩ := res
    simp only [identifier_token]
    cases KEY_WORDS_MAP (String.mk s1) <;> rfl

end parse

namespace parse

/-- A round that dispatches a letter or underscore `c` followed by the characters `run`,
at which an identifier does not end, and then `tail`: the token is that of the string
`c`, `run`. -/
theorem LoadTokens.lexeme_identifier (s : LoadState) (c : Char) (run tail : List Char)
    (hc : c.isAlpha = true ∨ c = '_') (hrun : ∀ d ∈ run, identifier_end d = false) :
    LoadTokens.lexeme s c { buf := run ++ tail, eofbit := false, failbit := false }
      = match LoadIdentifier.loop (back s.tokens_) tail (c :: run) with
        | .ok (s1, input1) =>
          .next { s with tokens_ := s.tokens_ ++ [identifier_token s1], c := c,
                         input := input1 }
        | .error f => .fail f := by
  obtain ⟨n1, n2, n3⟩ := identifier_start_branch c hc
  unfold LoadTokens.lexeme
  rw [if_neg n1, if_neg n2, if_neg n3, if_pos hc, LoadIdentifier_run _ c run tail hc hrun]
  cases LoadIdentifier.loop (back s.tokens_) tail (c :: run) with
  | error f => rfl
  | ok res => rfl

/-- The token of an identifier is no layout token. -/
theorem identifier_token_structural (str : List Char) :
    (identifier_token str).structural = false := by
  unfold identifier_token
  cases h : KEY_WORDS_MAP (String.mk str) with
  | none => rfl
  | some keyword => exact KEY_WORDS_MAP_structural _ _ h

/-- The text made of a letter or underscore `c` and characters `run` at which an
identifier does not end gives the token of the string `c`, `run`, then `Newline` and
`Eof`. -/
theorem LoadTokens_single_identifier (c0 c : Char) (run : List Char)
    (hc : c.isAlpha = true ∨ c = '_') (hrun : ∀ d ∈ run, identifier_end d = false) :
    LoadTokens 2 c0 (String.mk (c :: run))
      = some (.tokens [identifier_token (c :: run), Token.Newline, Token.Eof]) := by
  obtain ⟨t1, t2, t3, t4, t5⟩ := identifier_start c hc
  have hlex := LoadTokens.lexeme_identifier
    { tokens_ := [], indent_ := 0, old_indent_ := 0, c := c0,
      input := { buf := c :: run, eofbit := false, failbit := false } } c run [] hc hrun
  rw [List.append_nil] at hlex
  have hbody1 : LoadTokens.body (LoadState.init c0 (c :: run))
      = .next { tokens_ := [identifier_token (c :: run)], indent_ := 0, old_indent_ := 0,
                c := c, input := { buf := [], eofbit := true, failbit := true } } := by
    unfold LoadTokens.body
    simp only [LoadState.init, IStream.get, IStream.good, Bool.not_false, Bool.and_self,
      if_true, List.isEmpty_nil, true_or, skip_spaces, if_neg t5, Nat.zero_div,
      lt_self_iff_false, gt_iff_lt, if_false]
    unfold LoadTokens.dispatch
    simp only [IStream.eof, Bool.false_eq_true, if_false, if_neg t1, if_neg t4]
    rw [hlex]
    simp [LoadIdentifier.loop]
  have hstr := identifier_token_structural (c :: run)
  have hbody2 : LoadTokens.body
      (LoadState.mk [identifier_token (c :: run)] 0 0 c (IStream.mk [] true true))
      = .done [identifier_token (c :: run), Token.Newline, Token.Eof] := by
    have hcl : ContentLast [identifier_token (c :: run)] := ⟨_, by simp [back], hstr⟩
    exact LoadTokens.body_at_end _ hcl (Or.inr ⟨rfl, rfl⟩) (Or.inl rfl)
  show LoadTokens.loop 2 (LoadState.init c0 (c :: run)) = _
  simp only [LoadTokens.loop, hbody1, hbody2]

end parse

namespace parse

end parse

namespace parse

end parse

namespace parse

/-- C21: on the text `a:`, whose only line has content and is not ended by a line feed,
the lexer does not return a token sequence, whatever the initial content of its variable
`c`: `LoadIdentifier` reads the last token of the token vector while the vector is still
empty, so that no `Newline` is emitted. With a token in front of the name (`if a:`) or
with a space between the name and the colon (`a :`) the lexer returns, with `Newline`
after the last token and before `Eof`, as it does for `x = 'a' + 12` and for every text
made of one name alone. On every text the lexer reaches an outcome, and in every token
sequence it returns `Eof` is the only token or the token before `Eof` is `Newline`,
`Indent` or `Dedent`; when the last line of the text has content (it is not made of
spaces and a comment only) and is not ended by a line feed, every token sequence
returned ends with the token of a lexeme, then `Newline`, then `Eof`. At the end of the
file the round closes the tokens gathered so far: when the last of them is a token other
than `Newline`, `Indent` and `Dedent`, it adds `Newline` after that token and then `Eof`;
when there is none or the last is one of the three, it adds `Eof` alone. -/
theorem LoadTokens_token_before_Eof :
    (∀ (c0 : Char) (fuel : Nat), LoadTokens (fuel + 1) c0 "a:" = some (.failure .undefined))
    ∧ (∀ (c0 : Char) (fuel : Nat) (ts : List Token),
        LoadTokens fuel c0 "a:" ≠ some (.tokens ts))
    ∧ LoadTokens 10 'x' "if a:"
      = some (.tokens [.If, .Id "a", .Char ':', .Newline, .Eof])
    ∧ LoadTokens 10 'x' "a :" = some (.tokens [.Id "a", .Char ':', .Newline, .Eof])
    ∧ LoadTokens 20 'x' "x = 'a' + 12"
      = some (.tokens [.Id "x", .Char '=', .String "a", .Char '+', .Number 12, .Newline,
          .Eof])
    ∧ (∀ (c0 c : Char) (run : List Char),
        (c.isAlpha = true ∨ c = '_') → (∀ d ∈ run, identifier_end d = false) →
        LoadTokens 2 c0 (String.mk (c :: run))
          = some (.tokens [identifier_token (c :: run), Token.Newline, Token.Eof]))
    ∧ (∀ (c0 : Char) (text : String), ∃ r, LoadTokens (text.length + 1) c0 text = some r)
    ∧ (∀ (c0 : Char) (text : String) (fuel : Nat) (ts : List Token),
        LoadTokens fuel c0 text = some (.tokens ts) →
        ts = [Token.Eof]
        ∨ ∃ pre t, ts = pre ++ [t, Token.Eof]
            ∧ (t = Token.Newline ∨ t = Token.Indent ∨ t = Token.Dedent))
    ∧ (∀ (c0 : Char) (text : String) (pre last : List Char) (fuel : Nat) (ts : List Token),
        text.data = pre ++ last →
        (pre = [] ∨ pre.getLast? = some '\n') → '\n' ∉ last → ¬ BlankLine last →
        LoadTokens fuel c0 text = some (.tokens ts) →
        ∃ front t, ts = front ++ [t, Token.Newline, Token.Eof] ∧ t.structural = false)
    ∧ (∀ (s : LoadState) (c : Char) (input : IStream) (t : Token), input.eof = true →
        back s.tokens_ = some t → t.isLayout = false →
        LoadTokens.dispatch s c input = .done (s.tokens_ ++ [Token.Newline, Token.Eof]))
    ∧ (∀ (s : LoadState) (c : Char) (input : IStream) (t : Token), input.eof = true →
        back s.tokens_ = some t → t.isLayout = true →
        LoadTokens.dispatch s c input = .done (s.tokens_ ++ [Token.Eof]))
    ∧ (∀ (s : LoadState) (c : Char) (input : IStream), input.eof = true →
        s.tokens_ = [] → LoadTokens.dispatch s c input = .done [Token.Eof]) := by
  have h1 : ∀ (c0 : Char) (fuel : Nat),
      LoadTokens (fuel + 1) c0 "a:" = some (.failure .undefined) :=
    fun _ _ => rfl
  refine ⟨h1, ?_, by decide, by decide, by decide, ?_, ?_, ?_, ?_, ?_, ?_, ?_⟩
  · intro c0 fuel ts h
    rcases fuel with _ | fuel
    · cases h
    · rw [h1 c0 fuel] at h
      cases h
  · intro c0 c run hc hrun
    exact LoadTokens_single_identifier c0 c run hc hrun
  · intro c0 text
    apply LoadTokens.loop_total
    · intro hf
      cases hf
    · show text.data.length < text.data.length + 1
      omega
  · intro c0 text fuel ts h
    obtain ⟨toks, hclosed⟩ := LoadTokens.loop_EndsClosed fuel _ ts h
    rcases hclosed with ⟨-, rfl⟩ | ⟨t, hb, hlay, rfl⟩ | ⟨t, -, -, rfl⟩
    · exact Or.inl rfl
    · right
      have hne : toks ≠ [] := by
        rintro rfl
        simp [back] at hb
      refine ⟨toks.dropLast, t, ?_, ?_⟩
      · have hlast : toks.getLast hne = t := by
          have := List.getLast?_eq_getLast toks hne
          rw [back] at hb
          rw [this] at hb
          exact Option.some.inj hb
        conv_lhs => rw [← List.dropLast_append_getLast hne, hlast]
        simp
      · cases t <;> simp [Token.isLayout] at hlay <;> simp
    · right
      exact ⟨toks, Token.Newline, by simp, Or.inl rfl⟩
  · intro c0 text pre last fuel ts htext hpre hlast hcontent h
    unfold LoadTokens at h
    rw [htext] at h
    exact LoadTokens.loop_KeepsLastLine last hlast hcontent fuel _ ts
      (InLastLine_init c0 pre last hpre) h
  · intro s c input t heof hb hlay
    have hne : s.tokens_.isEmpty = false := by
      cases hl : s.tokens_ with
      | nil => simp [hl, back] at hb
      | cons a l => rfl
    unfold LoadTokens.dispatch
    rw [if_pos heof]
    cases t <;> simp [Token.isLayout] at hlay <;> simp [hne, hb]
  · intro s c input t heof hb hlay
    have hne : s.tokens_.isEmpty = false := by
      cases hl : s.tokens_ with
      | nil => simp [hl, back] at hb
      | cons a l => rfl
    unfold LoadTokens.dispatch
    rw [if_pos heof]
    cases t <;> simp [Token.isLayout] at hlay <;> simp [hne, hb]
  · intro s c input heof hnil
    unfold LoadTokens.dispatch
    rw [if_pos heof]
    simp [hnil]

/-- Witness for C21: the text `x`, line feed, two spaces, `y` without a line feed at its
end; its last line is the two spaces and `y`. -/
theorem LoadTokens_token_before_Eof_witness :
    LoadTokens 10 'x' "x\n  y"
      = some (.tokens [.Id "x", .Newline, .Indent, .Id "y", .Newline, .Eof])
    ∧ ¬ BlankLine "  y".data
    ∧ ∃ front t, ([.Id "x", .Newline, .Indent, .Id "y", .Newline, .Eof] : List Token)
          = front ++ [t, Token.Newline, Token.Eof] ∧ t.structural = false :=
  have hcontent : ¬ BlankLine "  y".data := by
    rintro ⟨k, comment, h, hc⟩
    rcases k with _ | _ | _ | k
    · rcases hc with rfl | ⟨text, rfl, -⟩ <;> simp [List.replicate] at h
    · rcases hc with rfl | ⟨text, rfl, -⟩ <;> simp [List.replicate] at h
    · rcases hc with rfl | ⟨text, rfl, -⟩ <;> simp [List.replicate] at h
    · simp [List.replicate] at h
  ⟨by decide, hcontent,
    LoadTokens_token_before_Eof.2.2.2.2.2.2.2.2.1 'x' "x\n  y" "x\n".data "  y".data 10
      [.Id "x", .Newline, .Indent, .Id "y", .Newline, .Eof] rfl (Or.inr rfl) (by decide)
      hcontent (by decide)⟩

end parse

namespace runtime

/-- C22: method lookup does not overload on the number of parameters along the parent
chain. If the definition of `m` in a class (the first of that name in its method list)
has `k` parameters and a class of its parent chain defines `m` with `n ≠ k` parameters,
then lookup through the class resolves `m` to the definition of the class,
`HasMethod(m, n)` is false for an instance of the class, a call of `m` with `n`
arguments raises the 'no such method' error and leaves the state as it is, and
`HasMethod(m, j)` is true exactly for `j = k`; an instance of the ancestor itself does
have `m` with `n` parameters. -/
theorem HasMethod_nearest_arity (exec : Executor) (cls anc : Class) (addr : Addr)
    (m : String) (method am : Method) (k n : Nat) (args : List ObjectHolder) (st : State)
    (hcls : find_if cls.methods_ m = some method) (hk : method.formal_params.length = k)
    (hanc : anc ∈ cls.chain) (ham : find_if anc.methods_ m = some am)
    (hn : am.formal_params.length = n) (hnk : n ≠ k) (hargs : args.length = n) :
    cls.GetMethod m = some method
    ∧ HasMethod cls m n = false
    ∧ Call exec cls addr m args st = (.abrupt Call.error, st)
    ∧ (∀ j : Nat, HasMethod cls m j = true ↔ j = k)
    ∧ anc ≠ cls
    ∧ HasMethod anc m n = true := by
  have hget : ∀ (c : Class) (me : Method), find_if c.methods_ m = some me →
      c.GetMethod m = some me := by
    intro c me hfind
    obtain ⟨rest, hrest⟩ := Class.chain_head c
    rw [Class.GetMethod_eq_findSome, hrest, List.findSome?_cons, hfind]
  have h1 := hget cls method hcls
  have h2 : HasMethod cls m n = false := by
    simp only [HasMethod, h1, hk]
    simpa using fun h => hnk h.symm
  refine ⟨h1, h2, ?_, ?_, ?_, ?_⟩
  · simp [Call, hargs, h2, Call.error]
  · intro j
    simp only [HasMethod, h1, hk]
    rw [beq_iff_eq]
    exact eq_comm
  · rintro rfl
    rw [hcls] at ham
    cases ham
    exact hnk (hn.symm.trans hk)
  · simp [HasMethod, hget anc am ham, hn]

/-- Witness for C22: `Derived(Base)` defines `g()` and `Base` defines `g(x)`. -/
theorem HasMethod_nearest_arity_witness :
    find_if example_Derived.methods_ "g"
        = some (.mk "g" [] (.MethodBody (.Return (.NumericConst 2))))
    ∧ example_Base ∈ example_Derived.chain
    ∧ find_if example_Base.methods_ "g"
        = some (.mk "g" ["x"] (.MethodBody (.Return (.VariableValue ["x"]))))
    ∧ HasMethod example_Derived "g" 1 = false
    ∧ Call (ast.Execute 5) example_Derived (.own 0) "g" [some (.Number 7)] State.initial
        = (.abrupt Call.error, State.initial)
    ∧ HasMethod example_Base "g" 1 = true :=
  have hmem : example_Base ∈ example_Derived.chain :=
    List.mem_cons_of_mem _ (List.mem_singleton.mpr rfl)
  have h := HasMethod_nearest_arity (ast.Execute 5) example_Derived example_Base (.own 0) "g"
    (.mk "g" [] (.MethodBody (.Return (.NumericConst 2))))
    (.mk "g" ["x"] (.MethodBody (.Return (.VariableValue ["x"])))) 0 1 [some (.Number 7)]
    State.initial rfl rfl hmem rfl rfl (by decide) rfl
  ⟨rfl, hmem, rfl, h.2.1, h.2.2.1, h.2.2.2.2.2⟩

end runtime

namespace parse

/-- A token other than `Newline` may be added at the end. -/
theorem NewlinesOk_append_token (tokens : List Token) (t : Token) (h : NewlinesOk tokens)
    (ht : t ≠ Token.Newline) : NewlinesOk (tokens ++ [t]) := by
  obtain ⟨hhead, hchain⟩ := h
  refine ⟨?_, ?_⟩
  · cases tokens with
    | nil => simpa using ht
    | cons a l => simpa using hhead
  · rw [List.chain'_append]
    refine ⟨hchain, List.chain'_singleton t, ?_⟩
    intro x _ y hy hnl
    have : y = t := by simpa using hy.symm
    exact absurd (this ▸ hnl) ht

/-- Tokens other than `Newline` may be added at the end. -/
theorem NewlinesOk_append_list : ∀ (extra tokens : List Token), NewlinesOk tokens →
    (∀ u ∈ extra, u ≠ Token.Newline) → NewlinesOk (tokens ++ extra)
  | [], tokens, h, _ => by simpa using h
  | u :: extra, tokens, h, hall => by
    have h1 := NewlinesOk_append_token tokens u h (hall u (List.mem_cons_self _ _))
    have h2 := NewlinesOk_append_list extra (tokens ++ [u]) h1
      (fun v hv => hall v (List.mem_cons_of_mem _ hv))
    simpa using h2

/-- A `Newline` may be added after a token other than `Newline`, `Indent`, `Dedent`. -/
theorem NewlinesOk_append_Newline (tokens : List Token) (h : NewlinesOk tokens)
    (hne : tokens ≠ []) (h1 : back tokens ≠ some Token.Newline)
    (h2 : back tokens ≠ some Token.Indent) (h3 : back tokens ≠ some Token.Dedent) :
    NewlinesOk (tokens ++ [Token.Newline]) := by
  obtain ⟨hhead, hchain⟩ := h
  refine ⟨?_, ?_⟩
  · cases tokens with
    | nil => exact absurd rfl hne
    | cons a l => simpa using hhead
  · rw [List.chain'_append]
    refine ⟨hchain, List.chain'_singleton _, ?_⟩
    intro x hx y _ _
    have hb : back tokens = some x := by simpa [back] using hx
    cases x <;> first | rfl | exact absurd hb h1 | exact absurd hb h2 | exact absurd hb h3

/-- A prefix of good tokens is good. -/
theorem NewlinesOk_initial (l1 l : List Token) (hp : l1 <+: l) (h : NewlinesOk l) :
    NewlinesOk l1 := by
  obtain ⟨hhead, hchain⟩ := h
  refine ⟨?_, List.Chain'.prefix hchain hp⟩
  obtain ⟨rest, rfl⟩ := hp
  cases l1 with
  | nil => simp
  | cons a l => simpa using hhead

/-- The loop that pops back to the last `Newline` leaves a prefix of the tokens. -/
theorem pop_to_newline_initial (tokens : List Token) : pop_to_newline tokens <+: tokens := by
  unfold pop_to_newline
  rw [← List.reverse_suffix, List.reverse_reverse]
  exact List.dropWhile_suffix _

end parse

namespace parse

/-- A round that dispatches a lexeme keeps the `Newline` tokens good. -/
theorem LoadTokens.lexeme_NewlinesOk (s : LoadState) (c : Char) (input : IStream)
    (h : NewlinesOk s.tokens_) : (LoadTokens.lexeme s c input).NewlinesOk := by
  rcases LoadTokens.lexeme_next s c input _ rfl with ⟨f, hf⟩ | ⟨s1, hs1, -, -, htok⟩
  · rw [hf]
    trivial
  · rw [hs1]
    show NewlinesOk s1.tokens_
    rcases htok with heq | ⟨t, ht, heq⟩
    · rw [heq]
      exact h
    · rw [heq]
      apply NewlinesOk_append_token _ _ h
      rintro rfl
      cases ht

/-- The rest of a round after the indentation step keeps the `Newline` tokens good. -/
theorem LoadTokens.dispatch_NewlinesOk (s : LoadState) (c : Char) (input : IStream)
    (h : NewlinesOk s.tokens_) : (LoadTokens.dispatch s c input).NewlinesOk := by
  have hlex := LoadTokens.lexeme_NewlinesOk s c input h
  have hEof : ∀ tokens : List Token, NewlinesOk tokens → NewlinesOk (tokens ++ [Token.Eof]) :=
    fun tokens ht => NewlinesOk_append_token tokens _ ht (by decide)
  unfold LoadTokens.dispatch
  dsimp only
  by_cases heof : input.eof = true
  · rw [if_pos heof]
    show NewlinesOk _
    split_ifs with hcond
    · obtain ⟨hne, h1, h2, h3⟩ := hcond
      have hne2 : s.tokens_ ≠ [] := by
        intro hnil
        simp [hnil] at hne
      exact hEof _ (NewlinesOk_append_Newline _ h hne2 h1 h2 h3)
    · exact hEof _ h
  · rw [if_neg heof]
    by_cases h1 : c = '#'
    · rw [if_pos h1]
      exact h
    · rw [if_neg h1]
      by_cases h2 : c = '\n'
      · rw [if_pos h2]
        by_cases h3 : back s.tokens_ = some Token.Indent ∨ back s.tokens_ = some Token.Dedent
        · rw [if_pos h3]
          exact NewlinesOk_initial _ _ (pop_to_newline_initial _) h
        · rw [if_neg h3]
          by_cases h4 : ¬ (s.tokens_.isEmpty = true ∨ back s.tokens_ = some Token.Newline)
          · rw [if_pos h4]
            simp only [not_or] at h3 h4
            have hne2 : s.tokens_ ≠ [] := by
              intro hnil
              simp [hnil] at h4
            exact NewlinesOk_append_Newline _ h hne2 h4.2 h3.1 h3.2
          · rw [if_neg h4]
            exact h
      · rw [if_neg h2]
        exact hlex

/-- A round of the loop of `LoadTokens` keeps the `Newline` tokens good. -/
theorem LoadTokens.body_NewlinesOk (s : LoadState) (h : NewlinesOk s.tokens_) :
    (LoadTokens.body s).NewlinesOk := by
  unfold LoadTokens.body
  dsimp only
  split_ifs
  · split
    · trivial
    · apply LoadTokens.dispatch_NewlinesOk
      dsimp only
      split_ifs
      · exact NewlinesOk_append_list _ _ h
          (fun u hu => by rw [(List.mem_replicate.mp hu).2]; decide)
      · exact NewlinesOk_append_list _ _ h
          (fun u hu => by rw [(List.mem_replicate.mp hu).2]; decide)
      · exact h
  · exact LoadTokens.dispatch_NewlinesOk s _ _ h

/-- The tokens the loop of `LoadTokens` returns, started with good `Newline` tokens, have
good `Newline` tokens. -/
theorem LoadTokens.loop_NewlinesOk : ∀ (fuel : Nat) (s : LoadState) (ts : List Token),
    NewlinesOk s.tokens_ → LoadTokens.loop fuel s = some (.tokens ts) → NewlinesOk ts
  | 0, _, _, _, h => by simp [LoadTokens.loop] at h
  | fuel + 1, s, ts, hs, h => by
    have hbody := LoadTokens.body_NewlinesOk s hs
    simp only [LoadTokens.loop] at h
    cases hb : LoadTokens.body s with
    | next s1 =>
      rw [hb] at h hbody
      exact LoadTokens.loop_NewlinesOk fuel s1 ts hbody h
    | done tokens =>
      rw [hb] at h hbody
      simp only [Option.some.injEq, LexResult.tokens.injEq] at h
      subst h
      exact hbody
    | fail f =>
      rw [hb] at h
      simp at h

/-- C23: the lexer reaches an outcome on every text, and every token sequence it returns
does not start with `Newline`, and each `Newline` in it stands directly after a token
that is none of `Newline`, `Indent`, `Dedent` and `Eof`: there are no two adjacent
`Newline` tokens and no `Newline` directly after an `Indent` or a `Dedent`. -/
theorem LoadTokens_Newline_after_content (c0 : Char) (text : String) :
    (∃ r, LoadTokens (text.length + 1) c0 text = some r)
    ∧ ∀ (fuel : Nat) (ts : List Token), LoadTokens fuel c0 text = some (.tokens ts) →
        ts.head? ≠ some Token.Newline
        ∧ (∀ (pre post : List Token) (a : Token), ts = pre ++ a :: Token.Newline :: post →
            a ≠ Token.Newline ∧ a ≠ Token.Indent ∧ a ≠ Token.Dedent ∧ a ≠ Token.Eof)
        ∧ (∀ (pre post : List Token), ts ≠ pre ++ Token.Newline :: Token.Newline :: post)
        ∧ (∀ (pre post : List Token), ts ≠ pre ++ Token.Indent :: Token.Newline :: post)
        ∧ (∀ (pre post : List Token), ts ≠ pre ++ Token.Dedent :: Token.Newline :: post) := by
  constructor
  · apply LoadTokens.loop_total
    · intro hf
      cases hf
    · show text.data.length < text.data.length + 1
      omega
  · intro fuel ts h
    obtain ⟨hhead, hchain⟩ := LoadTokens.loop_NewlinesOk fuel (LoadState.init c0 text.data) ts
      ⟨by simp [LoadState.init], by simp [LoadState.init]⟩ h
    obtain ⟨front, hts, hfront⟩ := LoadTokens.loop_EofLast fuel (LoadState.init c0 text.data) ts
      (by simp [LoadState.init]) h
    have hkey : ∀ (pre post : List Token) (a : Token), ts = pre ++ a :: Token.Newline :: post →
        a ≠ Token.Newline ∧ a ≠ Token.Indent ∧ a ≠ Token.Dedent ∧ a ≠ Token.Eof := by
      intro pre post a heq
      have hc := hchain
      rw [heq, List.chain'_split] at hc
      have hrel : NewlineAfterContent a Token.Newline := (List.chain'_cons.mp hc.2).1
      have hlay := hrel rfl
      refine ⟨?_, ?_, ?_, ?_⟩
      · rintro rfl
        cases hlay
      · rintro rfl
        cases hlay
      · rintro rfl
        cases hlay
      · rintro rfl
        have hd : front = pre ++ Token.Eof :: (Token.Newline :: post).dropLast := by
          have hdrop := congrArg List.dropLast (hts.symm.trans heq)
          rw [List.dropLast_concat] at hdrop
          rw [hdrop, List.dropLast_append_of_ne_nil _ (by simp),
            List.dropLast_cons_of_ne_nil (by simp)]
        have hmem : Token.Eof ∈ front := by
          rw [hd]
          simp
        exact hfront hmem
    refine ⟨hhead, hkey, ?_, ?_, ?_⟩
    · intro pre post heq
      exact (hkey pre post _ heq).1 rfl
    · intro pre post heq
      exact (hkey pre post _ heq).2.1 rfl
    · intro pre post heq
      exact (hkey pre post _ heq).2.2.1 rfl

/-- Witness for C23: the text of an empty line, an indented empty line, `x`, two empty
lines and an indented `y`. -/
theorem LoadTokens_Newline_after_content_witness :
    LoadTokens 20 'x' "\n  \nx\n\n\n  y\n"
      = some (.tokens [.Id "x", .Newline, .Indent, .Id "y", .Newline, .Dedent, .Eof])
    ∧ ([.Id "x", .Newline, .Indent, .Id "y", .Newline, .Dedent, .Eof] : List Token).head?
        ≠ some Token.Newline :=
  ⟨by decide, ((LoadTokens_Newline_after_content 'x' "\n  \nx\n\n\n  y\n").2 20 _
    (by decide)).1⟩

end parse
